import Mathlib

/-!
# Linear-probing hash table of `util/probing_hash_table.hh`

A shallow embedding of `util::ProbingHashTable`, `util::AutoProbing`, the
`LoadTable` / `SaveTable` pair of `util/serialize_hash_table.hh` and the
`IsNewLine` predicate of `preprocess/commoncrawl_dedupe_save_table_main.cc`.

Modelling conventions.

* Memory is a map from bucket index to `Entry`; `begin_` is that map, seen from
  the first bucket of the block.  Indices at or beyond `buckets_` lie outside
  the block; their content is whatever the allocator left there.
* Keys are natural numbers and `equal_` is equality on them.
* `buckets_`, `allocated_` and `threshold_` count buckets or bytes of a block
  that exists in memory and are natural numbers.  The live counter `entries_`
  is a `size_t` that the code increments blindly, so `++entries_` is taken
  modulo `2 ^ 64`.
* Floating-point steps are IEEE operations on exact values: a conversion or a
  product is the exact result rounded to the nearest value with 24 (`float`)
  or 53 (`double`) significant bits, ties to even (`roundToBits`), and the
  conversion back to an integer truncates.  The byte count of `Size` is a
  `uint64_t` and wraps modulo `2 ^ 64`.
* A call either returns, raises `ProbingSizeException`, or does not return at
  all (a probe loop that never meets its exit condition, or `% buckets_` with
  `buckets_ = 0`).  A probe loop does not change the table while it runs, so a
  loop that has looked at `buckets_` slots in a row without leaving walks the
  same slots again for ever; the loops are therefore run for `buckets_` steps.
-/

set_option autoImplicit false

namespace util

/-! ## Entries -/

/-- Entry record: the key plus the remaining (non-key) bytes of the record. -/
structure Entry where
  key : Nat
  val : Nat
deriving DecidableEq, Repr

/-- Accessor `GetKey` of the entry contract. -/
def Entry.GetKey (e : Entry) : Nat := e.key

/-- Mutator `SetKey` of the entry contract: only the key changes. -/
def Entry.SetKey (e : Entry) (to_key : Nat) : Entry := { e with key := to_key }

/-- Byte size of one entry (two 8-byte fields). -/
def sizeofEntry : Nat := 16

/-- Functor `IdentityHash`. -/
def IdentityHash (arg : Nat) : Nat := arg

/-- Modulus of `size_t` arithmetic. -/
def sizeMod : Nat := 2 ^ 64

/-! ## Floating-point rounding -/

/-- Number of low binary digits that `m` has beyond its leading `p` digits:
the least `d` with `m / 2 ^ d < 2 ^ p`.  The first argument bounds the search;
128 steps cover every value below `2 ^ (p + 128)`. -/
def excessBits (p : Nat) : Nat → Nat → Nat
  | 0, _ => 0
  | fuel + 1, m => if m < 2 ^ p then 0 else excessBits p fuel (m / 2) + 1

/-- The integer `m` rounded to the nearest integer with at most `p`
significant binary digits, ties to the even significand: the IEEE rounding of
`float` (`p = 24`) and `double` (`p = 53`) in the default mode.  Scaling by a
power of two commutes with it, so the rounding of `m / 2 ^ s` is
`roundToBits p m / 2 ^ s`. -/
def roundToBits (p m : Nat) : Nat :=
  if 2 * (m % 2 ^ excessBits p 128 m) > 2 ^ excessBits p 128 m ∨
      (2 * (m % 2 ^ excessBits p 128 m) = 2 ^ excessBits p 128 m ∧
        m / 2 ^ excessBits p 128 m % 2 = 1) then
    (m / 2 ^ excessBits p 128 m + 1) * 2 ^ excessBits p 128 m
  else m / 2 ^ excessBits p 128 m * 2 ^ excessBits p 128 m

/-- Significand of the `double` nearest to `1.2`, which is
`doubleOfSixFifths / 2 ^ 52`. -/
def doubleOfSixFifths : Nat := 5404319552844595

/-- Significand of the `double` nearest to `0.8`, which is
`doubleOfFourFifths / 2 ^ 53`. -/
def doubleOfFourFifths : Nat := 7205759403792794

/-! ## ProbingHashTable -/

/-- Fields of `ProbingHashTable`; `end_` is `begin_ + buckets_`. -/
structure ProbingHashTable where
  begin_ : Nat → Entry
  buckets_ : Nat
  invalid_ : Nat
  hash_ : Nat → Nat
  entries_ : Nat

/-- How a call on a table ends: it returns a value and leaves a table, it
raises `ProbingSizeException` and leaves a table, or it never returns. -/
inductive Outcome (σ α : Type) where
  | ret (t : σ) (a : α)
  | raise (t : σ)
  | hang

/-- Table after a call, when the call came back (normally or by raising). -/
def Outcome.after {σ α : Type} : Outcome σ α → Option σ
  | Outcome.ret t _ => some t
  | Outcome.raise t => some t
  | Outcome.hang => none

/-- The call ended by raising `ProbingSizeException`. -/
def Outcome.raised {σ α : Type} : Outcome σ α → Bool
  | Outcome.raise _ => true
  | _ => false

/-- How a probe loop of the lookup family ends. -/
inductive Probe where
  | hit (i : Nat)
  | gap (i : Nat)
  | spin
deriving DecidableEq, Repr

/-- Result of `Find`: `true` with the out-parameter, `false`, or no return. -/
inductive FindResult where
  | found (out : Nat)
  | notFound
  | spin
deriving DecidableEq, Repr

/-- How `CheckConsistency` ends. -/
inductive CheckResult where
  | ok
  | completelyFull
  | inconsistent (position : Nat)
  | outOfBlock
deriving DecidableEq, Repr

namespace ProbingHashTable

/-- Static `Size(entries, multiplier)` for the `float` multiplier
`num / 2 ^ shift`: `static_cast<float>(entries)` is `roundToBits 24 entries`,
the `float` product is the exact product rounded to 24 bits, the cast to
`uint64_t` truncates, and `entries + 1` and `buckets * sizeof(Entry)` are
`uint64_t` operations.  (The cast is defined for a product below `2 ^ 64`,
which holds whenever `entries <= 2 ^ 63` and the multiplier is `1.5`.) -/
def Size (entries num shift : Nat) : Nat :=
  max ((entries + 1) % sizeMod) (roundToBits 24 (num * roundToBits 24 entries) / 2 ^ shift)
    * sizeofEntry % sizeMod

/-- Constructor `ProbingHashTable(start, allocated, invalid, hash_func)`. -/
def create (start : Nat → Entry) (allocated invalid : Nat) (hash_func : Nat → Nat) :
    ProbingHashTable :=
  { begin_ := start, buckets_ := allocated / sizeofEntry, invalid_ := invalid,
    hash_ := hash_func, entries_ := 0 }

/-- Constructor `ProbingHashTable(start, allocated, entries, invalid, hash_func)`. -/
def createWith (start : Nat → Entry) (allocated entries invalid : Nat)
    (hash_func : Nat → Nat) : ProbingHashTable :=
  { begin_ := start, buckets_ := allocated / sizeofEntry, invalid_ := invalid,
    hash_ := hash_func, entries_ := entries }

/-- Assignment `*i = e` to the bucket at index `i`. -/
def store (t : ProbingHashTable) (i : Nat) (e : Entry) : ProbingHashTable :=
  { t with begin_ := fun j => if j = i then e else t.begin_ j }

/-- Step `if (++i == end_) i = begin_;` of every probe loop. -/
def advance (t : ProbingHashTable) (i : Nat) : Nat :=
  if i + 1 = t.buckets_ then 0 else i + 1

/-- Index computed by `Ideal`: `hash_(key) % buckets_`. -/
def Ideal (t : ProbingHashTable) (key : Nat) : Nat := t.hash_ key % t.buckets_

/-- Loop of `Find`, `UnsafeMutableFind` and `FindOrInsert`, started at bucket
`i` and run for at most `fuel` buckets. -/
def probe (t : ProbingHashTable) (key : Nat) : Nat → Nat → Probe
  | 0, _ => Probe.spin
  | fuel + 1, i =>
    if (t.begin_ i).GetKey = key then Probe.hit i
    else if (t.begin_ i).GetKey = t.invalid_ then Probe.gap i
    else probe t key fuel (t.advance i)

/-- Loop of `UncheckedInsert`: the first bucket holding the invalid key. -/
def firstEmpty (t : ProbingHashTable) : Nat → Nat → Option Nat
  | 0, _ => none
  | fuel + 1, i =>
    if (t.begin_ i).GetKey = t.invalid_ then some i
    else firstEmpty t fuel (t.advance i)

/-- Method `UncheckedInsert`; `none` when the loop never finds an empty bucket. -/
def UncheckedInsert (t : ProbingHashTable) (e : Entry) : Option (ProbingHashTable × Nat) :=
  match t.firstEmpty t.buckets_ (t.Ideal e.GetKey) with
  | none => none
  | some i => some (t.store i e, i)

/-- Expression `++entries_` on the `size_t` counter. -/
def incrEntries (t : ProbingHashTable) : ProbingHashTable :=
  { t with entries_ := (t.entries_ + 1) % sizeMod }

/-- Method `Insert`: the counter is incremented before the capacity test. -/
def Insert (t : ProbingHashTable) (e : Entry) : Outcome ProbingHashTable Nat :=
  let t1 := t.incrEntries
  if t1.entries_ ≥ t1.buckets_ then Outcome.raise t1
  else
    match t1.UncheckedInsert e with
    | none => Outcome.hang
    | some (t2, i) => Outcome.ret t2 i

/-- Method `FindOrInsert`: the returned pair is the `bool` and `out`. -/
def FindOrInsert (t : ProbingHashTable) (e : Entry) : Outcome ProbingHashTable (Bool × Nat) :=
  match t.probe e.GetKey t.buckets_ (t.Ideal e.GetKey) with
  | Probe.hit i => Outcome.ret t (true, i)
  | Probe.gap i =>
    let t1 := t.incrEntries
    if t1.entries_ ≥ t1.buckets_ then Outcome.raise t1
    else Outcome.ret (t1.store i e) (false, i)
  | Probe.spin => Outcome.hang

/-- Method `Find`. -/
def Find (t : ProbingHashTable) (key : Nat) : FindResult :=
  match t.probe key t.buckets_ (t.hash_ key % t.buckets_) with
  | Probe.hit i => FindResult.found i
  | Probe.gap _ => FindResult.notFound
  | Probe.spin => FindResult.spin

/-- Method `UnsafeMutableFind`. -/
def UnsafeMutableFind (t : ProbingHashTable) (key : Nat) : FindResult :=
  match t.probe key t.buckets_ (t.hash_ key % t.buckets_) with
  | Probe.hit i => FindResult.found i
  | Probe.gap _ => FindResult.notFound
  | Probe.spin => FindResult.spin

/-- Call `std::fill(first, last, e)` on the block. -/
def fill (t : ProbingHashTable) (first last : Nat) (e : Entry) : ProbingHashTable :=
  { t with begin_ := fun j => if first ≤ j ∧ j < last then e else t.begin_ j }

/-- Method `Clear`; `junk` is the uninitialised local `Entry invalid`. -/
def Clear (t : ProbingHashTable) (junk : Entry) : ProbingHashTable :=
  { t.fill 0 t.buckets_ (junk.SetKey t.invalid_) with entries_ := 0 }

/-- Method `SizeNoSerialization`. -/
def SizeNoSerialization (t : ProbingHashTable) : Nat := t.entries_

/-- Method `DoubleTo`. -/
def DoubleTo (t : ProbingHashTable) : Nat := t.buckets_ * 2 * sizeofEntry

/-- First loop of `Double`: the occupied run at the start of the old block is
copied to `rolled_over` and its keys are set to invalid.  `n` counts the
buckets left before `old_end`. -/
def rollOver (t : ProbingHashTable) : Nat → Nat → ProbingHashTable × List Entry
  | 0, _ => (t, [])
  | n + 1, i =>
    if (t.begin_ i).GetKey = t.invalid_ then (t, [])
    else
      let r := rollOver (t.store i ((t.begin_ i).SetKey t.invalid_)) n (i + 1)
      (r.1, t.begin_ i :: r.2)

/-- Second loop of `Double`: every occupied bucket below `old_end` is emptied
and its entry inserted again.  `n` counts the buckets left before `old_end`. -/
def reinsert : ProbingHashTable → Nat → Nat → Option ProbingHashTable
  | t, 0, _ => some t
  | t, n + 1, i =>
    if (t.begin_ i).GetKey = t.invalid_ then reinsert t n (i + 1)
    else
      match (t.store i ((t.begin_ i).SetKey t.invalid_)).UncheckedInsert (t.begin_ i) with
      | none => none
      | some r => reinsert r.1 n (i + 1)

/-- Third loop of `Double`: the roll-over entries are put back. -/
def putBack : ProbingHashTable → List Entry → Option ProbingHashTable
  | t, [] => some t
  | t, e :: es =>
    match t.UncheckedInsert e with
    | none => none
    | some r => putBack r.1 es

/-- Method `Double(new_base, clear_new)`; `junk` is the uninitialised local
`Entry invalid`.  `none` when one of the insertions never returns. -/
def Double (t : ProbingHashTable) (new_base : Nat → Entry) (clear_new : Bool)
    (junk : Entry) : Option ProbingHashTable :=
  let old_end := t.buckets_
  let t1 := { t with begin_ := new_base, buckets_ := t.buckets_ * 2 }
  let t2 := if clear_new then t1.fill old_end t1.buckets_ (junk.SetKey t1.invalid_) else t1
  let r := t2.rollOver old_end 0
  match r.1.reinsert old_end 0 with
  | none => none
  | some t3 => t3.putBack r.2

/-- Initial loop of `CheckConsistency`: the last bucket holding the invalid
key among the first `n`, `none` when `last` ends at `begin_ - 1`. -/
def lastGap (t : ProbingHashTable) : Nat → Option Nat
  | 0 => none
  | n + 1 => if (t.begin_ n).GetKey = t.invalid_ then some n else lastGap t n

/-- Test `ideal <= last` where `last` may be `begin_ - 1`. -/
def leLast (ideal : Nat) : Option Nat → Bool
  | none => false
  | some l => decide (ideal ≤ l)

/-- Second loop of `CheckConsistency` (the wrap-around run at the beginning).
It has no bound of its own: `n` counts the buckets left inside the block, and
leaving the block is reported as `Sum.inr CheckResult.outOfBlock`.  On exit at
a gap the position is returned. -/
def checkHead (t : ProbingHashTable) (last : Option Nat) : Nat → Nat → Sum Nat CheckResult
  | 0, _ => Sum.inr CheckResult.outOfBlock
  | n + 1, i =>
    if (t.begin_ i).GetKey = t.invalid_ then Sum.inl i
    else if t.Ideal (t.begin_ i).GetKey > i ∧ leLast (t.Ideal (t.begin_ i).GetKey) last = true then
      Sum.inr (CheckResult.inconsistent i)
    else checkHead t last n (i + 1)

/-- Third loop of `CheckConsistency`, from `i` to `end_`; `n` counts the
buckets left. -/
def checkTail (t : ProbingHashTable) : Nat → Nat → Nat → CheckResult
  | 0, _, _ => CheckResult.ok
  | n + 1, i, pre_gap =>
    if (t.begin_ i).GetKey = t.invalid_ then checkTail t n (i + 1) i
    else if t.Ideal (t.begin_ i).GetKey > i ∨ t.Ideal (t.begin_ i).GetKey ≤ pre_gap then
      CheckResult.inconsistent i
    else checkTail t n (i + 1) pre_gap

/-- Method `CheckConsistency`. -/
def CheckConsistency (t : ProbingHashTable) : CheckResult :=
  let last := t.lastGap t.buckets_
  if last = some 0 then CheckResult.completelyFull
  else
    match t.checkHead last t.buckets_ 0 with
    | Sum.inr r => r
    | Sum.inl i => t.checkTail (t.buckets_ - i) i i

/-! ### Specification vocabulary for the probing table -/

/-- Key held by bucket `i`. -/
def keyAt (t : ProbingHashTable) (i : Nat) : Nat := (t.begin_ i).GetKey

/-- Some bucket of the block holds the invalid key (I3, second half). -/
def HasGap (t : ProbingHashTable) : Prop :=
  ∃ i, i < t.buckets_ ∧ t.keyAt i = t.invalid_

/-- Some bucket of the block holds key `k`. -/
def Stored (t : ProbingHashTable) (k : Nat) : Prop :=
  ∃ i, i < t.buckets_ ∧ t.keyAt i = k

/-- Bucket `i` is met by the forward walk from bucket `h` (wrapping past the
end) before any empty bucket is. -/
def Reach (t : ProbingHashTable) (h i : Nat) : Prop :=
  ∃ s, s < t.buckets_ ∧ (h + s) % t.buckets_ = i ∧
    ∀ r, r < s → t.keyAt ((h + r) % t.buckets_) ≠ t.invalid_

/-- Invariant I1: no two occupied buckets share a key. -/
def I1 (t : ProbingHashTable) : Prop :=
  ∀ i, i < t.buckets_ → ∀ j, j < t.buckets_ →
    t.keyAt i ≠ t.invalid_ → t.keyAt i = t.keyAt j → i = j

/-- Invariant I2: every occupied bucket is reached from the ideal bucket of
its key. -/
def I2 (t : ProbingHashTable) : Prop :=
  ∀ i, i < t.buckets_ → t.keyAt i ≠ t.invalid_ → t.Reach (t.Ideal (t.keyAt i)) i

/-- Occupied entries among the first `n` buckets, as a multiset. -/
def liveUpTo (t : ProbingHashTable) : Nat → Multiset Entry
  | 0 => 0
  | n + 1 => if t.keyAt n = t.invalid_ then liveUpTo t n else t.begin_ n ::ₘ liveUpTo t n

/-- Occupied entries of the block, as a multiset. -/
def live (t : ProbingHashTable) : Multiset Entry := t.liveUpTo t.buckets_

instance (t : ProbingHashTable) : Decidable t.HasGap := by
  unfold HasGap; infer_instance

instance (t : ProbingHashTable) (k : Nat) : Decidable (t.Stored k) := by
  unfold Stored; infer_instance

instance (t : ProbingHashTable) (h i : Nat) : Decidable (t.Reach h i) := by
  unfold Reach; infer_instance

instance (t : ProbingHashTable) : Decidable t.I1 := by
  unfold I1; infer_instance

instance (t : ProbingHashTable) : Decidable t.I2 := by
  unfold I2; infer_instance

/-- Bucket `j` is met by the walk from `h` over occupied buckets all of which
lie below `i` or at or above `b` (the buckets `Double` will not empty again
once its second loop stands at `i`). -/
def ReachSettled (t : ProbingHashTable) (i b h j : Nat) : Prop :=
  ∃ s, s < t.buckets_ ∧ (h + s) % t.buckets_ = j ∧
    ∀ r, r < s → t.keyAt ((h + r) % t.buckets_) ≠ t.invalid_ ∧
      ((h + r) % t.buckets_ < i ∨ b ≤ (h + r) % t.buckets_)

/-- State of the second loop of `Double` standing at bucket `i` of an old
block of `b` buckets: entries below `i` or in the new half are settled,
entries from `i` on still sit at or after their old ideal bucket. -/
structure Rehoming (b : Nat) (t : ProbingHashTable) (i : Nat) : Prop where
  size : t.buckets_ = 2 * b
  settled : ∀ j, j < 2 * b → (j < i ∨ b ≤ j) → t.keyAt j ≠ t.invalid_ →
    t.ReachSettled i b (t.Ideal (t.keyAt j)) j
  pending : ∀ j, i ≤ j → j < b → t.keyAt j ≠ t.invalid_ → t.hash_ (t.keyAt j) % b ≤ j

/-- Counting invariant of a run: I2, no more occupied buckets than the
counter says, fewer occupied buckets than buckets, and a counter that is at
most the number `n` of calls made since the block was cleared. -/
structure Counted (n : Nat) (t : ProbingHashTable) : Prop where
  i2 : t.I2
  le_entries : Multiset.card t.live ≤ t.entries_
  lt_buckets : Multiset.card t.live < t.buckets_
  le_calls : t.entries_ ≤ n

/-- One public operation on a probing table.  `double` is `Double` with the
default `clear_new = true` on the block that extends the current one by
`upper`. -/
inductive Op where
  | clear (junk : Entry)
  | insert (e : Entry)
  | findOrInsert (e : Entry)
  | double (upper : Nat → Entry) (junk : Entry)

/-- Block handed to `Double`: the old image below `buckets_`, `upper` above. -/
def extend (t : ProbingHashTable) (upper : Nat → Entry) : Nat → Entry :=
  fun j => if j < t.buckets_ then t.begin_ j else upper j

/-- Run one operation. -/
def applyOp (t : ProbingHashTable) : Op → Outcome ProbingHashTable Unit
  | Op.clear junk => Outcome.ret (t.Clear junk) ()
  | Op.insert e =>
    match t.Insert e with
    | Outcome.ret t1 _ => Outcome.ret t1 ()
    | Outcome.raise t1 => Outcome.raise t1
    | Outcome.hang => Outcome.hang
  | Op.findOrInsert e =>
    match t.FindOrInsert e with
    | Outcome.ret t1 _ => Outcome.ret t1 ()
    | Outcome.raise t1 => Outcome.raise t1
    | Outcome.hang => Outcome.hang
  | Op.double upper junk =>
    match t.Double (t.extend upper) true junk with
    | some t1 => Outcome.ret t1 ()
    | none => Outcome.hang

/-- Run a sequence of operations none of which raises; `none` as soon as one
raises or does not return. -/
def runOps : ProbingHashTable → List Op → Option ProbingHashTable
  | t, [] => some t
  | t, op :: ops =>
    match t.applyOp op with
    | Outcome.ret t1 _ => runOps t1 ops
    | Outcome.raise _ => none
    | Outcome.hang => none

/-- Run a sequence of operations, carrying on with the table a raising call
leaves behind; `none` when a call does not return. -/
def runThrough : ProbingHashTable → List Op → Option ProbingHashTable
  | t, [] => some t
  | t, op :: ops =>
    match (t.applyOp op).after with
    | some t1 => runThrough t1 ops
    | none => none

/-- Insert the entries one after the other with `Insert`; `none` when a call
raises or does not return. -/
def insertAll : ProbingHashTable → List Entry → Option ProbingHashTable
  | t, [] => some t
  | t, e :: es =>
    match t.Insert e with
    | Outcome.ret t1 _ => insertAll t1 es
    | Outcome.raise _ => none
    | Outcome.hang => none

/-- Insert the entries one after the other with `FindOrInsert`; `none` when a
call raises or does not return. -/
def findOrInsertAll : ProbingHashTable → List Entry → Option ProbingHashTable
  | t, [] => some t
  | t, e :: es =>
    match t.FindOrInsert e with
    | Outcome.ret t1 _ => findOrInsertAll t1 es
    | Outcome.raise _ => none
    | Outcome.hang => none

end ProbingHashTable

/-! ## AutoProbing -/

/-- Fields of `AutoProbing`; `mem_` owns the block that `backend_.begin_` views. -/
structure AutoProbing where
  allocated_ : Nat
  backend_ : ProbingHashTable
  threshold_ : Nat

/-- What the surroundings hand to a call: the content `call_realloc` leaves in
the bytes it appends, and the content of an uninitialised local `Entry`. -/
structure Env where
  fresh : Nat → Entry
  junk : Entry

namespace AutoProbing

/-- Constructor `AutoProbing(initial_size, invalid, hash_func)` over the
block `mem` returned by `MallocOrThrow`.  The multiplier `1.5` is the `float`
`3 / 2 ^ 1`.  `threshold_ = initial_size * 1.2` is a `double` product:
`initial_size` converted to `double`, times the `double` nearest to `1.2`,
rounded to 53 bits and truncated on assignment (defined for a product below
`2 ^ 64`, so for every `initial_size <= 2 ^ 63`). -/
def create (mem : Nat → Entry) (junk : Entry) (initial_size invalid : Nat)
    (hash_func : Nat → Nat) : AutoProbing :=
  { allocated_ := ProbingHashTable.Size initial_size 3 1,
    backend_ := (ProbingHashTable.create mem (ProbingHashTable.Size initial_size 3 1)
      invalid hash_func).Clear junk,
    threshold_ := roundToBits 53 (doubleOfSixFifths * roundToBits 53 initial_size) / 2 ^ 52 }

/-- Constructor `AutoProbing(mem, entries, allocated)`: `Key()` is `0` and
`Hash()` is `defaultHash`.  In `0.8 * float(allocated) / float(sizeof(Entry))`
the byte count is rounded to `float`, the product with the `double` nearest
to `0.8` is rounded to 53 bits, the division by `16.0` is exact, and the cast
to `size_t` truncates. -/
def load (defaultHash : Nat → Nat) (mem : Nat → Entry) (entries allocated : Nat) :
    AutoProbing :=
  { allocated_ := allocated,
    backend_ := ProbingHashTable.createWith mem allocated entries 0 defaultHash,
    threshold_ :=
      roundToBits 53 (doubleOfFourFifths * roundToBits 24 allocated) / (2 ^ 53 * sizeofEntry) }

/-- Method `Size`. -/
def Size (a : AutoProbing) : Nat := a.backend_.SizeNoSerialization

/-- Method `Allocated`. -/
def Allocated (a : AutoProbing) : Nat := a.allocated_

/-- Method `Begin`. -/
def Begin (a : AutoProbing) : Nat → Entry := a.backend_.begin_

/-- Method `Find`. -/
def Find (a : AutoProbing) (key : Nat) : FindResult := a.backend_.Find key

/-- Method `DoubleIfNeeded`; `none` when `Double` does not return. -/
def DoubleIfNeeded (a : AutoProbing) (env : Env) : Option AutoProbing :=
  if a.Size < a.threshold_ then some a
  else
    match a.backend_.Double (a.backend_.extend env.fresh) true env.junk with
    | none => none
    | some b =>
      some { allocated_ := a.backend_.DoubleTo, backend_ := b, threshold_ := a.threshold_ * 2 }

/-- Method `Insert`: `DoubleIfNeeded`, then the backend's `UncheckedInsert`. -/
def Insert (a : AutoProbing) (env : Env) (e : Entry) : Outcome AutoProbing Nat :=
  match a.DoubleIfNeeded env with
  | none => Outcome.hang
  | some a1 =>
    match a1.backend_.UncheckedInsert e with
    | none => Outcome.hang
    | some r => Outcome.ret { a1 with backend_ := r.1 } r.2

/-- Method `FindOrInsert`: `DoubleIfNeeded`, then the backend's `FindOrInsert`. -/
def FindOrInsert (a : AutoProbing) (env : Env) (e : Entry) :
    Outcome AutoProbing (Bool × Nat) :=
  match a.DoubleIfNeeded env with
  | none => Outcome.hang
  | some a1 =>
    match a1.backend_.FindOrInsert e with
    | Outcome.ret b r => Outcome.ret { a1 with backend_ := b } r
    | Outcome.raise b => Outcome.raise { a1 with backend_ := b }
    | Outcome.hang => Outcome.hang

/-- Call `FindOrInsert` once per entry, collecting the returned flags; `none`
when a call raises or does not return. -/
def findOrInsertSeq : AutoProbing → List (Env × Entry) → Option (AutoProbing × List Bool)
  | a, [] => some (a, [])
  | a, c :: cs =>
    match a.FindOrInsert c.1 c.2 with
    | Outcome.ret a1 r =>
      match findOrInsertSeq a1 cs with
      | some (a2, flags) => some (a2, r.1 :: flags)
      | none => none
    | Outcome.raise _ => none
    | Outcome.hang => none

/-- Call `Insert` once per entry; `none` when a call does not return. -/
def insertSeq : AutoProbing → List (Env × Entry) → Option AutoProbing
  | a, [] => some a
  | a, c :: cs =>
    match a.Insert c.1 c.2 with
    | Outcome.ret a1 _ => insertSeq a1 cs
    | Outcome.raise _ => none
    | Outcome.hang => none

/-- Headroom of the growable table: the threshold and the live count are both
below the bucket count. -/
def Headroom (a : AutoProbing) : Prop :=
  a.threshold_ < a.backend_.buckets_ ∧ a.backend_.entries_ < a.backend_.buckets_

/-- Some call of the sequence of `FindOrInsert` calls raises
`ProbingSizeException`; a call that does not return ends the sequence. -/
def someCallRaises : AutoProbing → List (Env × Entry) → Prop
  | _, [] => False
  | a, c :: cs =>
    match a.FindOrInsert c.1 c.2 with
    | Outcome.ret a1 _ => someCallRaises a1 cs
    | Outcome.raise _ => True
    | Outcome.hang => False

/-- Every call of the sequence of `FindOrInsert` calls finds, once its
`DoubleIfNeeded` is through, the live count at least 2 below the bucket
count. -/
def headroomKept : AutoProbing → List (Env × Entry) → Prop
  | _, [] => True
  | a, c :: cs =>
    (∀ a1, a.DoubleIfNeeded c.1 = some a1 → a1.Size + 2 ≤ a1.backend_.buckets_) ∧
    ∀ a2 r, a.FindOrInsert c.1 c.2 = Outcome.ret a2 r → headroomKept a2 cs

/-- The table has recorded exactly the keys of `seen`: it has headroom, its
backend satisfies I2 and stores the keys of `seen` and no other, and the
counter is the number of distinct keys of `seen`, which are all proper
64-bit keys. -/
structure Tracks (a : AutoProbing) (seen : List Nat) : Prop where
  headroom : a.Headroom
  i2 : a.backend_.I2
  card : Multiset.card a.backend_.live = a.backend_.entries_
  count : a.backend_.entries_ = seen.toFinset.card
  stored : ∀ k, k ≠ a.backend_.invalid_ → (a.backend_.Stored k ↔ k ∈ seen)
  small : ∀ k, k ∈ seen → k < sizeMod ∧ k ≠ a.backend_.invalid_
  inv_small : a.backend_.invalid_ < sizeMod

/-- The table is the one the size constructor builds for initial size 10,
doubled `k` times: `15 * 2 ^ k` buckets, as many bytes allocated as these
take, and threshold `12 * 2 ^ k`. -/
def Grown (a : AutoProbing) (k : Nat) : Prop :=
  a.backend_.buckets_ = 15 * 2 ^ k ∧ a.Allocated = 15 * 2 ^ k * sizeofEntry ∧
    a.threshold_ = 12 * 2 ^ k

end AutoProbing

/-! ## Concrete tables -/

/-- A cleared block of `B` buckets with invalid key `0` and the identity
hash, the parameters of the deduplication tool. -/
def clearedTable (B : Nat) : ProbingHashTable :=
  (ProbingHashTable.create (fun _ => ⟨1, 1⟩) (B * sizeofEntry) 0 IdentityHash).Clear ⟨1, 1⟩

/-- The cleared block of 4 buckets after `FindOrInsert` of key 5. -/
def tableWithFive : ProbingHashTable :=
  (clearedTable 4).incrEntries.store 1 ⟨5, 1⟩

/-- Declaration `Table table;` of the deduplication tool: initial size 10,
invalid key `0`, identity hash. -/
def defaultTable : AutoProbing :=
  AutoProbing.create (fun _ => ⟨1, 1⟩) ⟨1, 1⟩ 10 0 IdentityHash

/-- Surroundings that hand out the entry `(1, 1)` everywhere. -/
def plainEnv : Env := ⟨fun _ => ⟨1, 1⟩, ⟨1, 1⟩⟩

/-- Three insertions and a doubling. -/
def exampleOps : List ProbingHashTable.Op :=
  [ProbingHashTable.Op.insert ⟨3, 1⟩, ProbingHashTable.Op.insert ⟨7, 2⟩,
    ProbingHashTable.Op.findOrInsert ⟨6, 1⟩,
    ProbingHashTable.Op.double (fun _ => ⟨1, 1⟩) ⟨1, 1⟩]

/-- The block of 8 buckets that `exampleOps` leave of a cleared block of 4
buckets: keys 3, 6 and 7 in buckets 3, 6 and 7. -/
def exampleRun : ProbingHashTable :=
  (((clearedTable 4).Clear ⟨1, 1⟩).runOps exampleOps).getD (clearedTable 4)

/-- Three `FindOrInsert` calls: keys 5, 6 and 5 again. -/
def exampleCalls : List (Env × Entry) :=
  [(plainEnv, ⟨5, 1⟩), (plainEnv, ⟨6, 1⟩), (plainEnv, ⟨5, 2⟩)]

/-- A buffer of 15 buckets (240 bytes) loaded with 3 recorded entries. -/
def loadedTable : AutoProbing :=
  AutoProbing.load IdentityHash (fun _ => ⟨0, 0⟩) 3 240

/-- A buffer of 31 bytes, which is not a whole number of entries, loaded with
no recorded entry. -/
def oddLoadedTable : AutoProbing :=
  AutoProbing.load IdentityHash (fun _ => ⟨0, 0⟩) 0 31

/-- Keys held by the buckets of the block, in order. -/
def ProbingHashTable.keys (t : ProbingHashTable) : List Nat :=
  (List.range t.buckets_).map t.keyAt

/-! ## Serialisation -/

/-- File written by `SaveTable`: the two header words, then the bucket array
of `allocated` bytes, read bucket by bucket. -/
structure TableFile where
  allocated : Nat
  entries : Nat
  image : List Entry

/-- Function `SaveTable`. -/
def SaveTable (table : AutoProbing) : TableFile :=
  { allocated := table.Allocated,
    entries := table.Size,
    image := (List.range (table.Allocated / sizeofEntry)).map table.Begin }

/-- Function `LoadTable`: the block from `MallocOrThrow` holds the image and,
outside it, `outside`; `Table(mem, entries, allocated)` is move-assigned. -/
def LoadTable (defaultHash : Nat → Nat) (outside : Nat → Entry) (f : TableFile) :
    AutoProbing :=
  AutoProbing.load defaultHash (fun j => (f.image[j]?).getD (outside j))
    f.entries f.allocated

/-- A file whose entry-count field has been overwritten with `n`, the rest
left as it was. -/
def TableFile.withEntries (f : TableFile) (n : Nat) : TableFile :=
  { allocated := f.allocated, entries := n, image := f.image }

/-! ## Deduplication predicate -/

/-- Function `IsNewLine`; `MurmurHashNative` is the 64-bit content hash with
seed 1, the local `entry` starts out as `env.junk`. -/
def IsNewLine (MurmurHashNative : String → Nat) (table : AutoProbing) (env : Env)
    (l : String) : Outcome AutoProbing Bool :=
  match table.FindOrInsert env (env.junk.SetKey (MurmurHashNative l)) with
  | Outcome.ret t r => Outcome.ret t (!r.1)
  | Outcome.raise t => Outcome.raise t
  | Outcome.hang => Outcome.hang

/-- Call `IsNewLine` once per line, collecting the answers; `none` when a
call raises or does not return. -/
def isNewLineSeq (MurmurHashNative : String → Nat) :
    AutoProbing → List (Env × String) → Option (AutoProbing × List Bool)
  | a, [] => some (a, [])
  | a, c :: cs =>
    match IsNewLine MurmurHashNative a c.1 c.2 with
    | Outcome.ret a1 r =>
      match isNewLineSeq MurmurHashNative a1 cs with
      | some (a2, answers) => some (a2, r :: answers)
      | none => none
    | Outcome.raise _ => none
    | Outcome.hang => none

/-- Flags of a sequence of lookups: `true` where the key occurred earlier. -/
def seenBefore : List Nat → List Nat → List Bool
  | _, [] => []
  | seen, k :: ks => decide (k ∈ seen) :: seenBefore (k :: seen) ks

/-! ## Start of the deduplication tool -/

/-- Library function `strcmp`: zero exactly when the strings are equal,
otherwise the sign of the comparison. -/
def strcmp (a b : String) : Int :=
  if a = b then 0 else if a < b then -1 else 1

/-- Operator `!` of C on an `int`. -/
def cNot (x : Int) : Bool := x == 0

/-- How `main` of the deduplication tool starts: it prints the usage text and
returns 1, or it calls `LoadTable` on a file name, or it keeps the table that
`Table table;` declared. -/
inductive Start where
  | usage
  | loads (name : String)
  | fresh
deriving DecidableEq, Repr

/-- Function `main` up to the loop over `file_to_remove`: `argv` is the
argument vector, program name included. -/
def mainStart (argv : List String) : Start :=
  if argv.length > 4 ∨ argv.length < 4 then Start.usage
  else if cNot (strcmp "/dev/null" (argv.getD 2 "")) then Start.loads (argv.getD 2 "")
  else Start.fresh

/-! ## More concrete tables -/

/-- Three `FindOrInsert` calls with the keys 5, 6 and 7. -/
def threeCalls : List (Env × Entry) :=
  [(plainEnv, ⟨5, 1⟩), (plainEnv, ⟨6, 1⟩), (plainEnv, ⟨7, 1⟩)]

/-- The table of the deduplication tool after `threeCalls`. -/
def tableOfThree : AutoProbing :=
  ((defaultTable.findOrInsertSeq threeCalls).map Prod.fst).getD defaultTable

/-- Entries with the keys `first + 1, ..., first + n`, for `Insert` or
`FindOrInsert` in a row. -/
def callsFrom (first n : Nat) : List (Env × Entry) :=
  (List.range n).map (fun i => (plainEnv, ⟨first + i + 1, 1⟩))

/-- The cleared block of 4 buckets after `Insert` of the keys 1, 2 and 3:
bucket 0 is its only empty bucket. -/
def oneTwoThree : ProbingHashTable :=
  ((clearedTable 4).insertAll [⟨1, 1⟩, ⟨2, 1⟩, ⟨3, 1⟩]).getD (clearedTable 4)

/-- The block of `oneTwoThree` with key 4 written to bucket 0: no bucket is
empty. -/
def fullOfFour : ProbingHashTable := oneTwoThree.store 0 ⟨4, 1⟩

/-- The table of the deduplication tool after `Insert` of the keys 1 to 15,
`none` when one of the calls does not return. -/
def fifteenInserted : Option AutoProbing := defaultTable.insertSeq (callsFrom 0 15)

/-- Thirteen `FindOrInsert` calls with the distinct keys 0, 1, ..., 12, the
first of which is the invalid key of `defaultTable`. -/
def callsWithSentinel : List (Env × Entry) := (plainEnv, ⟨0, 1⟩) :: callsFrom 0 12

/-- A stand-in for the content hash on short examples: the length of the
line, so that the empty line hashes to the invalid key 0. -/
def lengthAsHash (l : String) : Nat := l.length

/-- Three lines for `IsNewLine`: the empty line, "ab", and the empty line
again. -/
def exampleLines : List (Env × String) := [(plainEnv, ""), (plainEnv, "ab"), (plainEnv, "")]

/-! # Properties -/

namespace ProbingHashTable

/-! ## Walking the block -/

theorem keyAt_def (t : ProbingHashTable) (i : Nat) : (t.begin_ i).GetKey = t.keyAt i := rfl

theorem advance_eq (t : ProbingHashTable) {i : Nat} (hi : i < t.buckets_) :
    t.advance i = (i + 1) % t.buckets_ := by
  unfold advance
  split
  · next h => rw [h, Nat.mod_self]
  · next h => rw [Nat.mod_eq_of_lt (by omega)]

theorem advance_lt (t : ProbingHashTable) {i : Nat} (hi : i < t.buckets_) :
    t.advance i < t.buckets_ := by
  unfold advance
  split <;> omega

theorem walk_step (N h r : Nat) : ((h + 1) % N + r) % N = (h + (r + 1)) % N := by
  rw [Nat.mod_add_mod]
  congr 1
  omega

theorem walk_lt (N h s : Nat) (hN : 0 < N) : (h + s) % N < N := Nat.mod_lt _ hN

/-- Every bucket of the block lies on the walk from any other. -/
theorem walk_cover (N h g : Nat) (hh : h < N) (hg : g < N) :
    ∃ s, s < N ∧ (h + s) % N = g := by
  by_cases hle : h ≤ g
  · exact ⟨g - h, by omega, by rw [show h + (g - h) = g by omega, Nat.mod_eq_of_lt hg]⟩
  · refine ⟨N - h + g, by omega, ?_⟩
    rw [show h + (N - h + g) = g + N by omega, Nat.add_mod_right, Nat.mod_eq_of_lt hg]

/-- Position of the walk, without `%`. -/
theorem walk_split (N h s : Nat) (hh : h < N) (hs : s ≤ N) :
    (h + s) % N = if h + s < N then h + s else h + s - N := by
  split
  · next h1 => exact Nat.mod_eq_of_lt h1
  · next h1 =>
    rw [Nat.mod_eq_sub_mod (by omega), Nat.mod_eq_of_lt (by omega)]

theorem probe_succ (t : ProbingHashTable) (k f i : Nat) :
    t.probe k (f + 1) i =
      if t.keyAt i = k then Probe.hit i
      else if t.keyAt i = t.invalid_ then Probe.gap i
      else t.probe k f (t.advance i) := rfl

theorem firstEmpty_succ (t : ProbingHashTable) (f i : Nat) :
    t.firstEmpty (f + 1) i =
      if t.keyAt i = t.invalid_ then some i else t.firstEmpty f (t.advance i) := rfl

theorem probe_skip (t : ProbingHashTable) (k : Nat) :
    ∀ (s f h : Nat), h < t.buckets_ →
      (∀ r, r < s → t.keyAt ((h + r) % t.buckets_) ≠ k ∧
        t.keyAt ((h + r) % t.buckets_) ≠ t.invalid_) →
      t.probe k (s + f) h = t.probe k f ((h + s) % t.buckets_) := by
  intro s
  induction s with
  | zero =>
    intro f h hh _
    rw [Nat.zero_add, Nat.add_zero, Nat.mod_eq_of_lt hh]
  | succ s ih =>
    intro f h hh hr
    have h0 := hr 0 (Nat.succ_pos s)
    rw [Nat.add_zero, Nat.mod_eq_of_lt hh] at h0
    rw [show s + 1 + f = (s + f) + 1 by omega]
    have hrest : ∀ r, r < s → t.keyAt ((t.advance h + r) % t.buckets_) ≠ k ∧
        t.keyAt ((t.advance h + r) % t.buckets_) ≠ t.invalid_ := by
      intro r hrs
      rw [t.advance_eq hh, walk_step]
      exact hr (r + 1) (by omega)
    rw [probe_succ, if_neg h0.1, if_neg h0.2, ih f _ (t.advance_lt hh) hrest, t.advance_eq hh,
      walk_step]

theorem firstEmpty_skip (t : ProbingHashTable) :
    ∀ (s f h : Nat), h < t.buckets_ →
      (∀ r, r < s → t.keyAt ((h + r) % t.buckets_) ≠ t.invalid_) →
      t.firstEmpty (s + f) h = t.firstEmpty f ((h + s) % t.buckets_) := by
  intro s
  induction s with
  | zero =>
    intro f h hh _
    rw [Nat.zero_add, Nat.add_zero, Nat.mod_eq_of_lt hh]
  | succ s ih =>
    intro f h hh hr
    have h0 := hr 0 (Nat.succ_pos s)
    rw [Nat.add_zero, Nat.mod_eq_of_lt hh] at h0
    rw [show s + 1 + f = (s + f) + 1 by omega]
    have hrest : ∀ r, r < s → t.keyAt ((t.advance h + r) % t.buckets_) ≠ t.invalid_ := by
      intro r hrs
      rw [t.advance_eq hh, walk_step]
      exact hr (r + 1) (by omega)
    rw [firstEmpty_succ, if_neg h0, ih f _ (t.advance_lt hh) hrest, t.advance_eq hh, walk_step]

/-- What `firstEmpty` returns is the first empty bucket of the walk. -/
theorem firstEmpty_sound (t : ProbingHashTable) :
    ∀ (f h q : Nat), h < t.buckets_ → t.firstEmpty f h = some q →
      ∃ s, s < f ∧ (h + s) % t.buckets_ = q ∧ t.keyAt q = t.invalid_ ∧
        ∀ r, r < s → t.keyAt ((h + r) % t.buckets_) ≠ t.invalid_ := by
  intro f
  induction f with
  | zero => intro h q _ hq; simp [firstEmpty] at hq
  | succ f ih =>
    intro h q hh hq
    rw [firstEmpty_succ] at hq
    by_cases he : t.keyAt h = t.invalid_
    · rw [if_pos he] at hq
      cases hq
      exact ⟨0, Nat.succ_pos f, by rw [Nat.add_zero, Nat.mod_eq_of_lt hh], he,
        fun r hr => absurd hr (Nat.not_lt_zero r)⟩
    · rw [if_neg he] at hq
      obtain ⟨s, hs, hpos, hk, hall⟩ := ih _ q (t.advance_lt hh) hq
      rw [t.advance_eq hh, walk_step] at hpos
      refine ⟨s + 1, by omega, hpos, hk, ?_⟩
      intro r hr
      cases r with
      | zero => rw [Nat.add_zero, Nat.mod_eq_of_lt hh]; exact he
      | succ r =>
        have := hall r (by omega)
        rw [t.advance_eq hh, walk_step] at this
        exact this

/-- A gap on the walk within the fuel makes `firstEmpty` return. -/
theorem firstEmpty_complete (t : ProbingHashTable) (f h : Nat) (hh : h < t.buckets_)
    (hgap : ∃ s, s < f ∧ t.keyAt ((h + s) % t.buckets_) = t.invalid_) :
    ∃ q, t.firstEmpty f h = some q := by
  classical
  have hex : ∃ s, s < f ∧ t.keyAt ((h + s) % t.buckets_) = t.invalid_ := hgap
  let s := Nat.find hex
  have hs : s < f ∧ t.keyAt ((h + s) % t.buckets_) = t.invalid_ := Nat.find_spec hex
  have hmin : ∀ r, r < s → t.keyAt ((h + r) % t.buckets_) ≠ t.invalid_ := by
    intro r hr hc
    exact Nat.find_min hex hr ⟨by omega, hc⟩
  refine ⟨(h + s) % t.buckets_, ?_⟩
  have hf : f = s + (f - s - 1 + 1) := by omega
  rw [hf, t.firstEmpty_skip s _ h hh hmin, firstEmpty_succ, if_pos hs.2]

theorem firstEmpty_of_gap (t : ProbingHashTable) (h : Nat) (hh : h < t.buckets_)
    (hg : t.HasGap) : ∃ q, t.firstEmpty t.buckets_ h = some q := by
  obtain ⟨g, hg, hk⟩ := hg
  obtain ⟨s, hs, hpos⟩ := walk_cover t.buckets_ h g hh hg
  exact t.firstEmpty_complete _ h hh ⟨s, hs, by rw [hpos]; exact hk⟩

/-- The lookup loop stops at the first bucket of the walk that holds the key
or is empty. -/
theorem probe_stop (t : ProbingHashTable) (k s f h : Nat) (hh : h < t.buckets_)
    (hs : s < f)
    (hbefore : ∀ r, r < s → t.keyAt ((h + r) % t.buckets_) ≠ k ∧
        t.keyAt ((h + r) % t.buckets_) ≠ t.invalid_) :
    t.probe k f h =
      if t.keyAt ((h + s) % t.buckets_) = k then Probe.hit ((h + s) % t.buckets_)
      else if t.keyAt ((h + s) % t.buckets_) = t.invalid_ then
        Probe.gap ((h + s) % t.buckets_)
      else t.probe k (f - s - 1) (t.advance ((h + s) % t.buckets_)) := by
  have hf : f = s + (f - s - 1 + 1) := by omega
  conv => lhs; rw [hf, t.probe_skip k s _ h hh hbefore, probe_succ]

/-- What the lookup loop returns, read off the walk. -/
theorem probe_sound (t : ProbingHashTable) (k : Nat) :
    ∀ (f h : Nat), h < t.buckets_ →
      match t.probe k f h with
      | Probe.hit i => ∃ s, s < f ∧ (h + s) % t.buckets_ = i ∧ t.keyAt i = k ∧
          ∀ r, r < s → t.keyAt ((h + r) % t.buckets_) ≠ k ∧
            t.keyAt ((h + r) % t.buckets_) ≠ t.invalid_
      | Probe.gap i => ∃ s, s < f ∧ (h + s) % t.buckets_ = i ∧ t.keyAt i ≠ k ∧
          t.keyAt i = t.invalid_ ∧
          ∀ r, r < s → t.keyAt ((h + r) % t.buckets_) ≠ k ∧
            t.keyAt ((h + r) % t.buckets_) ≠ t.invalid_
      | Probe.spin => ∀ r, r < f → t.keyAt ((h + r) % t.buckets_) ≠ k ∧
            t.keyAt ((h + r) % t.buckets_) ≠ t.invalid_ := by
  intro f
  induction f with
  | zero =>
    intro h _
    simp [probe]
  | succ f ih =>
    intro h hh
    have hz : (h + 0) % t.buckets_ = h := by rw [Nat.add_zero, Nat.mod_eq_of_lt hh]
    rw [probe_succ]
    by_cases hk : t.keyAt h = k
    · rw [if_pos hk]
      exact ⟨0, Nat.succ_pos f, hz, hk, fun r hr => absurd hr (Nat.not_lt_zero r)⟩
    · rw [if_neg hk]
      by_cases he : t.keyAt h = t.invalid_
      · rw [if_pos he]
        exact ⟨0, Nat.succ_pos f, hz, hk, he, fun r hr => absurd hr (Nat.not_lt_zero r)⟩
      · rw [if_neg he]
        have key := ih (t.advance h) (t.advance_lt hh)
        have shift : ∀ r, (t.advance h + r) % t.buckets_ = (h + (r + 1)) % t.buckets_ := by
          intro r; rw [t.advance_eq hh, walk_step]
        have ext : ∀ s, (∀ r, r < s → t.keyAt ((t.advance h + r) % t.buckets_) ≠ k ∧
            t.keyAt ((t.advance h + r) % t.buckets_) ≠ t.invalid_) →
            ∀ r, r < s + 1 → t.keyAt ((h + r) % t.buckets_) ≠ k ∧
              t.keyAt ((h + r) % t.buckets_) ≠ t.invalid_ := by
          intro s hall r hr
          cases r with
          | zero => rw [hz]; exact ⟨hk, he⟩
          | succ r => rw [← shift]; exact hall r (by omega)
        revert key
        cases t.probe k f (t.advance h) with
        | hit i =>
          rintro ⟨s, hs, hpos, hki, hall⟩
          exact ⟨s + 1, by omega, by rw [← shift]; exact hpos, hki, ext s hall⟩
        | gap i =>
          rintro ⟨s, hs, hpos, hki, hei, hall⟩
          exact ⟨s + 1, by omega, by rw [← shift]; exact hpos, hki, hei, ext s hall⟩
        | spin =>
          intro hall
          exact ext f hall

/-! ## Buckets after a store -/

@[simp] theorem store_buckets (t : ProbingHashTable) (i : Nat) (e : Entry) :
    (t.store i e).buckets_ = t.buckets_ := rfl

@[simp] theorem store_invalid (t : ProbingHashTable) (i : Nat) (e : Entry) :
    (t.store i e).invalid_ = t.invalid_ := rfl

@[simp] theorem store_hash (t : ProbingHashTable) (i : Nat) (e : Entry) :
    (t.store i e).hash_ = t.hash_ := rfl

@[simp] theorem store_entries (t : ProbingHashTable) (i : Nat) (e : Entry) :
    (t.store i e).entries_ = t.entries_ := rfl

@[simp] theorem store_Ideal (t : ProbingHashTable) (i : Nat) (e : Entry) (k : Nat) :
    (t.store i e).Ideal k = t.Ideal k := rfl

theorem store_begin_same (t : ProbingHashTable) (i : Nat) (e : Entry) :
    (t.store i e).begin_ i = e := by
  simp [store]

theorem store_begin_other (t : ProbingHashTable) {i j : Nat} (e : Entry) (h : j ≠ i) :
    (t.store i e).begin_ j = t.begin_ j := by
  simp [store, h]

theorem store_keyAt_same (t : ProbingHashTable) (i : Nat) (e : Entry) :
    (t.store i e).keyAt i = e.key := by
  simp [keyAt, store, Entry.GetKey]

theorem store_keyAt_other (t : ProbingHashTable) {i j : Nat} (e : Entry) (h : j ≠ i) :
    (t.store i e).keyAt j = t.keyAt j := by
  simp [keyAt, store, h]

theorem Ideal_lt (t : ProbingHashTable) (k : Nat) (hN : 0 < t.buckets_) :
    t.Ideal k < t.buckets_ := Nat.mod_lt _ hN

/-- A walk stays a walk when no bucket on it is emptied. -/
theorem Reach_mono {t u : ProbingHashTable} {h i : Nat} (hr : t.Reach h i)
    (hb : u.buckets_ = t.buckets_)
    (hocc : ∀ x, x < t.buckets_ → t.keyAt x ≠ t.invalid_ → u.keyAt x ≠ u.invalid_) :
    u.Reach h i := by
  obtain ⟨s, hs, hpos, hall⟩ := hr
  refine ⟨s, by rw [hb]; exact hs, by rw [hb]; exact hpos, ?_⟩
  intro r hrs
  rw [hb]
  exact hocc _ (Nat.mod_lt _ (by omega)) (hall r hrs)

/-- Writing an entry into an empty bucket that its own walk reaches keeps I2. -/
theorem I2_store (t : ProbingHashTable) (q : Nat) (e : Entry) (hI : t.I2)
    (hq : t.keyAt q = t.invalid_)
    (hreach : e.key ≠ t.invalid_ → t.Reach (t.Ideal e.key) q) :
    (t.store q e).I2 := by
  have hocc : ∀ x, x < t.buckets_ → t.keyAt x ≠ t.invalid_ →
      (t.store q e).keyAt x ≠ (t.store q e).invalid_ := by
    intro x _ hx
    have hxq : x ≠ q := fun h => hx (h ▸ hq)
    rw [store_keyAt_other t e hxq]
    exact hx
  intro i hi hk
  by_cases hiq : i = q
  · subst hiq
    rw [store_keyAt_same] at hk ⊢
    exact Reach_mono (hreach hk) rfl hocc
  · rw [store_keyAt_other t e hiq] at hk ⊢
    exact Reach_mono (hI i hi hk) rfl hocc

theorem UncheckedInsert_eq (t : ProbingHashTable) (e : Entry) (r : ProbingHashTable × Nat)
    (h : t.UncheckedInsert e = some r) :
    t.firstEmpty t.buckets_ (t.Ideal e.key) = some r.2 ∧ r.1 = t.store r.2 e := by
  unfold UncheckedInsert at h
  change (match t.firstEmpty t.buckets_ (t.Ideal e.key) with
    | none => none
    | some i => some (t.store i e, i)) = some r at h
  cases hq : t.firstEmpty t.buckets_ (t.Ideal e.key) with
  | none => rw [hq] at h; cases h
  | some q =>
    rw [hq] at h
    cases h
    exact ⟨rfl, rfl⟩

theorem firstEmpty_pos (t : ProbingHashTable) (h q : Nat)
    (hq : t.firstEmpty t.buckets_ h = some q) : 0 < t.buckets_ := by
  rcases Nat.eq_zero_or_pos t.buckets_ with h0 | h0
  · rw [h0] at hq; simp [firstEmpty] at hq
  · exact h0

/-- The bucket `firstEmpty` returns is empty, inside the block and reached
from the start of the walk. -/
theorem firstEmpty_reach (t : ProbingHashTable) (h q : Nat) (hh : h < t.buckets_)
    (hq : t.firstEmpty t.buckets_ h = some q) :
    q < t.buckets_ ∧ t.keyAt q = t.invalid_ ∧ t.Reach h q := by
  obtain ⟨s, hs, hpos, hk, hall⟩ := t.firstEmpty_sound _ h q hh hq
  exact ⟨by rw [← hpos]; exact Nat.mod_lt _ (by omega), hk, s, hs, hpos, hall⟩

/-- `UncheckedInsert` keeps I2. -/
theorem UncheckedInsert_I2 (t : ProbingHashTable) (e : Entry) (r : ProbingHashTable × Nat)
    (hI : t.I2) (h : t.UncheckedInsert e = some r) : r.1.I2 := by
  obtain ⟨hq, hr⟩ := t.UncheckedInsert_eq e r h
  have hN := t.firstEmpty_pos _ _ hq
  obtain ⟨_, hk, hreach⟩ := t.firstEmpty_reach _ _ (t.Ideal_lt _ hN) hq
  rw [hr]
  exact t.I2_store _ e hI hk (fun _ => hreach)

/-! ## Lookup against the stored keys -/

/-- The lookup loop hits when the key sits on the walk before any gap. -/
theorem probe_hit_of (t : ProbingHashTable) (k f h s : Nat) (hh : h < t.buckets_)
    (hs : s < f) (hk : t.keyAt ((h + s) % t.buckets_) = k)
    (hall : ∀ r, r < s → t.keyAt ((h + r) % t.buckets_) ≠ t.invalid_) :
    ∃ i, t.probe k f h = Probe.hit i ∧ i < t.buckets_ ∧ t.keyAt i = k := by
  classical
  have hex : ∃ s, t.keyAt ((h + s) % t.buckets_) = k := ⟨s, hk⟩
  have hle : Nat.find hex ≤ s := Nat.find_min' hex hk
  have hspec := Nat.find_spec hex
  refine ⟨(h + Nat.find hex) % t.buckets_, ?_, Nat.mod_lt _ (by omega), hspec⟩
  rw [t.probe_stop k (Nat.find hex) f h hh (by omega), if_pos hspec]
  intro r hr
  exact ⟨fun hc => Nat.find_min hex hr hc, hall r (by omega)⟩

/-- Under I2 a stored key is found. -/
theorem probe_hit_of_stored (t : ProbingHashTable) (k : Nat) (hI : t.I2) (hg : t.HasGap)
    (hs : t.Stored k) :
    ∃ i, t.probe k t.buckets_ (t.Ideal k) = Probe.hit i ∧ i < t.buckets_ ∧ t.keyAt i = k := by
  have hN : 0 < t.buckets_ := by
    obtain ⟨g, hg, _⟩ := hg
    omega
  have hh := t.Ideal_lt k hN
  by_cases hk : k = t.invalid_
  · classical
    obtain ⟨g, hgl, hgk⟩ := hg
    obtain ⟨s, hs, hpos⟩ := walk_cover _ _ g hh hgl
    have hex : ∃ s, s < t.buckets_ ∧ t.keyAt ((t.Ideal k + s) % t.buckets_) = t.invalid_ :=
      ⟨s, hs, by rw [hpos]; exact hgk⟩
    have hspec := Nat.find_spec hex
    refine t.probe_hit_of k _ _ (Nat.find hex) hh hspec.1 (hspec.2.trans hk.symm) ?_
    intro r hr hc
    exact Nat.find_min hex hr ⟨by omega, hc⟩
  · obtain ⟨j, hj, hjk⟩ := hs
    have hocc : t.keyAt j ≠ t.invalid_ := by rw [hjk]; exact hk
    obtain ⟨s, hs, hpos, hall⟩ := hI j hj hocc
    rw [hjk] at hpos hall
    exact t.probe_hit_of k _ _ s hh hs (by rw [hpos]; exact hjk) hall

/-- With a gap in the block a key that is not stored is reported absent. -/
theorem probe_gap_of_not_stored (t : ProbingHashTable) (k : Nat) (hg : t.HasGap)
    (hs : ¬ t.Stored k) :
    ∃ i, t.probe k t.buckets_ (t.Ideal k) = Probe.gap i ∧ i < t.buckets_ ∧
      t.keyAt i = t.invalid_ ∧ t.Reach (t.Ideal k) i := by
  have hN : 0 < t.buckets_ := by
    obtain ⟨g, hg, _⟩ := hg
    omega
  have hh := t.Ideal_lt k hN
  have key := t.probe_sound k t.buckets_ (t.Ideal k) hh
  revert key
  cases t.probe k t.buckets_ (t.Ideal k) with
  | hit i =>
    rintro ⟨s, _, hpos, hk, _⟩
    exact absurd ⟨i, by rw [← hpos]; exact Nat.mod_lt _ hN, hk⟩ hs
  | gap i =>
    rintro ⟨s, hsl, hpos, _, he, hall⟩
    exact ⟨i, rfl, by rw [← hpos]; exact Nat.mod_lt _ hN, he, s, hsl, hpos,
      fun r hr => (hall r hr).2⟩
  | spin =>
    intro hall
    obtain ⟨g, hgl, hgk⟩ := hg
    obtain ⟨s, hs, hpos⟩ := walk_cover _ _ g hh hgl
    have := (hall s hs).2
    rw [hpos] at this
    exact absurd hgk this

/-- A hit of the lookup loop names a bucket of the block holding the key. -/
theorem probe_hit_stored (t : ProbingHashTable) (k i : Nat) (hN : 0 < t.buckets_)
    (h : t.probe k t.buckets_ (t.Ideal k) = Probe.hit i) :
    i < t.buckets_ ∧ t.keyAt i = k := by
  have key := t.probe_sound k t.buckets_ (t.Ideal k) (t.Ideal_lt k hN)
  rw [h] at key
  obtain ⟨s, _, hpos, hk, _⟩ := key
  exact ⟨by rw [← hpos]; exact Nat.mod_lt _ hN, hk⟩

theorem HasGap_pos {t : ProbingHashTable} (hg : t.HasGap) : 0 < t.buckets_ := by
  obtain ⟨g, hg, _⟩ := hg
  omega

theorem Find_eq_probe (t : ProbingHashTable) (k : Nat) :
    t.Find k = match t.probe k t.buckets_ (t.Ideal k) with
      | Probe.hit i => FindResult.found i
      | Probe.gap _ => FindResult.notFound
      | Probe.spin => FindResult.spin := rfl

/-- Under I2 and with a gap, `Find` returns `true` on a stored key, with a
handle to a bucket holding it. -/
theorem Find_of_stored (t : ProbingHashTable) (k : Nat) (hI : t.I2) (hg : t.HasGap)
    (hs : t.Stored k) :
    ∃ i, t.Find k = FindResult.found i ∧ i < t.buckets_ ∧ t.keyAt i = k := by
  obtain ⟨i, hp, hi, hk⟩ := t.probe_hit_of_stored k hI hg hs
  exact ⟨i, by rw [Find_eq_probe, hp], hi, hk⟩

/-- With a gap, `Find` returns `false` on a key that is not stored. -/
theorem Find_of_not_stored (t : ProbingHashTable) (k : Nat) (hg : t.HasGap)
    (hs : ¬ t.Stored k) : t.Find k = FindResult.notFound := by
  obtain ⟨i, hp, _⟩ := t.probe_gap_of_not_stored k hg hs
  rw [Find_eq_probe, hp]

/-- Under I2 and with a gap, `Find` returns `true` exactly on the stored keys. -/
theorem Find_found_iff (t : ProbingHashTable) (k : Nat) (hI : t.I2) (hg : t.HasGap) :
    (∃ i, t.Find k = FindResult.found i) ↔ t.Stored k := by
  constructor
  · rintro ⟨i, hi⟩
    by_contra hs
    rw [t.Find_of_not_stored k hg hs] at hi
    cases hi
  · intro hs
    obtain ⟨i, hi, _⟩ := t.Find_of_stored k hI hg hs
    exact ⟨i, hi⟩

/-! ## The multiset of occupied entries -/

theorem liveUpTo_succ (t : ProbingHashTable) (n : Nat) :
    t.liveUpTo (n + 1) =
      if t.keyAt n = t.invalid_ then t.liveUpTo n else t.begin_ n ::ₘ t.liveUpTo n := rfl

theorem liveUpTo_congr (t u : ProbingHashTable) (n : Nat) (hinv : u.invalid_ = t.invalid_)
    (hb : ∀ i, i < n → u.begin_ i = t.begin_ i) : u.liveUpTo n = t.liveUpTo n := by
  induction n with
  | zero => rfl
  | succ n ih =>
    have h1 := ih (fun i hi => hb i (by omega))
    have h2 := hb n (by omega)
    rw [liveUpTo_succ, liveUpTo_succ, h1, hinv]
    unfold keyAt
    rw [h2]

theorem mem_liveUpTo (t : ProbingHashTable) (n : Nat) (x : Entry) :
    x ∈ t.liveUpTo n ↔ ∃ i, i < n ∧ t.begin_ i = x ∧ t.keyAt i ≠ t.invalid_ := by
  induction n with
  | zero => simp [liveUpTo]
  | succ n ih =>
    rw [liveUpTo_succ]
    by_cases he : t.keyAt n = t.invalid_
    · rw [if_pos he, ih]
      constructor
      · rintro ⟨i, hi, h1, h2⟩
        exact ⟨i, by omega, h1, h2⟩
      · rintro ⟨i, hi, h1, h2⟩
        rcases Nat.lt_succ_iff_lt_or_eq.mp hi with h | h
        · exact ⟨i, h, h1, h2⟩
        · subst h; exact absurd he h2
    · rw [if_neg he, Multiset.mem_cons, ih]
      constructor
      · rintro (h | ⟨i, hi, h1, h2⟩)
        · exact ⟨n, by omega, h.symm, he⟩
        · exact ⟨i, by omega, h1, h2⟩
      · rintro ⟨i, hi, h1, h2⟩
        rcases Nat.lt_succ_iff_lt_or_eq.mp hi with h | h
        · exact Or.inr ⟨i, h, h1, h2⟩
        · subst h; exact Or.inl h1.symm

theorem card_liveUpTo_le (t : ProbingHashTable) (n : Nat) :
    Multiset.card (t.liveUpTo n) ≤ n := by
  induction n with
  | zero => simp [liveUpTo]
  | succ n ih =>
    rw [liveUpTo_succ]
    split
    · omega
    · rw [Multiset.card_cons]; omega

/-- Fewer occupied entries than buckets leaves an empty bucket. -/
theorem gap_of_card_lt (t : ProbingHashTable) (n : Nat)
    (h : Multiset.card (t.liveUpTo n) < n) : ∃ i, i < n ∧ t.keyAt i = t.invalid_ := by
  induction n with
  | zero => omega
  | succ n ih =>
    by_cases he : t.keyAt n = t.invalid_
    · exact ⟨n, by omega, he⟩
    · rw [liveUpTo_succ, if_neg he, Multiset.card_cons] at h
      obtain ⟨i, hi, hk⟩ := ih (by omega)
      exact ⟨i, by omega, hk⟩

theorem liveUpTo_store_ge (t : ProbingHashTable) (i : Nat) (e : Entry) (n : Nat)
    (h : n ≤ i) : (t.store i e).liveUpTo n = t.liveUpTo n :=
  liveUpTo_congr t _ n rfl (fun j hj => t.store_begin_other e (by omega))

/-- Filling an empty bucket with an occupied entry adds it to the multiset. -/
theorem liveUpTo_store_fill (t : ProbingHashTable) (i : Nat) (e : Entry) (n : Nat)
    (hi : i < n) (hempty : t.keyAt i = t.invalid_) (he : e.key ≠ t.invalid_) :
    (t.store i e).liveUpTo n = e ::ₘ t.liveUpTo n := by
  induction n with
  | zero => omega
  | succ n ih =>
    rw [liveUpTo_succ, liveUpTo_succ]
    by_cases hin : i = n
    · subst hin
      rw [store_keyAt_same, store_invalid, if_neg he, if_pos hempty, store_begin_same,
        liveUpTo_store_ge t i e i (Nat.le_refl i)]
    · have hlt : i < n := by omega
      rw [store_keyAt_other t e (Ne.symm hin), store_invalid,
        store_begin_other t e (Ne.symm hin), ih hlt]
      split
      · rfl
      · exact Multiset.cons_swap _ _ _

/-- Setting the key of an occupied bucket to invalid removes its entry. -/
theorem liveUpTo_store_clear (t : ProbingHashTable) (i : Nat) (e : Entry) (n : Nat)
    (hi : i < n) (hocc : t.keyAt i ≠ t.invalid_) (he : e.key = t.invalid_) :
    t.liveUpTo n = t.begin_ i ::ₘ (t.store i e).liveUpTo n := by
  induction n with
  | zero => omega
  | succ n ih =>
    rw [liveUpTo_succ, liveUpTo_succ]
    by_cases hin : i = n
    · subst hin
      rw [store_keyAt_same, store_invalid, if_pos he, if_neg hocc,
        liveUpTo_store_ge t i e i (Nat.le_refl i)]
    · have hlt : i < n := by omega
      rw [store_keyAt_other t e (Ne.symm hin), store_invalid,
        store_begin_other t e (Ne.symm hin), ih hlt]
      split
      · rfl
      · exact Multiset.cons_swap _ _ _

/-- Writing an entry with the invalid key into an empty bucket changes nothing. -/
theorem liveUpTo_store_noop (t : ProbingHashTable) (i : Nat) (e : Entry) (n : Nat)
    (hempty : t.keyAt i = t.invalid_) (he : e.key = t.invalid_) :
    (t.store i e).liveUpTo n = t.liveUpTo n := by
  induction n with
  | zero => rfl
  | succ n ih =>
    rw [liveUpTo_succ, liveUpTo_succ, ih]
    by_cases hin : i = n
    · subst hin
      rw [store_keyAt_same, store_invalid, if_pos he, if_pos hempty]
    · rw [store_keyAt_other t e (Ne.symm hin), store_invalid,
        store_begin_other t e (Ne.symm hin)]

/-- Empty buckets at the end of a range add nothing. -/
theorem liveUpTo_add_empty (t : ProbingHashTable) (n m : Nat)
    (h : ∀ i, n ≤ i → i < n + m → t.keyAt i = t.invalid_) :
    t.liveUpTo (n + m) = t.liveUpTo n := by
  induction m with
  | zero => rfl
  | succ m ih =>
    rw [show n + (m + 1) = (n + m) + 1 by omega, liveUpTo_succ,
      if_pos (h (n + m) (by omega) (by omega))]
    exact ih (fun i h1 h2 => h i h1 (by omega))

theorem HasGap_of_card_lt (t : ProbingHashTable)
    (h : Multiset.card t.live < t.buckets_) : t.HasGap :=
  t.gap_of_card_lt t.buckets_ h

/-- A key other than the invalid one is stored exactly when a live entry
carries it. -/
theorem Stored_iff_live (t : ProbingHashTable) (k : Nat) (hk : k ≠ t.invalid_) :
    t.Stored k ↔ ∃ x, x ∈ t.live ∧ x.key = k := by
  constructor
  · rintro ⟨i, hi, hik⟩
    exact ⟨t.begin_ i, (t.mem_liveUpTo _ _).mpr ⟨i, hi, rfl, by rw [hik]; exact hk⟩, hik⟩
  · rintro ⟨x, hx, hxk⟩
    obtain ⟨i, hi, hb, _⟩ := (t.mem_liveUpTo _ _).mp hx
    exact ⟨i, hi, by unfold keyAt; rw [hb]; exact hxk⟩

/-! ## Where a walk can lie -/

@[simp] theorem SetKey_key (e : Entry) (k : Nat) : (e.SetKey k).key = k := rfl

theorem mod_double (x b : Nat) (hb : 0 < b) :
    x % (2 * b) = x % b ∨ x % (2 * b) = x % b + b := by
  have h1 : x % (2 * b) < 2 * b := Nat.mod_lt _ (by omega)
  have h2 : x % (2 * b) % b = x % b := Nat.mod_mod_of_dvd x (Dvd.intro_left 2 rfl)
  have key : ∀ y, y < 2 * b → y = y % b ∨ y = y % b + b := by
    intro y hy
    by_cases h : y < b
    · left
      exact (Nat.mod_eq_of_lt h).symm
    · right
      have h3 : y % b = (y - b) % b := Nat.mod_eq_sub_mod (by omega)
      have h4 : (y - b) % b = y - b := Nat.mod_eq_of_lt (by omega)
      omega
  rcases key _ h1 with h | h
  · left; rw [← h2]; exact h
  · right; rw [← h2]; exact h

/-- A property kept by `advance` on occupied buckets holds along a walk. -/
theorem walk_region (t : ProbingHashTable) (P : Nat → Prop) (h s : Nat)
    (hh : h < t.buckets_) (h0 : P h)
    (hstep : ∀ x, x < t.buckets_ → P x → t.keyAt x ≠ t.invalid_ → P (t.advance x))
    (hall : ∀ r, r < s → t.keyAt ((h + r) % t.buckets_) ≠ t.invalid_) :
    ∀ r, r ≤ s → P ((h + r) % t.buckets_) := by
  intro r
  induction r with
  | zero =>
    intro _
    rw [Nat.add_zero, Nat.mod_eq_of_lt hh]
    exact h0
  | succ r ih =>
    intro hr
    have hlt : (h + r) % t.buckets_ < t.buckets_ := Nat.mod_lt _ (by omega)
    have := hstep _ hlt (ih (by omega)) (hall r (by omega))
    rw [t.advance_eq hlt, Nat.mod_add_mod] at this
    exact this

/-- A gap below an occupied bucket forces the start of its walk to lie
between the two. -/
theorem Reach_after_gap {t : ProbingHashTable} {h j g : Nat} (hr : t.Reach h j)
    (hh : h < t.buckets_) (hgj : g < j) (hg : t.keyAt g = t.invalid_) :
    h ≤ j ∧ g < h := by
  obtain ⟨s, hs, hpos, hall⟩ := hr
  have hj : j < t.buckets_ := by rw [← hpos]; exact Nat.mod_lt _ (by omega)
  rw [walk_split _ h s hh (by omega)] at hpos
  split at hpos
  · refine ⟨by omega, ?_⟩
    by_contra hc
    have := hall (g - h) (by omega)
    rw [show h + (g - h) = g by omega, Nat.mod_eq_of_lt (by omega)] at this
    exact this hg
  · exfalso
    have := hall (g + t.buckets_ - h) (by omega)
    rw [show h + (g + t.buckets_ - h) = g + t.buckets_ by omega, Nat.add_mod_right,
      Nat.mod_eq_of_lt (by omega)] at this
    exact this hg

/-- A walk that starts above its target wraps, so no gap lies at or above
its start. -/
theorem Reach_wrapped {t : ProbingHashTable} {h j g : Nat} (hr : t.Reach h j)
    (hh : h < t.buckets_) (hjh : j < h) (hgl : g < t.buckets_)
    (hg : t.keyAt g = t.invalid_) : g < h := by
  obtain ⟨s, hs, hpos, hall⟩ := hr
  rw [walk_split _ h s hh (by omega)] at hpos
  split at hpos
  · omega
  · by_contra hc
    have := hall (g - h) (by omega)
    rw [show h + (g - h) = g by omega, Nat.mod_eq_of_lt hgl] at this
    exact this hg

/-! ## The second loop of `Double` -/

theorem UncheckedInsert_of_firstEmpty (t : ProbingHashTable) (e : Entry) (q : Nat)
    (h : t.firstEmpty t.buckets_ (t.Ideal e.key) = some q) :
    t.UncheckedInsert e = some (t.store q e, q) := by
  unfold UncheckedInsert
  change (match t.firstEmpty t.buckets_ (t.Ideal e.key) with
    | none => none
    | some i => some (t.store i e, i)) = _
  rw [h]

theorem Ideal_def (t : ProbingHashTable) (k : Nat) : t.Ideal k = t.hash_ k % t.buckets_ := rfl

theorem Ideal_congr {t u : ProbingHashTable} (hh : u.hash_ = t.hash_)
    (hb : u.buckets_ = t.buckets_) (k : Nat) : u.Ideal k = t.Ideal k := by
  rw [Ideal_def, Ideal_def, hh, hb]

/-- A settled walk stays settled when its buckets stay occupied and settled. -/
theorem ReachSettled_mono {t u : ProbingHashTable} {i i2 b h j : Nat}
    (hr : t.ReachSettled i b h j) (hb : u.buckets_ = t.buckets_)
    (hocc : ∀ x, x < t.buckets_ → t.keyAt x ≠ t.invalid_ → (x < i ∨ b ≤ x) →
      u.keyAt x ≠ u.invalid_ ∧ (x < i2 ∨ b ≤ x)) :
    u.ReachSettled i2 b h j := by
  obtain ⟨s, hs, hpos, hall⟩ := hr
  refine ⟨s, by rw [hb]; exact hs, by rw [hb]; exact hpos, ?_⟩
  intro r hrs
  rw [hb]
  exact hocc _ (Nat.mod_lt _ (by omega)) (hall r hrs).1 (hall r hrs).2

/-- One turn of the second loop of `Double` on an occupied bucket. -/
theorem Rehoming_step_occupied {b i : Nat} {t : ProbingHashTable} (hinv : Rehoming b t i)
    (hi : i < b) (hocc : t.keyAt i ≠ t.invalid_) :
    ∃ r, (t.store i ((t.begin_ i).SetKey t.invalid_)).UncheckedInsert (t.begin_ i) = some r ∧
      Rehoming b r.1 (i + 1) ∧ r.1.liveUpTo (2 * b) = t.liveUpTo (2 * b) ∧
      r.1.invalid_ = t.invalid_ ∧ r.1.hash_ = t.hash_ ∧ r.1.entries_ = t.entries_ := by
  have hsize := hinv.size
  -- the table with bucket `i` emptied
  obtain ⟨t1, ht1⟩ : ∃ t1, t1 = t.store i ((t.begin_ i).SetKey t.invalid_) := ⟨_, rfl⟩
  rw [← ht1]
  have hB1 : t1.buckets_ = t.buckets_ := by rw [ht1]; rfl
  have hinv1 : t1.invalid_ = t.invalid_ := by rw [ht1]; rfl
  have hhash1 : t1.hash_ = t.hash_ := by rw [ht1]; rfl
  have hent1 : t1.entries_ = t.entries_ := by rw [ht1]; rfl
  have hk1 : t1.keyAt i = t1.invalid_ := by rw [ht1, store_keyAt_same]; rfl
  have hk1o : ∀ y, y ≠ i → t1.keyAt y = t.keyAt y := by
    intro y hy; rw [ht1]; exact store_keyAt_other t _ hy
  have hxk : (t.begin_ i).key ≠ t1.invalid_ := by rw [hinv1]; exact hocc
  have hgap : t1.HasGap := ⟨i, by omega, hk1⟩
  have hh : t1.Ideal (t.begin_ i).key < t1.buckets_ := t1.Ideal_lt _ (by omega)
  obtain ⟨q, hq⟩ := t1.firstEmpty_of_gap _ hh hgap
  obtain ⟨s, hs, hpos, hkq, hall⟩ := t1.firstEmpty_sound _ _ q hh hq
  -- the walk stays at or below `i` or in the new half
  have hstart : t1.Ideal (t.begin_ i).key ≤ i ∨ b ≤ t1.Ideal (t.begin_ i).key := by
    have hp := hinv.pending i (Nat.le_refl i) hi hocc
    change t.hash_ (t.begin_ i).key % b ≤ i at hp
    rw [Ideal_def, hB1, hsize, hhash1]
    rcases mod_double (t.hash_ (t.begin_ i).key) b (by omega) with h | h
    · left; omega
    · right; omega
  have hregion : ∀ r, r ≤ s →
      (t1.Ideal (t.begin_ i).key + r) % t1.buckets_ ≤ i ∨
        b ≤ (t1.Ideal (t.begin_ i).key + r) % t1.buckets_ :=
    t1.walk_region (fun y => y ≤ i ∨ b ≤ y) _ s hh hstart
      (by
        intro y hy hR hoy
        have hyi : y ≠ i := fun h => hoy (by rw [h, hk1])
        have hR2 : y ≤ i ∨ b ≤ y := hR
        change t1.advance y ≤ i ∨ b ≤ t1.advance y
        unfold advance
        split <;> omega)
      hall
  have hqR : q ≤ i ∨ b ≤ q := by
    have := hregion s (Nat.le_refl s)
    rw [hpos] at this
    exact this
  have hqlt : q < 2 * b := by rw [← hpos, ← hsize, ← hB1]; exact Nat.mod_lt _ (by omega)
  -- the table with the entry inserted again
  obtain ⟨t2, ht2⟩ : ∃ t2, t2 = t1.store q (t.begin_ i) := ⟨_, rfl⟩
  have hB2 : t2.buckets_ = t1.buckets_ := by rw [ht2]; rfl
  have hinv2 : t2.invalid_ = t1.invalid_ := by rw [ht2]; rfl
  have hhash2 : t2.hash_ = t1.hash_ := by rw [ht2]; rfl
  have hent2 : t2.entries_ = t1.entries_ := by rw [ht2]; rfl
  have hk2q : t2.keyAt q = (t.begin_ i).key := by rw [ht2]; exact store_keyAt_same _ _ _
  have hk2o : ∀ y, y ≠ q → t2.keyAt y = t1.keyAt y := by
    intro y hy; rw [ht2]; exact store_keyAt_other t1 _ hy
  have hocc2 : ∀ y, t1.keyAt y ≠ t1.invalid_ → t2.keyAt y ≠ t2.invalid_ := by
    intro y hy
    rw [hinv2]
    by_cases hyq : y = q
    · rw [hyq, hk2q]; exact hxk
    · rw [hk2o y hyq]; exact hy
  have hlive : t2.liveUpTo (2 * b) = t.liveUpTo (2 * b) := by
    have h1 : t.liveUpTo (2 * b) = t.begin_ i ::ₘ t1.liveUpTo (2 * b) := by
      rw [ht1]
      exact t.liveUpTo_store_clear i _ _ (by omega) hocc rfl
    have h2 : t2.liveUpTo (2 * b) = t.begin_ i ::ₘ t1.liveUpTo (2 * b) := by
      rw [ht2]
      exact t1.liveUpTo_store_fill q _ _ hqlt hkq hxk
    rw [h1]
    exact h2
  have hre : Rehoming b t2 (i + 1) := by
    refine ⟨by rw [hB2, hB1]; exact hsize, ?_, ?_⟩
    · intro j hj hreg hoj
      by_cases hjq : j = q
      · rw [hjq, hk2q, Ideal_congr hhash2 hB2]
        have hw : t1.ReachSettled (i + 1) b (t1.Ideal (t.begin_ i).key) q := by
          refine ⟨s, hs, hpos, ?_⟩
          intro r hr
          have hy := hall r hr
          have hR := hregion r (by omega)
          have hyi : (t1.Ideal (t.begin_ i).key + r) % t1.buckets_ ≠ i :=
            fun h => hy (by rw [h, hk1])
          exact ⟨hy, by omega⟩
        exact ReachSettled_mono hw hB2 (fun x _ hx hR => ⟨hocc2 x hx, hR⟩)
      · have hoj1 : t1.keyAt j ≠ t1.invalid_ := by
          rw [← hk2o j hjq, ← hinv2]; exact hoj
        have hji : j ≠ i := fun h => hoj1 (by rw [h, hk1])
        have hoj0 : t.keyAt j ≠ t.invalid_ := by
          rw [← hk1o j hji, ← hinv1]; exact hoj1
        rw [hk2o j hjq, hk1o j hji, Ideal_congr (hhash2.trans hhash1) (hB2.trans hB1)]
        refine ReachSettled_mono (hinv.settled j hj (by omega) hoj0) (hB2.trans hB1) ?_
        intro x _ hx hR
        have hxi : x ≠ i := by omega
        refine ⟨hocc2 x ?_, by omega⟩
        rw [hk1o x hxi, hinv1]
        exact hx
    · intro j hij hjb hoj
      have hjq : j ≠ q := by omega
      have hji : j ≠ i := by omega
      have hoj1 : t1.keyAt j ≠ t1.invalid_ := by
        rw [← hk2o j hjq, ← hinv2]; exact hoj
      have hoj0 : t.keyAt j ≠ t.invalid_ := by
        rw [← hk1o j hji, ← hinv1]; exact hoj1
      rw [hk2o j hjq, hk1o j hji, hhash2, hhash1]
      exact hinv.pending j (by omega) hjb hoj0
  refine ⟨(t2, q), ?_, hre, hlive, hinv2.trans hinv1, hhash2.trans hhash1,
    hent2.trans hent1⟩
  rw [ht2]
  exact t1.UncheckedInsert_of_firstEmpty _ q hq

theorem reinsert_zero (t : ProbingHashTable) (i : Nat) : reinsert t 0 i = some t := rfl

theorem reinsert_succ (t : ProbingHashTable) (n i : Nat) :
    reinsert t (n + 1) i =
      if t.keyAt i = t.invalid_ then reinsert t n (i + 1)
      else
        match (t.store i ((t.begin_ i).SetKey t.invalid_)).UncheckedInsert (t.begin_ i) with
        | none => none
        | some r => reinsert r.1 n (i + 1) := rfl

/-- One turn on an empty bucket. -/
theorem Rehoming_step_empty {b i : Nat} {t : ProbingHashTable} (hinv : Rehoming b t i)
    (hempty : t.keyAt i = t.invalid_) : Rehoming b t (i + 1) := by
  refine ⟨hinv.size, ?_, ?_⟩
  · intro j hj hreg hoj
    have hji : j ≠ i := fun h => hoj (h ▸ hempty)
    obtain ⟨s, hs, hpos, hall⟩ := hinv.settled j hj (by omega) hoj
    exact ⟨s, hs, hpos, fun r hr => ⟨(hall r hr).1, by have := (hall r hr).2; omega⟩⟩
  · intro j hij hjb hoj
    exact hinv.pending j (by omega) hjb hoj

/-- The second loop of `Double` returns, settles every entry and keeps the
multiset of occupied entries. -/
theorem reinsert_spec (b : Nat) :
    ∀ (n i : Nat) (t : ProbingHashTable), i + n = b → Rehoming b t i →
      ∃ u, reinsert t n i = some u ∧ Rehoming b u b ∧
        u.liveUpTo (2 * b) = t.liveUpTo (2 * b) ∧
        u.invalid_ = t.invalid_ ∧ u.hash_ = t.hash_ ∧ u.entries_ = t.entries_ := by
  intro n
  induction n with
  | zero =>
    intro i t hi hinv
    have : i = b := by omega
    subst this
    exact ⟨t, rfl, hinv, rfl, rfl, rfl, rfl⟩
  | succ n ih =>
    intro i t hi hinv
    rw [reinsert_succ]
    by_cases he : t.keyAt i = t.invalid_
    · rw [if_pos he]
      exact ih (i + 1) t (by omega) (Rehoming_step_empty hinv he)
    · rw [if_neg he]
      obtain ⟨r, hr, hinv', hlive, h1, h2, h3⟩ := Rehoming_step_occupied hinv (by omega) he
      rw [hr]
      obtain ⟨u, hu, hinvu, hliveu, g1, g2, g3⟩ := ih (i + 1) r.1 (by omega) hinv'
      exact ⟨u, hu, hinvu, hliveu.trans hlive, g1.trans h1, g2.trans h2, g3.trans h3⟩

/-- Once the second loop is through, I2 holds. -/
theorem Rehoming_to_I2 {b : Nat} {t : ProbingHashTable} (hinv : Rehoming b t b) : t.I2 := by
  intro j hj hoj
  obtain ⟨s, hs, hpos, hall⟩ := hinv.settled j (by rw [← hinv.size]; exact hj)
    (Nat.lt_or_ge j b) hoj
  exact ⟨s, hs, hpos, fun r hr => (hall r hr).1⟩

/-! ## The first and third loops of `Double` -/

theorem rollOver_zero (t : ProbingHashTable) (i : Nat) : t.rollOver 0 i = (t, []) := rfl

theorem rollOver_succ (t : ProbingHashTable) (n i : Nat) :
    t.rollOver (n + 1) i =
      if t.keyAt i = t.invalid_ then (t, [])
      else ((rollOver (t.store i ((t.begin_ i).SetKey t.invalid_)) n (i + 1)).1,
        t.begin_ i :: (rollOver (t.store i ((t.begin_ i).SetKey t.invalid_)) n (i + 1)).2) :=
  rfl

/-- The first loop of `Double` only empties buckets of the range it scans,
hands back what it removed, and leaves every occupied bucket of the range
behind a gap. -/
theorem rollOver_spec :
    ∀ (n i : Nat) (t : ProbingHashTable),
      (t.rollOver n i).1.buckets_ = t.buckets_ ∧
      (t.rollOver n i).1.invalid_ = t.invalid_ ∧
      (t.rollOver n i).1.hash_ = t.hash_ ∧
      (t.rollOver n i).1.entries_ = t.entries_ ∧
      (∀ j, (j < i ∨ i + n ≤ j) → (t.rollOver n i).1.begin_ j = t.begin_ j) ∧
      (∀ j, i ≤ j → j < i + n → (t.rollOver n i).1.keyAt j ≠ t.invalid_ →
        (t.rollOver n i).1.begin_ j = t.begin_ j ∧
          ∃ g, i ≤ g ∧ g < j ∧ t.keyAt g = t.invalid_) ∧
      (∀ x, x ∈ (t.rollOver n i).2 → x.key ≠ t.invalid_) ∧
      (∀ m, i + n ≤ m →
        t.liveUpTo m = ((t.rollOver n i).2 : Multiset Entry) + (t.rollOver n i).1.liveUpTo m) := by
  intro n
  induction n with
  | zero =>
    intro i t
    rw [rollOver_zero]
    refine ⟨rfl, rfl, rfl, rfl, fun _ _ => rfl, ?_, ?_, ?_⟩
    · intro j h1 h2; omega
    · intro x hx; cases hx
    · intro m _; simp
  | succ n ih =>
    intro i t
    rw [rollOver_succ]
    by_cases he : t.keyAt i = t.invalid_
    · rw [if_pos he]
      refine ⟨rfl, rfl, rfl, rfl, fun _ _ => rfl, ?_, ?_, ?_⟩
      · intro j h1 h2 hoj
        have hji : j ≠ i := fun h => hoj (h ▸ he)
        exact ⟨rfl, i, Nat.le_refl i, by omega, he⟩
      · intro x hx; cases hx
      · intro m _; simp
    · rw [if_neg he]
      obtain ⟨a1, a2, a3, a4, a5, a6, a7, a8⟩ :=
        ih (i + 1) (t.store i ((t.begin_ i).SetKey t.invalid_))
      refine ⟨a1, a2, a3, a4, ?_, ?_, ?_, ?_⟩
      · intro j hj
        rw [a5 j (by omega)]
        exact store_begin_other t _ (by omega)
      · intro j h1 h2 hoj
        by_cases hji : j = i
        · exfalso
          apply hoj
          unfold keyAt
          rw [hji, a5 i (by omega), store_begin_same]
          rfl
        · obtain ⟨b1, g, hg1, hg2, hg3⟩ := a6 j (by omega) (by omega) hoj
          refine ⟨b1.trans (store_begin_other t _ hji), g, by omega, hg2, ?_⟩
          rw [store_keyAt_other t _ (by omega)] at hg3
          exact hg3
      · intro x hx
        rcases List.mem_cons.mp hx with h | h
        · rw [h]; exact he
        · exact a7 x h
      · intro m hm
        rw [t.liveUpTo_store_clear i ((t.begin_ i).SetKey t.invalid_) m (by omega) he rfl,
          a8 m (by omega), ← Multiset.cons_coe, Multiset.cons_add]

theorem putBack_nil (t : ProbingHashTable) : putBack t [] = some t := rfl

theorem putBack_cons (t : ProbingHashTable) (e : Entry) (es : List Entry) :
    putBack t (e :: es) =
      match t.UncheckedInsert e with
      | none => none
      | some r => putBack r.1 es := rfl

/-- `UncheckedInsert` returns when the block has a gap; it fills an empty
bucket inside the block. -/
theorem UncheckedInsert_of_gap (t : ProbingHashTable) (e : Entry) (hg : t.HasGap) :
    ∃ q, t.UncheckedInsert e = some (t.store q e, q) ∧ q < t.buckets_ ∧
      t.keyAt q = t.invalid_ ∧ t.Reach (t.Ideal e.key) q := by
  obtain ⟨q, hq⟩ := t.firstEmpty_of_gap _ (t.Ideal_lt e.key (HasGap_pos hg)) hg
  obtain ⟨h1, h2, h3⟩ := t.firstEmpty_reach _ _ (t.Ideal_lt e.key (HasGap_pos hg)) hq
  exact ⟨q, t.UncheckedInsert_of_firstEmpty e q hq, h1, h2, h3⟩

/-- The third loop of `Double` returns, keeps I2 and adds the entries. -/
theorem putBack_spec :
    ∀ (es : List Entry) (t : ProbingHashTable), t.I2 →
      (∀ x, x ∈ es → x.key ≠ t.invalid_) →
      Multiset.card t.live + es.length ≤ t.buckets_ →
      ∃ u, putBack t es = some u ∧ u.I2 ∧ u.live = (es : Multiset Entry) + t.live ∧
        u.buckets_ = t.buckets_ ∧ u.invalid_ = t.invalid_ ∧ u.hash_ = t.hash_ ∧
        u.entries_ = t.entries_ := by
  intro es
  induction es with
  | nil =>
    intro t hI _ _
    exact ⟨t, rfl, hI, by simp, rfl, rfl, rfl, rfl⟩
  | cons e es ih =>
    intro t hI hocc hcard
    rw [List.length_cons] at hcard
    have hg : t.HasGap := t.HasGap_of_card_lt (by omega)
    obtain ⟨q, hq, hql, hqk, hreach⟩ := t.UncheckedInsert_of_gap e hg
    have hek : e.key ≠ t.invalid_ := hocc e (List.mem_cons_self _ _)
    have hlive : (t.store q e).live = e ::ₘ t.live :=
      t.liveUpTo_store_fill q e _ hql hqk hek
    rw [putBack_cons, hq]
    obtain ⟨u, hu, hIu, hlu, c1, c2, c3, c4⟩ := ih (t.store q e)
      (t.I2_store q e hI hqk (fun _ => hreach))
      (fun x hx => hocc x (List.mem_cons_of_mem _ hx))
      (by rw [hlive, Multiset.card_cons, store_buckets]; omega)
    refine ⟨u, hu, hIu, ?_, c1, c2, c3, c4⟩
    rw [hlu, hlive, ← Multiset.cons_coe, Multiset.cons_add, Multiset.add_cons]

/-! ## `Double` -/

theorem Double_eq (t : ProbingHashTable) (new_base : Nat → Entry) (clear_new : Bool)
    (junk : Entry) :
    t.Double new_base clear_new junk =
      match ((if clear_new then
            ({ t with begin_ := new_base, buckets_ := t.buckets_ * 2 } : ProbingHashTable).fill
              t.buckets_ (t.buckets_ * 2) (junk.SetKey t.invalid_)
          else { t with begin_ := new_base, buckets_ := t.buckets_ * 2 }).rollOver
            t.buckets_ 0).1.reinsert t.buckets_ 0 with
      | none => none
      | some t3 => t3.putBack ((if clear_new then
            ({ t with begin_ := new_base, buckets_ := t.buckets_ * 2 } : ProbingHashTable).fill
              t.buckets_ (t.buckets_ * 2) (junk.SetKey t.invalid_)
          else { t with begin_ := new_base, buckets_ := t.buckets_ * 2 }).rollOver
            t.buckets_ 0).2 := rfl

/-- `Double` over a block whose lower half is the old image and whose upper
half is cleared (by the call or beforehand) returns, doubles the bucket
count, keeps I2 and keeps the multiset of occupied entries and the counter. -/
theorem Double_spec (t : ProbingHashTable) (new_base : Nat → Entry) (clear_new : Bool)
    (junk : Entry) (hI : t.I2)
    (hlow : ∀ j, j < t.buckets_ → new_base j = t.begin_ j)
    (hup : clear_new = false →
      ∀ j, t.buckets_ ≤ j → j < 2 * t.buckets_ → (new_base j).key = t.invalid_) :
    ∃ u, t.Double new_base clear_new junk = some u ∧ u.I2 ∧ u.live = t.live ∧
      u.buckets_ = 2 * t.buckets_ ∧ u.invalid_ = t.invalid_ ∧ u.hash_ = t.hash_ ∧
      u.entries_ = t.entries_ := by
  rw [Double_eq]
  -- the table once the upper half is cleared
  obtain ⟨t2, ht2⟩ : ∃ t2, t2 = (if clear_new then
        ({ t with begin_ := new_base, buckets_ := t.buckets_ * 2 } : ProbingHashTable).fill
          t.buckets_ (t.buckets_ * 2) (junk.SetKey t.invalid_)
      else { t with begin_ := new_base, buckets_ := t.buckets_ * 2 }) := ⟨_, rfl⟩
  rw [← ht2]
  have hB2 : t2.buckets_ = 2 * t.buckets_ := by
    rw [ht2]; cases clear_new <;> simp [fill] <;> omega
  have hi2 : t2.invalid_ = t.invalid_ := by rw [ht2]; cases clear_new <;> rfl
  have hh2 : t2.hash_ = t.hash_ := by rw [ht2]; cases clear_new <;> rfl
  have he2 : t2.entries_ = t.entries_ := by rw [ht2]; cases clear_new <;> rfl
  have hlow2 : ∀ j, j < t.buckets_ → t2.begin_ j = t.begin_ j := by
    intro j hj
    rw [← hlow j hj, ht2]
    cases clear_new
    · rfl
    · simp only [fill, if_true]
      rw [if_neg (by omega)]
  have hup2 : ∀ j, t.buckets_ ≤ j → j < 2 * t.buckets_ → t2.keyAt j = t.invalid_ := by
    intro j h1 h2
    rw [ht2]
    cases hc : clear_new
    · exact hup hc j h1 h2
    · simp only [fill, if_true, keyAt]
      rw [if_pos ⟨h1, by omega⟩]
      rfl
  have hlive2 : t2.liveUpTo (2 * t.buckets_) = t.live := by
    rw [show 2 * t.buckets_ = t.buckets_ + t.buckets_ by omega,
      t2.liveUpTo_add_empty _ _ (fun j h1 h2 => by rw [hi2]; exact hup2 j h1 (by omega))]
    exact liveUpTo_congr t t2 _ hi2 hlow2
  -- first loop
  have spec := rollOver_spec t.buckets_ 0 t2
  generalize t2.rollOver t.buckets_ 0 = ro at spec ⊢
  obtain ⟨t3, rolled⟩ := ro
  obtain ⟨a1, a2, a3, a4, a5, a6, a7, a8⟩ := spec
  dsimp only at a1 a2 a3 a4 a5 a6 a7 a8 ⊢
  have hre : Rehoming t.buckets_ t3 0 := by
    refine ⟨a1.trans hB2, ?_, ?_⟩
    · intro j hj hreg hoj
      exfalso
      apply hoj
      unfold keyAt
      rw [a5 j (by omega), a2]
      exact (hup2 j (by omega) hj).trans hi2.symm
    · intro j _ hjb hoj
      rw [a2] at hoj
      obtain ⟨hb, g, _, hgj, hgk⟩ := a6 j (Nat.zero_le j) (by omega) hoj
      have hkj : t3.keyAt j = t.keyAt j := by
        unfold keyAt; rw [hb, hlow2 j hjb]
      have hoj0 : t.keyAt j ≠ t.invalid_ := by rw [← hkj, ← hi2]; exact hoj
      have hg0 : t.keyAt g = t.invalid_ := by
        have : t2.keyAt g = t.keyAt g := by unfold keyAt; rw [hlow2 g (by omega)]
        rw [← this, ← hi2]; exact hgk
      rw [hkj, a3, hh2]
      exact (Reach_after_gap (hI j hjb hoj0) (t.Ideal_lt _ (by omega)) hgj hg0).1
  -- second loop
  obtain ⟨u, hu, hreu, hliveu, b1, b2, b3⟩ := reinsert_spec t.buckets_ t.buckets_ 0 t3
    (by omega) hre
  rw [hu]
  have hliveu2 : u.live = u.liveUpTo (2 * t.buckets_) := by
    unfold live; rw [hreu.size]
  have htotal : (rolled : Multiset Entry) + u.live = t.live := by
    rw [hliveu2, hliveu, ← a8 (2 * t.buckets_) (by omega)]
    exact hlive2
  have hcard : Multiset.card u.live + rolled.length ≤ u.buckets_ := by
    have h1 : Multiset.card (rolled : Multiset Entry) + Multiset.card u.live
        = Multiset.card t.live := by rw [← Multiset.card_add, htotal]
    have h2 : Multiset.card t.live ≤ t.buckets_ := t.card_liveUpTo_le _
    rw [hreu.size]
    simp only [Multiset.coe_card] at h1
    omega
  -- third loop
  obtain ⟨v, hv, hIv, hlv, c1, c2, c3, c4⟩ := putBack_spec rolled u (Rehoming_to_I2 hreu)
    (fun x hx => by rw [b1, a2, hi2]; rw [hi2] at a7; exact a7 x hx) hcard
  exact ⟨v, hv, hIv, hlv.trans htotal, c1.trans hreu.size, c2.trans (b1.trans (a2.trans hi2)),
    c3.trans (b2.trans (a3.trans hh2)), c4.trans (b3.trans (a4.trans he2))⟩

/-! ## Fields that `Double` leaves alone, on any block -/

theorem reinsert_fields :
    ∀ (n i : Nat) (t u : ProbingHashTable), reinsert t n i = some u →
      u.buckets_ = t.buckets_ ∧ u.invalid_ = t.invalid_ ∧ u.hash_ = t.hash_ ∧
        u.entries_ = t.entries_ := by
  intro n
  induction n with
  | zero => intro i t u h; cases h; exact ⟨rfl, rfl, rfl, rfl⟩
  | succ n ih =>
    intro i t u h
    rw [reinsert_succ] at h
    by_cases he : t.keyAt i = t.invalid_
    · rw [if_pos he] at h
      exact ih (i + 1) t u h
    · rw [if_neg he] at h
      cases hu : (t.store i ((t.begin_ i).SetKey t.invalid_)).UncheckedInsert (t.begin_ i) with
      | none => rw [hu] at h; cases h
      | some r =>
        rw [hu] at h
        obtain ⟨_, hr⟩ := UncheckedInsert_eq _ _ r hu
        obtain ⟨h1, h2, h3, h4⟩ := ih (i + 1) r.1 u h
        rw [hr] at h1 h2 h3 h4
        exact ⟨h1, h2, h3, h4⟩

theorem putBack_fields :
    ∀ (es : List Entry) (t u : ProbingHashTable), putBack t es = some u →
      u.buckets_ = t.buckets_ ∧ u.invalid_ = t.invalid_ ∧ u.hash_ = t.hash_ ∧
        u.entries_ = t.entries_ := by
  intro es
  induction es with
  | nil => intro t u h; cases h; exact ⟨rfl, rfl, rfl, rfl⟩
  | cons e es ih =>
    intro t u h
    rw [putBack_cons] at h
    cases hu : t.UncheckedInsert e with
    | none => rw [hu] at h; cases h
    | some r =>
      rw [hu] at h
      obtain ⟨_, hr⟩ := UncheckedInsert_eq _ _ r hu
      obtain ⟨h1, h2, h3, h4⟩ := ih r.1 u h
      rw [hr] at h1 h2 h3 h4
      exact ⟨h1, h2, h3, h4⟩

/-- Whatever the block holds, a `Double` that returns has doubled the bucket
count and kept the counter, the invalid key and the hash. -/
theorem Double_fields (t : ProbingHashTable) (new_base : Nat → Entry) (clear_new : Bool)
    (junk : Entry) (u : ProbingHashTable) (h : t.Double new_base clear_new junk = some u) :
    u.buckets_ = 2 * t.buckets_ ∧ u.invalid_ = t.invalid_ ∧ u.hash_ = t.hash_ ∧
      u.entries_ = t.entries_ := by
  rw [Double_eq] at h
  obtain ⟨t2, ht2⟩ : ∃ t2, t2 = (if clear_new then
        ({ t with begin_ := new_base, buckets_ := t.buckets_ * 2 } : ProbingHashTable).fill
          t.buckets_ (t.buckets_ * 2) (junk.SetKey t.invalid_)
      else { t with begin_ := new_base, buckets_ := t.buckets_ * 2 }) := ⟨_, rfl⟩
  rw [← ht2] at h
  have hB2 : t2.buckets_ = 2 * t.buckets_ := by
    rw [ht2]; cases clear_new <;> simp [fill] <;> omega
  have hi2 : t2.invalid_ = t.invalid_ := by rw [ht2]; cases clear_new <;> rfl
  have hh2 : t2.hash_ = t.hash_ := by rw [ht2]; cases clear_new <;> rfl
  have he2 : t2.entries_ = t.entries_ := by rw [ht2]; cases clear_new <;> rfl
  obtain ⟨a1, a2, a3, a4, _⟩ := rollOver_spec t.buckets_ 0 t2
  cases h3 : (t2.rollOver t.buckets_ 0).1.reinsert t.buckets_ 0 with
  | none => rw [h3] at h; cases h
  | some t3 =>
    rw [h3] at h
    obtain ⟨b1, b2, b3, b4⟩ := reinsert_fields _ _ _ t3 h3
    obtain ⟨c1, c2, c3, c4⟩ := putBack_fields _ t3 u h
    exact ⟨c1.trans (b1.trans (a1.trans hB2)), c2.trans (b2.trans (a2.trans hi2)),
      c3.trans (b3.trans (a3.trans hh2)), c4.trans (b4.trans (a4.trans he2))⟩

/-! ## Single calls -/

@[simp] theorem incrEntries_begin (t : ProbingHashTable) : t.incrEntries.begin_ = t.begin_ := rfl

@[simp] theorem incrEntries_buckets (t : ProbingHashTable) :
    t.incrEntries.buckets_ = t.buckets_ := rfl

@[simp] theorem incrEntries_invalid (t : ProbingHashTable) :
    t.incrEntries.invalid_ = t.invalid_ := rfl

@[simp] theorem incrEntries_hash (t : ProbingHashTable) : t.incrEntries.hash_ = t.hash_ := rfl

theorem incrEntries_entries (t : ProbingHashTable) :
    t.incrEntries.entries_ = (t.entries_ + 1) % sizeMod := rfl

theorem incrEntries_entries_le (t : ProbingHashTable) :
    t.incrEntries.entries_ ≤ t.entries_ + 1 := Nat.mod_le _ _

theorem live_incrEntries (t : ProbingHashTable) : t.incrEntries.live = t.live :=
  liveUpTo_congr t t.incrEntries _ rfl (fun _ _ => rfl)

theorem Insert_eq (t : ProbingHashTable) (e : Entry) :
    t.Insert e =
      if t.incrEntries.entries_ ≥ t.buckets_ then Outcome.raise t.incrEntries
      else
        match t.incrEntries.UncheckedInsert e with
        | none => Outcome.hang
        | some (t2, i) => Outcome.ret t2 i := rfl

theorem FindOrInsert_eq (t : ProbingHashTable) (e : Entry) :
    t.FindOrInsert e =
      match t.probe e.key t.buckets_ (t.Ideal e.key) with
      | Probe.hit i => Outcome.ret t (true, i)
      | Probe.gap i =>
        if t.incrEntries.entries_ ≥ t.buckets_ then Outcome.raise t.incrEntries
        else Outcome.ret (t.incrEntries.store i e) (false, i)
      | Probe.spin => Outcome.hang := rfl

/-- The keys stored after an entry is written into an empty bucket. -/
theorem Stored_store (t : ProbingHashTable) (q : Nat) (e : Entry) (hq : q < t.buckets_)
    (hempty : t.keyAt q = t.invalid_) (k : Nat) (hk : k ≠ t.invalid_) :
    (t.store q e).Stored k ↔ t.Stored k ∨ e.key = k := by
  constructor
  · rintro ⟨i, hi, hik⟩
    by_cases hiq : i = q
    · rw [hiq, store_keyAt_same] at hik
      exact Or.inr hik
    · rw [store_keyAt_other t e hiq] at hik
      exact Or.inl ⟨i, hi, hik⟩
  · rintro (⟨i, hi, hik⟩ | h)
    · have hiq : i ≠ q := fun h => hk (by rw [← hik, h, hempty])
      exact ⟨i, hi, by rw [store_keyAt_other t e hiq]; exact hik⟩
    · exact ⟨q, hq, by rw [store_keyAt_same]; exact h⟩

/-- Writing into an empty bucket adds at most one occupied entry. -/
theorem card_live_store (t : ProbingHashTable) (q : Nat) (e : Entry) (hq : q < t.buckets_)
    (hempty : t.keyAt q = t.invalid_) :
    Multiset.card (t.store q e).live ≤ Multiset.card t.live + 1 := by
  by_cases he : e.key = t.invalid_
  · have : (t.store q e).live = t.live := t.liveUpTo_store_noop q e _ hempty he
    rw [this]; omega
  · have : (t.store q e).live = e ::ₘ t.live := t.liveUpTo_store_fill q e _ hq hempty he
    rw [this, Multiset.card_cons]

/-- `Insert` below capacity on a block with a gap returns after writing the
entry into an empty bucket reached from its ideal bucket. -/
theorem Insert_ok (t : ProbingHashTable) (e : Entry)
    (hcap : t.incrEntries.entries_ < t.buckets_) (hg : t.HasGap) :
    ∃ q, t.Insert e = Outcome.ret (t.incrEntries.store q e) q ∧ q < t.buckets_ ∧
      t.keyAt q = t.invalid_ ∧ t.Reach (t.Ideal e.key) q := by
  obtain ⟨q, hq, h1, h2, h3⟩ := t.incrEntries.UncheckedInsert_of_gap e hg
  refine ⟨q, ?_, h1, h2, h3⟩
  rw [Insert_eq, if_neg (by omega), hq]

/-- Invariants kept by writing an entry into an empty bucket that its walk
reaches, together with the increment of the counter. -/
theorem fill_keeps (t : ProbingHashTable) (q : Nat) (e : Entry) (hI : t.I2)
    (hq : q < t.buckets_) (hempty : t.keyAt q = t.invalid_)
    (hreach : t.Reach (t.Ideal e.key) q) :
    (t.incrEntries.store q e).I2 ∧
      Multiset.card (t.incrEntries.store q e).live ≤ Multiset.card t.live + 1 ∧
      ∀ k, k ≠ t.invalid_ → ((t.incrEntries.store q e).Stored k ↔ t.Stored k ∨ e.key = k) :=
  ⟨t.incrEntries.I2_store q e hI hempty (fun _ => hreach),
    (t.live_incrEntries ▸ t.incrEntries.card_live_store q e hq hempty),
    fun k hk => t.incrEntries.Stored_store q e hq hempty k hk⟩

/-! ## Sequences of insertions -/

theorem insertAll_cons (t : ProbingHashTable) (e : Entry) (es : List Entry) :
    t.insertAll (e :: es) =
      match t.Insert e with
      | Outcome.ret t1 _ => insertAll t1 es
      | Outcome.raise _ => none
      | Outcome.hang => none := rfl

theorem findOrInsertAll_cons (t : ProbingHashTable) (e : Entry) (es : List Entry) :
    t.findOrInsertAll (e :: es) =
      match t.FindOrInsert e with
      | Outcome.ret t1 _ => findOrInsertAll t1 es
      | Outcome.raise _ => none
      | Outcome.hang => none := rfl

/-- Inserting a list that fits: every call returns, and the keys stored
afterwards are the earlier ones and those of the list. -/
theorem insertAll_spec :
    ∀ (es : List Entry) (t : ProbingHashTable), t.I2 →
      Multiset.card t.live + es.length < t.buckets_ →
      t.entries_ + es.length < t.buckets_ →
      ∃ u, t.insertAll es = some u ∧ u.I2 ∧ u.HasGap ∧ u.buckets_ = t.buckets_ ∧
        u.invalid_ = t.invalid_ ∧ u.hash_ = t.hash_ ∧
        ∀ k, k ≠ t.invalid_ → (u.Stored k ↔ t.Stored k ∨ k ∈ es.map Entry.key) := by
  intro es
  induction es with
  | nil =>
    intro t hI hc _
    exact ⟨t, rfl, hI, t.HasGap_of_card_lt (by simpa using hc), rfl, rfl, rfl,
      fun k _ => by simp⟩
  | cons e es ih =>
    intro t hI hc hn
    rw [List.length_cons] at hc hn
    have hg : t.HasGap := t.HasGap_of_card_lt (by omega)
    have hle := t.incrEntries_entries_le
    obtain ⟨q, hins, hq, hempty, hreach⟩ := t.Insert_ok e (by omega) hg
    obtain ⟨k1, k2, k3⟩ := t.fill_keeps q e hI hq hempty hreach
    obtain ⟨u, hu, hIu, hgu, c1, c2, c3, c4⟩ := ih (t.incrEntries.store q e) k1
      (by rw [store_buckets, incrEntries_buckets]; omega)
      (by rw [store_buckets, incrEntries_buckets, store_entries]; omega)
    refine ⟨u, by rw [insertAll_cons, hins]; exact hu, hIu, hgu, c1, c2, c3, ?_⟩
    intro k hk
    rw [c4 k hk, k3 k hk, List.map_cons, List.mem_cons]
    constructor
    · rintro ((h | h) | h)
      · exact Or.inl h
      · exact Or.inr (Or.inl h.symm)
      · exact Or.inr (Or.inr h)
    · rintro (h | h | h)
      · exact Or.inl (Or.inl h)
      · exact Or.inl (Or.inr h.symm)
      · exact Or.inr h

/-- The same for `FindOrInsert`. -/
theorem findOrInsertAll_spec :
    ∀ (es : List Entry) (t : ProbingHashTable), t.I2 →
      Multiset.card t.live + es.length < t.buckets_ →
      t.entries_ + es.length < t.buckets_ →
      ∃ u, t.findOrInsertAll es = some u ∧ u.I2 ∧ u.HasGap ∧ u.buckets_ = t.buckets_ ∧
        u.invalid_ = t.invalid_ ∧ u.hash_ = t.hash_ ∧
        ∀ k, k ≠ t.invalid_ → (u.Stored k ↔ t.Stored k ∨ k ∈ es.map Entry.key) := by
  intro es
  induction es with
  | nil =>
    intro t hI hc _
    exact ⟨t, rfl, hI, t.HasGap_of_card_lt (by simpa using hc), rfl, rfl, rfl,
      fun k _ => by simp⟩
  | cons e es ih =>
    intro t hI hc hn
    rw [List.length_cons] at hc hn
    have hg : t.HasGap := t.HasGap_of_card_lt (by omega)
    have hle := t.incrEntries_entries_le
    rw [findOrInsertAll_cons, FindOrInsert_eq]
    by_cases hs : t.Stored e.key
    · obtain ⟨i, hp, _, _⟩ := t.probe_hit_of_stored e.key hI hg hs
      rw [hp]
      obtain ⟨u, hu, hIu, hgu, c1, c2, c3, c4⟩ := ih t hI (by omega) (by omega)
      refine ⟨u, hu, hIu, hgu, c1, c2, c3, ?_⟩
      intro k hk
      rw [c4 k hk, List.map_cons, List.mem_cons]
      constructor
      · rintro (h | h)
        · exact Or.inl h
        · exact Or.inr (Or.inr h)
      · rintro (h | h | h)
        · exact Or.inl h
        · exact Or.inl (h ▸ hs)
        · exact Or.inr h
    · obtain ⟨q, hp, hq, hempty, hreach⟩ := t.probe_gap_of_not_stored e.key hg hs
      rw [hp]
      dsimp only
      rw [if_neg (by omega)]
      obtain ⟨k1, k2, k3⟩ := t.fill_keeps q e hI hq hempty hreach
      obtain ⟨u, hu, hIu, hgu, c1, c2, c3, c4⟩ := ih (t.incrEntries.store q e) k1
        (by rw [store_buckets, incrEntries_buckets]; omega)
        (by rw [store_buckets, incrEntries_buckets, store_entries]; omega)
      refine ⟨u, hu, hIu, hgu, c1, c2, c3, ?_⟩
      intro k hk
      rw [c4 k hk, k3 k hk, List.map_cons, List.mem_cons]
      constructor
      · rintro ((h | h) | h)
        · exact Or.inl h
        · exact Or.inr (Or.inl h.symm)
        · exact Or.inr (Or.inr h)
      · rintro (h | h | h)
        · exact Or.inl (Or.inl h)
        · exact Or.inl (Or.inr h.symm)
        · exact Or.inr h

/-! ## `Clear` -/

@[simp] theorem Clear_buckets (t : ProbingHashTable) (junk : Entry) :
    (t.Clear junk).buckets_ = t.buckets_ := rfl

@[simp] theorem Clear_invalid (t : ProbingHashTable) (junk : Entry) :
    (t.Clear junk).invalid_ = t.invalid_ := rfl

@[simp] theorem Clear_hash (t : ProbingHashTable) (junk : Entry) :
    (t.Clear junk).hash_ = t.hash_ := rfl

@[simp] theorem Clear_entries (t : ProbingHashTable) (junk : Entry) :
    (t.Clear junk).entries_ = 0 := rfl

theorem Clear_keyAt (t : ProbingHashTable) (junk : Entry) (i : Nat) (hi : i < t.buckets_) :
    (t.Clear junk).keyAt i = t.invalid_ := by
  simp [Clear, fill, keyAt, hi, Entry.GetKey, Entry.SetKey]

theorem Clear_I2 (t : ProbingHashTable) (junk : Entry) : (t.Clear junk).I2 :=
  fun i hi hk => absurd (t.Clear_keyAt junk i hi) hk

theorem Clear_liveUpTo (t : ProbingHashTable) (junk : Entry) (n : Nat)
    (hn : n ≤ t.buckets_) : (t.Clear junk).liveUpTo n = 0 := by
  induction n with
  | zero => rfl
  | succ n ih =>
    rw [liveUpTo_succ, Clear_invalid, if_pos (t.Clear_keyAt junk n (by omega))]
    exact ih (by omega)

theorem Clear_live (t : ProbingHashTable) (junk : Entry) : (t.Clear junk).live = 0 :=
  t.Clear_liveUpTo junk _ (Nat.le_refl _)

theorem Clear_not_stored (t : ProbingHashTable) (junk : Entry) (k : Nat)
    (hk : k ≠ t.invalid_) : ¬ (t.Clear junk).Stored k := by
  rintro ⟨i, hi, hik⟩
  rw [t.Clear_keyAt junk i hi] at hik
  exact hk hik.symm

/-- Lookups after a sequence of insertions into a cleared block. -/
theorem lookups_after (t u : ProbingHashTable) (junk : Entry) (es : List Entry)
    (hI : u.I2) (hg : u.HasGap) (hinv : u.invalid_ = t.invalid_)
    (hst : ∀ k, k ≠ t.invalid_ →
      (u.Stored k ↔ (t.Clear junk).Stored k ∨ k ∈ es.map Entry.key)) :
    (∀ e, e ∈ es → ∃ i, u.Find e.key = FindResult.found i ∧ i < u.buckets_ ∧
        u.keyAt i = e.key) ∧
      ∀ k, k ≠ t.invalid_ → k ∉ es.map Entry.key → u.Find k = FindResult.notFound := by
  constructor
  · intro e he
    apply u.Find_of_stored e.key hI hg
    by_cases hk : e.key = t.invalid_
    · obtain ⟨g, hgl, hgk⟩ := hg
      exact ⟨g, hgl, by rw [hgk, hinv, hk]⟩
    · exact (hst e.key hk).mpr (Or.inr (List.mem_map_of_mem _ he))
  · intro k hk hnot
    apply u.Find_of_not_stored k hg
    rw [hst k hk]
    rintro (h | h)
    · exact t.Clear_not_stored junk k hk h
    · exact hnot h

end ProbingHashTable

/-- C1 (amended).  On a cleared block of `B` buckets, for any hash function
and any list of fewer than `B` entries, inserting all of them with `Insert`
returns, and so does inserting all of them with `FindOrInsert`; afterwards
`Find` returns `true` for the key of every inserted entry, with a handle to a
bucket of the block that holds that key, and returns `false` for every key
that was not inserted and is not the invalid key.  (Distinctness of the keys
is not needed for this.) -/
theorem C1_find_after_inserts (t : ProbingHashTable) (junk : Entry) (es : List Entry)
    (hlen : es.length < t.buckets_) :
    (∃ u, (t.Clear junk).insertAll es = some u ∧
      (∀ e, e ∈ es → ∃ i, u.Find e.key = FindResult.found i ∧ i < u.buckets_ ∧
        u.keyAt i = e.key) ∧
      ∀ k, k ≠ t.invalid_ → k ∉ es.map Entry.key → u.Find k = FindResult.notFound) ∧
    (∃ u, (t.Clear junk).findOrInsertAll es = some u ∧
      (∀ e, e ∈ es → ∃ i, u.Find e.key = FindResult.found i ∧ i < u.buckets_ ∧
        u.keyAt i = e.key) ∧
      ∀ k, k ≠ t.invalid_ → k ∉ es.map Entry.key → u.Find k = FindResult.notFound) := by
  have hc : Multiset.card (t.Clear junk).live + es.length < (t.Clear junk).buckets_ := by
    rw [ProbingHashTable.Clear_live]; simpa using hlen
  have hn : (t.Clear junk).entries_ + es.length < (t.Clear junk).buckets_ := by
    simpa using hlen
  constructor
  · obtain ⟨u, hu, hI, hg, _, hinv, _, hst⟩ :=
      ProbingHashTable.insertAll_spec es (t.Clear junk) (t.Clear_I2 junk) hc hn
    exact ⟨u, hu, ProbingHashTable.lookups_after t u junk es hI hg hinv hst⟩
  · obtain ⟨u, hu, hI, hg, _, hinv, _, hst⟩ :=
      ProbingHashTable.findOrInsertAll_spec es (t.Clear junk) (t.Clear_I2 junk) hc hn
    exact ⟨u, hu, ProbingHashTable.lookups_after t u junk es hI hg hinv hst⟩

/-- C1, as stated, fails for the invalid key: on a cleared block of 4 buckets
(invalid key 0, identity hash) into which the single key 5 was inserted with
`Insert`, the key 0 was not inserted and `Find 0` returns `true`, handing out
the empty bucket 0. -/
theorem C1_counterexample :
    (0 : Nat) ∉ [5] ∧
    ((clearedTable 4).insertAll [⟨5, 1⟩]).map (fun u => u.Find 0)
      = some (FindResult.found 0) := by
  decide

/-- C1 (amended) at work: two keys in a cleared block of 4 buckets. -/
theorem C1_witness :
    [(⟨5, 1⟩ : Entry), ⟨9, 2⟩].length < (clearedTable 4).buckets_ ∧
    ∃ u, ((clearedTable 4).Clear ⟨1, 1⟩).insertAll [⟨5, 1⟩, ⟨9, 2⟩] = some u ∧
      (∀ e, e ∈ [(⟨5, 1⟩ : Entry), ⟨9, 2⟩] → ∃ i, u.Find e.key = FindResult.found i ∧
        i < u.buckets_ ∧ u.keyAt i = e.key) ∧
      ∀ k, k ≠ (clearedTable 4).invalid_ → k ∉ [(⟨5, 1⟩ : Entry), ⟨9, 2⟩].map Entry.key →
        u.Find k = FindResult.notFound :=
  ⟨by decide, (C1_find_after_inserts (clearedTable 4) ⟨1, 1⟩ [⟨5, 1⟩, ⟨9, 2⟩] (by decide)).1⟩

namespace ProbingHashTable

/-- A probe that came back ran on a block with at least one bucket. -/
theorem probe_pos (t : ProbingHashTable) (k h : Nat)
    (hp : t.probe k t.buckets_ h ≠ Probe.spin) : 0 < t.buckets_ := by
  rcases Nat.eq_zero_or_pos t.buckets_ with h0 | h0
  · rw [h0] at hp; exact absurd rfl hp
  · exact h0

/-- After `FindOrInsert` wrote the entry into the gap its probe ended at, the
same probe ends at that bucket with a hit. -/
theorem probe_after_fill (t : ProbingHashTable) (e : Entry) (i : Nat)
    (hp : t.probe e.key t.buckets_ (t.Ideal e.key) = Probe.gap i) :
    (t.incrEntries.store i e).probe e.key t.buckets_ (t.Ideal e.key) = Probe.hit i := by
  have hN : 0 < t.buckets_ := t.probe_pos _ _ (by rw [hp]; intro h; cases h)
  have hh := t.Ideal_lt e.key hN
  have key := t.probe_sound e.key t.buckets_ (t.Ideal e.key) hh
  rw [hp] at key
  obtain ⟨s, hs, hpos, _, hempty, hall⟩ := key
  have hsame : ∀ r, r < s →
      (t.incrEntries.store i e).keyAt ((t.Ideal e.key + r) % t.buckets_) =
        t.keyAt ((t.Ideal e.key + r) % t.buckets_) := by
    intro r hr
    apply store_keyAt_other
    intro hc
    exact (hall r hr).2 (by rw [hc]; exact hempty)
  have := (t.incrEntries.store i e).probe_stop e.key s t.buckets_ (t.Ideal e.key) hh hs
    (by
      intro r hr
      change (t.incrEntries.store i e).keyAt ((t.Ideal e.key + r) % t.buckets_) ≠ e.key ∧
        (t.incrEntries.store i e).keyAt ((t.Ideal e.key + r) % t.buckets_) ≠ t.invalid_
      rw [hsame r hr]
      exact hall r hr)
  rw [this]
  change (if (t.incrEntries.store i e).keyAt ((t.Ideal e.key + s) % t.buckets_) = e.key
    then Probe.hit ((t.Ideal e.key + s) % t.buckets_) else _) = _
  rw [hpos, store_keyAt_same, if_pos rfl]

end ProbingHashTable

/-- C3.  On a probing table that satisfies I2 and has an empty bucket,
`FindOrInsert` with a key that some bucket of the block already holds returns
`found = true` with a handle to a bucket holding that key and leaves the
table (every bucket and the counter) as it was.  And on any table at all,
when a call of `FindOrInsert` returns, a second call with the same entry
returns `found = true` with the handle of the first call and leaves the table
of the first call, hence its live count, unchanged. -/
theorem C3_findOrInsert_existing (t : ProbingHashTable) (e : Entry) :
    (t.I2 → t.HasGap → t.Stored e.key →
      ∃ i, t.FindOrInsert e = Outcome.ret t (true, i) ∧ i < t.buckets_ ∧
        t.keyAt i = e.key) ∧
    (∀ t1 r1, t.FindOrInsert e = Outcome.ret t1 r1 →
      t1.FindOrInsert e = Outcome.ret t1 (true, r1.2) ∧ t1.keyAt r1.2 = e.key) := by
  constructor
  · intro hI hg hs
    obtain ⟨i, hp, hi, hk⟩ := t.probe_hit_of_stored e.key hI hg hs
    exact ⟨i, by rw [ProbingHashTable.FindOrInsert_eq, hp], hi, hk⟩
  · intro t1 r1 h
    rw [ProbingHashTable.FindOrInsert_eq] at h
    cases hp : t.probe e.key t.buckets_ (t.Ideal e.key) with
    | hit i =>
      rw [hp] at h
      cases h
      have hN : 0 < t.buckets_ := t.probe_pos _ _ (by rw [hp]; intro h; cases h)
      exact ⟨by rw [ProbingHashTable.FindOrInsert_eq, hp], (t.probe_hit_stored _ i hN hp).2⟩
    | gap i =>
      rw [hp] at h
      dsimp only at h
      split at h
      · cases h
      · cases h
        refine ⟨?_, ProbingHashTable.store_keyAt_same _ _ _⟩
        rw [ProbingHashTable.FindOrInsert_eq]
        have := t.probe_after_fill e i hp
        change (match (t.incrEntries.store i e).probe e.key t.buckets_ (t.Ideal e.key) with
          | Probe.hit j => Outcome.ret (t.incrEntries.store i e) (true, j)
          | Probe.gap j => _
          | Probe.spin => Outcome.hang) = _
        rw [this]
    | spin =>
      rw [hp] at h
      cases h

/-- C3 at work: the block of 4 buckets holding key 5, and a first call on the
cleared block. -/
theorem C3_witness :
    (tableWithFive.I2 ∧ tableWithFive.HasGap ∧ tableWithFive.Stored 5) ∧
    (∃ i, tableWithFive.FindOrInsert ⟨5, 9⟩ = Outcome.ret tableWithFive (true, i) ∧
      i < tableWithFive.buckets_ ∧ tableWithFive.keyAt i = 5) ∧
    tableWithFive.FindOrInsert ⟨5, 1⟩ = Outcome.ret tableWithFive (true, 1) :=
  ⟨⟨by decide, by decide, by decide⟩,
    (C3_findOrInsert_existing tableWithFive ⟨5, 9⟩).1 (by decide) (by decide) (by decide),
    ((C3_findOrInsert_existing (clearedTable 4) ⟨5, 1⟩).2 tableWithFive (false, 1) rfl).1⟩

namespace ProbingHashTable

/-- Tables with the same occupied entries and invalid key, each with a gap,
store the same keys. -/
theorem Stored_of_live_eq (t u : ProbingHashTable) (hl : u.live = t.live)
    (hinv : u.invalid_ = t.invalid_) (hgt : t.HasGap) (hgu : u.HasGap) (k : Nat) :
    u.Stored k ↔ t.Stored k := by
  by_cases hk : k = t.invalid_
  · constructor
    · intro _
      obtain ⟨g, hg, hgk⟩ := hgt
      exact ⟨g, hg, by rw [hgk, hk]⟩
    · intro _
      obtain ⟨g, hg, hgk⟩ := hgu
      exact ⟨g, hg, by rw [hgk, hinv, hk]⟩
  · rw [t.Stored_iff_live k hk, u.Stored_iff_live k (by rw [hinv]; exact hk), hl]

end ProbingHashTable

/-- C4.  For every probing table with `B` buckets that satisfies I2 and has
an empty bucket, `Double(new_base, clear_new = true)` over a block whose
lower half is the old image returns a table of `2 B` buckets on which `Find`
always returns and returns `true` for exactly the keys for which it returned
`true` before the call.  (I1 is not needed for this.) -/
theorem C4_double_keeps_membership (t : ProbingHashTable) (new_base : Nat → Entry)
    (junk : Entry) (hI : t.I2) (hg : t.HasGap)
    (hlow : ∀ j, j < t.buckets_ → new_base j = t.begin_ j) :
    ∃ u, t.Double new_base true junk = some u ∧ u.buckets_ = 2 * t.buckets_ ∧
      (∀ k, (∃ i, u.Find k = FindResult.found i) ↔ (∃ i, t.Find k = FindResult.found i)) ∧
      ∀ k, u.Find k ≠ FindResult.spin := by
  obtain ⟨u, hu, hIu, hlive, hb, hinv, _, _⟩ :=
    t.Double_spec new_base true junk hI hlow (fun h => by cases h)
  have hpos := ProbingHashTable.HasGap_pos hg
  have hgu : u.HasGap := by
    apply u.HasGap_of_card_lt
    rw [hlive, hb]
    have := t.card_liveUpTo_le t.buckets_
    unfold ProbingHashTable.live
    omega
  refine ⟨u, hu, hb, ?_, ?_⟩
  · intro k
    rw [u.Find_found_iff k hIu hgu, t.Find_found_iff k hI hg]
    exact ProbingHashTable.Stored_of_live_eq t u hlive hinv hg hgu k
  · intro k
    by_cases hs : u.Stored k
    · obtain ⟨i, hi, _⟩ := u.Find_of_stored k hIu hgu hs
      rw [hi]; intro h; cases h
    · rw [u.Find_of_not_stored k hgu hs]; intro h; cases h

/-- C4 at work: the block of 4 buckets holding key 5 is doubled in place. -/
theorem C4_witness :
    (tableWithFive.I2 ∧ tableWithFive.HasGap ∧
      ∀ j, j < tableWithFive.buckets_ → tableWithFive.begin_ j = tableWithFive.begin_ j) ∧
    ∃ u, tableWithFive.Double tableWithFive.begin_ true ⟨1, 1⟩ = some u ∧
      u.buckets_ = 2 * tableWithFive.buckets_ ∧
      (∀ k, (∃ i, u.Find k = FindResult.found i) ↔
        (∃ i, tableWithFive.Find k = FindResult.found i)) ∧
      ∀ k, u.Find k ≠ FindResult.spin :=
  ⟨⟨by decide, by decide, fun _ _ => rfl⟩,
    C4_double_keeps_membership tableWithFive tableWithFive.begin_ ⟨1, 1⟩ (by decide) (by decide)
      (fun _ _ => rfl)⟩

namespace ProbingHashTable

/-- The lookup loop reads only the block, the invalid key and the bucket
count. -/
theorem probe_congr (t u : ProbingHashTable) (k : Nat) (hb : u.buckets_ = t.buckets_)
    (hinv : u.invalid_ = t.invalid_)
    (hmem : ∀ j, j < t.buckets_ → u.begin_ j = t.begin_ j) :
    ∀ (f h : Nat), h < t.buckets_ → u.probe k f h = t.probe k f h := by
  intro f
  induction f with
  | zero => intro h _; rfl
  | succ f ih =>
    intro h hh
    have hk : u.keyAt h = t.keyAt h := by unfold keyAt; rw [hmem h hh]
    have ha : u.advance h = t.advance h := by unfold advance; rw [hb]
    rw [probe_succ, probe_succ, hk, hinv, ha, ih _ (t.advance_lt hh)]

/-- `Find` reads only the block, the invalid key, the hash and the bucket
count. -/
theorem Find_congr (t u : ProbingHashTable) (hb : u.buckets_ = t.buckets_)
    (hinv : u.invalid_ = t.invalid_) (hh : u.hash_ = t.hash_)
    (hmem : ∀ j, j < t.buckets_ → u.begin_ j = t.begin_ j) (k : Nat) :
    u.Find k = t.Find k := by
  rw [Find_eq_probe, Find_eq_probe, Ideal_congr hh hb, hb]
  rcases Nat.eq_zero_or_pos t.buckets_ with h0 | h0
  · rw [h0]; rfl
  · rw [probe_congr t u k hb hinv hmem _ _ (t.Ideal_lt k h0)]

end ProbingHashTable

/-- C5.  For every growable table whose bucket count is its allocated size
divided by the entry size (as both constructors and every doubling leave
it) and that uses the default invalid key `0` and the default hash, the
table that `LoadTable` builds from what `SaveTable` wrote has the same
`Size()`, the same `Allocated()`, the same bucket count and the same content
in every bucket of the block, so `Find` gives the same answer for every key. -/
theorem C5_save_load_round_trip (defaultHash : Nat → Nat) (outside : Nat → Entry)
    (t : AutoProbing) (hinv : t.backend_.invalid_ = 0) (hhash : t.backend_.hash_ = defaultHash)
    (hwf : t.backend_.buckets_ = t.allocated_ / sizeofEntry) :
    (LoadTable defaultHash outside (SaveTable t)).Size = t.Size ∧
    (LoadTable defaultHash outside (SaveTable t)).Allocated = t.Allocated ∧
    (LoadTable defaultHash outside (SaveTable t)).backend_.buckets_ = t.backend_.buckets_ ∧
    (∀ j, j < t.backend_.buckets_ →
      (LoadTable defaultHash outside (SaveTable t)).Begin j = t.Begin j) ∧
    ∀ k, (LoadTable defaultHash outside (SaveTable t)).Find k = t.Find k := by
  have hmem : ∀ j, j < t.backend_.buckets_ →
      (LoadTable defaultHash outside (SaveTable t)).backend_.begin_ j = t.backend_.begin_ j := by
    intro j hj
    rw [hwf] at hj
    simp [LoadTable, SaveTable, AutoProbing.load, ProbingHashTable.createWith,
      AutoProbing.Allocated, AutoProbing.Begin, hj]
  refine ⟨rfl, rfl, hwf.symm, hmem, ?_⟩
  intro k
  exact ProbingHashTable.Find_congr t.backend_ _ hwf.symm hinv.symm hhash.symm hmem k

/-- C5 at work on the table of the deduplication tool holding the keys 5, 6
and 7: after `SaveTable` and `LoadTable` the table reports `Size() = 3`, finds
the three keys in their buckets and does not find key 8. -/
theorem C5_witness :
    (tableOfThree.backend_.invalid_ = 0 ∧ tableOfThree.backend_.hash_ = IdentityHash ∧
      tableOfThree.backend_.buckets_ = tableOfThree.allocated_ / sizeofEntry) ∧
    tableOfThree.Size = 3 ∧
    (LoadTable IdentityHash (fun _ => ⟨2, 2⟩) (SaveTable tableOfThree)).Size = 3 ∧
    (LoadTable IdentityHash (fun _ => ⟨2, 2⟩) (SaveTable tableOfThree)).Find 5
      = FindResult.found 5 ∧
    (LoadTable IdentityHash (fun _ => ⟨2, 2⟩) (SaveTable tableOfThree)).Find 6
      = FindResult.found 6 ∧
    (LoadTable IdentityHash (fun _ => ⟨2, 2⟩) (SaveTable tableOfThree)).Find 7
      = FindResult.found 7 ∧
    (LoadTable IdentityHash (fun _ => ⟨2, 2⟩) (SaveTable tableOfThree)).Find 8
      = FindResult.notFound ∧
    ∀ k, (LoadTable IdentityHash (fun _ => ⟨2, 2⟩) (SaveTable tableOfThree)).Find k
      = tableOfThree.Find k :=
  ⟨⟨by decide, by rfl, by decide⟩, by decide,
    ((C5_save_load_round_trip IdentityHash (fun _ => ⟨2, 2⟩) tableOfThree (by decide)
      (by rfl) (by decide)).1).trans (by decide),
    ((C5_save_load_round_trip IdentityHash (fun _ => ⟨2, 2⟩) tableOfThree (by decide)
      (by rfl) (by decide)).2.2.2.2 5).trans (by decide),
    ((C5_save_load_round_trip IdentityHash (fun _ => ⟨2, 2⟩) tableOfThree (by decide)
      (by rfl) (by decide)).2.2.2.2 6).trans (by decide),
    ((C5_save_load_round_trip IdentityHash (fun _ => ⟨2, 2⟩) tableOfThree (by decide)
      (by rfl) (by decide)).2.2.2.2 7).trans (by decide),
    ((C5_save_load_round_trip IdentityHash (fun _ => ⟨2, 2⟩) tableOfThree (by decide)
      (by rfl) (by decide)).2.2.2.2 8).trans (by decide),
    (C5_save_load_round_trip IdentityHash (fun _ => ⟨2, 2⟩) tableOfThree (by decide)
      (by rfl) (by decide)).2.2.2.2⟩

/-- C6 fails on the code: `AutoProbing::Insert` calls `UncheckedInsert`
without touching the counter.  On the table the deduplication tool declares
(`Size() = 0`), `Insert` of an entry with the fresh key 5 returns and leaves
`Size()` at 0, with the entry stored in bucket 5. -/
theorem C6_insert_leaves_size :
    defaultTable.Size = 0 ∧
    ((defaultTable.Insert plainEnv ⟨5, 1⟩).after.map AutoProbing.Size) = some 0 ∧
    ((defaultTable.Insert plainEnv ⟨5, 1⟩).after.map (fun a => a.backend_.keyAt 5)) = some 5 := by
  decide

/-- C7.  For a probing table with `B` buckets and live count `c` whose
increment does not wrap (`c + 1 < 2 ^ 64`, as whenever `c < B`): `Insert`
raises exactly when `c + 1 >= B`, and with an empty bucket in the block it
otherwise returns with the count at `c + 1`; on a table that satisfies I2 and
has an empty bucket, `FindOrInsert` raises exactly when no bucket holds the
key and `c + 1 >= B`, and otherwise returns, with the count at `c + 1` when
it reports `found = false`. -/
theorem C7_capacity_exceeded (t : ProbingHashTable) (e : Entry)
    (hrep : t.entries_ + 1 < sizeMod) :
    ((∃ t1, t.Insert e = Outcome.raise t1) ↔ t.entries_ + 1 ≥ t.buckets_) ∧
    (t.HasGap → t.entries_ + 1 < t.buckets_ →
      ∃ t1 i, t.Insert e = Outcome.ret t1 i ∧ t1.SizeNoSerialization = t.entries_ + 1) ∧
    (t.I2 → t.HasGap →
      ((∃ t1, t.FindOrInsert e = Outcome.raise t1) ↔
        (¬ t.Stored e.key ∧ t.entries_ + 1 ≥ t.buckets_)) ∧
      (¬ (¬ t.Stored e.key ∧ t.entries_ + 1 ≥ t.buckets_) →
        ∃ t1 r, t.FindOrInsert e = Outcome.ret t1 r ∧
          (r.1 = false → t1.SizeNoSerialization = t.entries_ + 1))) := by
  have hinc : t.incrEntries.entries_ = t.entries_ + 1 := by
    rw [ProbingHashTable.incrEntries_entries, Nat.mod_eq_of_lt hrep]
  refine ⟨?_, ?_, ?_⟩
  · rw [ProbingHashTable.Insert_eq, hinc]
    constructor
    · rintro ⟨t1, h⟩
      by_contra hc
      rw [if_neg hc] at h
      cases hu : t.incrEntries.UncheckedInsert e with
      | none => rw [hu] at h; cases h
      | some r => rw [hu] at h; cases h
    · intro hc
      exact ⟨_, if_pos hc⟩
  · intro hg hlt
    obtain ⟨q, hq, _⟩ := t.Insert_ok e (by rw [hinc]; exact hlt) hg
    exact ⟨_, q, hq, hinc⟩
  · intro hI hg
    rw [ProbingHashTable.FindOrInsert_eq]
    by_cases hs : t.Stored e.key
    · obtain ⟨i, hp, _⟩ := t.probe_hit_of_stored e.key hI hg hs
      rw [hp]
      refine ⟨⟨?_, fun h => absurd hs h.1⟩, fun _ => ⟨t, (true, i), rfl, ?_⟩⟩
      · rintro ⟨t1, h⟩; cases h
      · intro h; cases h
    · obtain ⟨q, hp, _⟩ := t.probe_gap_of_not_stored e.key hg hs
      rw [hp]
      dsimp only
      rw [hinc]
      by_cases hc : t.entries_ + 1 ≥ t.buckets_
      · rw [if_pos hc]
        exact ⟨⟨fun _ => ⟨hs, hc⟩, fun _ => ⟨_, rfl⟩⟩, fun h => absurd ⟨hs, hc⟩ h⟩
      · rw [if_neg hc]
        refine ⟨⟨?_, fun h => absurd h.2 hc⟩, fun _ => ⟨_, (false, q), rfl, fun _ => hinc⟩⟩
        rintro ⟨t1, h⟩; cases h

/-- C7 at work on the block of 4 buckets holding key 5 (count 1). -/
theorem C7_witness :
    (tableWithFive.entries_ + 1 < sizeMod ∧ tableWithFive.HasGap ∧ tableWithFive.I2 ∧
      tableWithFive.entries_ + 1 < tableWithFive.buckets_) ∧
    (∃ t1 i, tableWithFive.Insert ⟨9, 1⟩ = Outcome.ret t1 i ∧
      t1.SizeNoSerialization = tableWithFive.entries_ + 1) ∧
    ((∃ t1, tableWithFive.FindOrInsert ⟨9, 1⟩ = Outcome.raise t1) ↔
        (¬ tableWithFive.Stored 9 ∧ tableWithFive.entries_ + 1 ≥ tableWithFive.buckets_)) :=
  ⟨⟨by decide, by decide, by decide, by decide⟩,
    (C7_capacity_exceeded tableWithFive ⟨9, 1⟩ (by decide)).2.1 (by decide) (by decide),
    ((C7_capacity_exceeded tableWithFive ⟨9, 1⟩ (by decide)).2.2 (by decide) (by decide)).1⟩

namespace ProbingHashTable

/-! ## `CheckConsistency` on a table that satisfies I2 -/

theorem lastGap_succ (t : ProbingHashTable) (n : Nat) :
    t.lastGap (n + 1) = if t.keyAt n = t.invalid_ then some n else t.lastGap n := rfl

theorem lastGap_some (t : ProbingHashTable) :
    ∀ (n l : Nat), t.lastGap n = some l → l < n ∧ t.keyAt l = t.invalid_ := by
  intro n
  induction n with
  | zero => intro l h; cases h
  | succ n ih =>
    intro l h
    rw [lastGap_succ] at h
    by_cases he : t.keyAt n = t.invalid_
    · rw [if_pos he] at h
      cases h
      exact ⟨by omega, he⟩
    · rw [if_neg he] at h
      obtain ⟨h1, h2⟩ := ih l h
      exact ⟨by omega, h2⟩

theorem checkHead_succ (t : ProbingHashTable) (last : Option Nat) (n i : Nat) :
    t.checkHead last (n + 1) i =
      if t.keyAt i = t.invalid_ then Sum.inl i
      else if t.Ideal (t.keyAt i) > i ∧ leLast (t.Ideal (t.keyAt i)) last = true then
        Sum.inr (CheckResult.inconsistent i)
      else t.checkHead last n (i + 1) := rfl

theorem checkTail_succ (t : ProbingHashTable) (n i pre_gap : Nat) :
    t.checkTail (n + 1) i pre_gap =
      if t.keyAt i = t.invalid_ then t.checkTail n (i + 1) i
      else if t.Ideal (t.keyAt i) > i ∨ t.Ideal (t.keyAt i) ≤ pre_gap then
        CheckResult.inconsistent i
      else t.checkTail n (i + 1) pre_gap := rfl

/-- No bucket of the wrap-around run fails its test. -/
theorem head_test_passes (t : ProbingHashTable) (hI : t.I2) (last : Option Nat)
    (hlast : ∀ l, last = some l → l < t.buckets_ ∧ t.keyAt l = t.invalid_)
    (i : Nat) (hi : i < t.buckets_) (hocc : t.keyAt i ≠ t.invalid_) :
    ¬ (t.Ideal (t.keyAt i) > i ∧ leLast (t.Ideal (t.keyAt i)) last = true) := by
  rintro ⟨h1, h2⟩
  cases last with
  | none => cases h2
  | some l =>
    obtain ⟨hl, hk⟩ := hlast l rfl
    have hle : t.Ideal (t.keyAt i) ≤ l := by simpa [leLast] using h2
    have := Reach_wrapped (hI i hi hocc) (t.Ideal_lt _ (by omega)) h1 hl hk
    omega

/-- The second loop of `CheckConsistency` reports no inconsistency; it stops
at a gap when the block has one at or after its start. -/
theorem checkHead_spec (t : ProbingHashTable) (hI : t.I2) (last : Option Nat)
    (hlast : ∀ l, last = some l → l < t.buckets_ ∧ t.keyAt l = t.invalid_) :
    ∀ (n i : Nat), i + n = t.buckets_ →
      (∀ pos, t.checkHead last n i ≠ Sum.inr (CheckResult.inconsistent pos)) ∧
      ((∃ g, i ≤ g ∧ g < t.buckets_ ∧ t.keyAt g = t.invalid_) →
        ∃ g, t.checkHead last n i = Sum.inl g ∧ g < t.buckets_ ∧ t.keyAt g = t.invalid_) := by
  intro n
  induction n with
  | zero =>
    intro i hi
    refine ⟨fun pos h => (by cases h), ?_⟩
    rintro ⟨g, h1, h2, _⟩
    omega
  | succ n ih =>
    intro i hi
    rw [checkHead_succ]
    by_cases he : t.keyAt i = t.invalid_
    · rw [if_pos he]
      exact ⟨fun pos h => (by cases h), fun _ => ⟨i, rfl, by omega, he⟩⟩
    · rw [if_neg he, if_neg (t.head_test_passes hI last hlast i (by omega) he)]
      obtain ⟨h1, h2⟩ := ih (i + 1) (by omega)
      refine ⟨h1, ?_⟩
      rintro ⟨g, hg1, hg2, hg3⟩
      have : g ≠ i := fun h => he (h ▸ hg3)
      exact h2 ⟨g, by omega, hg2, hg3⟩

/-- The third loop of `CheckConsistency` reports no inconsistency. -/
theorem checkTail_spec (t : ProbingHashTable) (hI : t.I2) :
    ∀ (n i pre_gap : Nat), i + n = t.buckets_ → pre_gap ≤ i →
      t.keyAt pre_gap = t.invalid_ → t.checkTail n i pre_gap = CheckResult.ok := by
  intro n
  induction n with
  | zero => intro i p _ _ _; rfl
  | succ n ih =>
    intro i p hi hp hpk
    rw [checkTail_succ]
    by_cases he : t.keyAt i = t.invalid_
    · rw [if_pos he]
      exact ih (i + 1) i (by omega) (by omega) he
    · rw [if_neg he]
      have hpi : p < i := by
        rcases Nat.lt_or_ge p i with h | h
        · exact h
        · exact absurd (by rw [show i = p by omega]; exact hpk) he
      have := Reach_after_gap (hI i (by omega) he) (t.Ideal_lt _ (by omega)) hpi hpk
      rw [if_neg (by omega)]
      exact ih (i + 1) p (by omega) (by omega) hpk

theorem CheckConsistency_eq (t : ProbingHashTable) :
    t.CheckConsistency =
      if t.lastGap t.buckets_ = some 0 then CheckResult.completelyFull
      else
        match t.checkHead (t.lastGap t.buckets_) t.buckets_ 0 with
        | Sum.inr r => r
        | Sum.inl i => t.checkTail (t.buckets_ - i) i i := rfl

/-- On a table that satisfies I2, `CheckConsistency` raises no inconsistency
error; with an empty bucket in the block it stays inside the block, so it
returns or raises "Completely full". -/
theorem CheckConsistency_of_I2 (t : ProbingHashTable) (hI : t.I2) :
    (∀ pos, t.CheckConsistency ≠ CheckResult.inconsistent pos) ∧
    (t.HasGap → t.CheckConsistency = CheckResult.ok ∨
      t.CheckConsistency = CheckResult.completelyFull) := by
  have hlast := t.lastGap_some t.buckets_
  have hhead := t.checkHead_spec hI (t.lastGap t.buckets_) hlast t.buckets_ 0 (by omega)
  have htail : ∀ g, g < t.buckets_ → t.keyAt g = t.invalid_ →
      t.checkTail (t.buckets_ - g) g g = CheckResult.ok :=
    fun g hg hk => t.checkTail_spec hI _ g g (by omega) (Nat.le_refl g) hk
  rw [CheckConsistency_eq]
  by_cases h0 : t.lastGap t.buckets_ = some 0
  · rw [if_pos h0]
    exact ⟨fun pos h => (by cases h), fun _ => Or.inr rfl⟩
  · rw [if_neg h0]
    constructor
    · intro pos
      cases hc : t.checkHead (t.lastGap t.buckets_) t.buckets_ 0 with
      | inr r =>
        intro h
        exact hhead.1 pos (by rw [hc]; exact congrArg Sum.inr h)
      | inl g =>
        dsimp only
        by_cases hg : g < t.buckets_ ∧ t.keyAt g = t.invalid_
        · rw [htail g hg.1 hg.2]; intro h; cases h
        · exfalso
          apply hg
          -- the loop only stops at a gap inside the block
          have : ∀ (n i : Nat), i + n = t.buckets_ →
              t.checkHead (t.lastGap t.buckets_) n i = Sum.inl g →
              g < t.buckets_ ∧ t.keyAt g = t.invalid_ := by
            intro n
            induction n with
            | zero => intro i _ h; cases h
            | succ n ih =>
              intro i hi h
              rw [checkHead_succ] at h
              by_cases he : t.keyAt i = t.invalid_
              · rw [if_pos he] at h
                cases h
                exact ⟨by omega, he⟩
              · rw [if_neg he] at h
                split at h
                · cases h
                · exact ih (i + 1) (by omega) h
          exact this _ 0 (by omega) hc
    · rintro ⟨g, hg, hgk⟩
      obtain ⟨g0, hc, hg0, hg0k⟩ := hhead.2 ⟨g, Nat.zero_le g, hg, hgk⟩
      rw [hc]
      exact Or.inl (htail g0 hg0 hg0k)

/-! ## Sequences of public operations -/

/-- The table `Insert` leaves behind when it comes back. -/
theorem Insert_after (t : ProbingHashTable) (e : Entry) (u : ProbingHashTable)
    (h : (t.Insert e).after = some u) :
    (u = t.incrEntries ∧ t.incrEntries.entries_ ≥ t.buckets_) ∨
    ∃ q, u = t.incrEntries.store q e ∧ t.incrEntries.entries_ < t.buckets_ ∧
      q < t.buckets_ ∧ t.keyAt q = t.invalid_ ∧ t.Reach (t.Ideal e.key) q := by
  rw [Insert_eq] at h
  by_cases hc : t.incrEntries.entries_ ≥ t.buckets_
  · rw [if_pos hc] at h
    cases h
    exact Or.inl ⟨rfl, hc⟩
  · rw [if_neg hc] at h
    cases hu : t.incrEntries.UncheckedInsert e with
    | none => rw [hu] at h; cases h
    | some r =>
      rw [hu] at h
      cases h
      obtain ⟨hq, hr⟩ := t.incrEntries.UncheckedInsert_eq e r hu
      have hN := t.incrEntries.firstEmpty_pos _ _ hq
      obtain ⟨h1, h2, h3⟩ := t.incrEntries.firstEmpty_reach _ _ (t.incrEntries.Ideal_lt _ hN) hq
      exact Or.inr ⟨r.2, hr, by omega, h1, h2, h3⟩

/-- The table `FindOrInsert` leaves behind when it comes back. -/
theorem FindOrInsert_after (t : ProbingHashTable) (e : Entry) (u : ProbingHashTable)
    (h : (t.FindOrInsert e).after = some u) :
    u = t ∨ (u = t.incrEntries ∧ t.incrEntries.entries_ ≥ t.buckets_) ∨
    ∃ q, u = t.incrEntries.store q e ∧ t.incrEntries.entries_ < t.buckets_ ∧
      q < t.buckets_ ∧ t.keyAt q = t.invalid_ ∧ t.Reach (t.Ideal e.key) q := by
  rw [FindOrInsert_eq] at h
  cases hp : t.probe e.key t.buckets_ (t.Ideal e.key) with
  | hit i =>
    rw [hp] at h
    cases h
    exact Or.inl rfl
  | gap i =>
    rw [hp] at h
    dsimp only at h
    have hN : 0 < t.buckets_ := t.probe_pos _ _ (by rw [hp]; intro h; cases h)
    have key := t.probe_sound e.key t.buckets_ (t.Ideal e.key) (t.Ideal_lt _ hN)
    rw [hp] at key
    obtain ⟨s, hs, hpos, _, hempty, hall⟩ := key
    by_cases hc : t.incrEntries.entries_ ≥ t.buckets_
    · rw [if_pos hc] at h
      cases h
      exact Or.inr (Or.inl ⟨rfl, hc⟩)
    · rw [if_neg hc] at h
      cases h
      exact Or.inr (Or.inr ⟨i, rfl, by omega, by rw [← hpos]; exact Nat.mod_lt _ hN, hempty,
        s, hs, hpos, fun r hr => (hall r hr).2⟩)
  | spin =>
    rw [hp] at h
    cases h

theorem applyOp_insert_after (t : ProbingHashTable) (e : Entry) :
    (t.applyOp (Op.insert e)).after = (t.Insert e).after := by
  change (match t.Insert e with
    | Outcome.ret t1 _ => Outcome.ret t1 ()
    | Outcome.raise t1 => Outcome.raise t1
    | Outcome.hang => Outcome.hang).after = _
  generalize t.Insert e = o
  cases o <;> rfl

theorem applyOp_findOrInsert_after (t : ProbingHashTable) (e : Entry) :
    (t.applyOp (Op.findOrInsert e)).after = (t.FindOrInsert e).after := by
  change (match t.FindOrInsert e with
    | Outcome.ret t1 _ => Outcome.ret t1 ()
    | Outcome.raise t1 => Outcome.raise t1
    | Outcome.hang => Outcome.hang).after = _
  generalize t.FindOrInsert e = o
  cases o <;> rfl

theorem applyOp_double_after (t : ProbingHashTable) (upper : Nat → Entry) (junk : Entry) :
    (t.applyOp (Op.double upper junk)).after = t.Double (t.extend upper) true junk := by
  change (match t.Double (t.extend upper) true junk with
    | some t1 => Outcome.ret t1 ()
    | none => Outcome.hang).after = _
  generalize t.Double (t.extend upper) true junk = o
  cases o <;> rfl

theorem extend_low (t : ProbingHashTable) (upper : Nat → Entry) (j : Nat)
    (hj : j < t.buckets_) : t.extend upper j = t.begin_ j := by
  unfold extend
  rw [if_pos hj]

/-- Every public operation keeps I2. -/
theorem applyOp_I2 (t : ProbingHashTable) (op : Op) (hI : t.I2) (u : ProbingHashTable)
    (h : (t.applyOp op).after = some u) : u.I2 := by
  cases op with
  | clear junk =>
    cases h
    exact t.Clear_I2 junk
  | insert e =>
    rw [applyOp_insert_after] at h
    rcases t.Insert_after e u h with ⟨hu, _⟩ | ⟨q, hu, _, _, hempty, hreach⟩
    · rw [hu]; exact hI
    · rw [hu]; exact t.incrEntries.I2_store q e hI hempty (fun _ => hreach)
  | findOrInsert e =>
    rw [applyOp_findOrInsert_after] at h
    rcases t.FindOrInsert_after e u h with hu | ⟨hu, _⟩ | ⟨q, hu, _, _, hempty, hreach⟩
    · rw [hu]; exact hI
    · rw [hu]; exact hI
    · rw [hu]; exact t.incrEntries.I2_store q e hI hempty (fun _ => hreach)
  | double upper junk =>
    rw [applyOp_double_after] at h
    obtain ⟨v, hv, hIv, _⟩ := t.Double_spec (t.extend upper) true junk hI
      (t.extend_low upper) (fun hc => by cases hc)
    rw [hv] at h
    cases h
    exact hIv

theorem runThrough_cons (t : ProbingHashTable) (op : Op) (ops : List Op) :
    t.runThrough (op :: ops) =
      match (t.applyOp op).after with
      | some t1 => runThrough t1 ops
      | none => none := rfl

theorem runOps_cons (t : ProbingHashTable) (op : Op) (ops : List Op) :
    t.runOps (op :: ops) =
      match t.applyOp op with
      | Outcome.ret t1 _ => runOps t1 ops
      | Outcome.raise _ => none
      | Outcome.hang => none := rfl

/-- A run in which no call raises is a run. -/
theorem runThrough_of_runOps :
    ∀ (ops : List Op) (t u : ProbingHashTable), t.runOps ops = some u →
      t.runThrough ops = some u := by
  intro ops
  induction ops with
  | nil => intro t u h; exact h
  | cons op ops ih =>
    intro t u h
    rw [runOps_cons] at h
    rw [runThrough_cons]
    cases ha : t.applyOp op with
    | ret t1 a => rw [ha] at h; exact ih t1 u h
    | raise t1 => rw [ha] at h; cases h
    | hang => rw [ha] at h; cases h

/-- I2 holds after every run. -/
theorem runThrough_I2 :
    ∀ (ops : List Op) (t u : ProbingHashTable), t.I2 → t.runThrough ops = some u → u.I2 := by
  intro ops
  induction ops with
  | nil => intro t u hI h; cases h; exact hI
  | cons op ops ih =>
    intro t u hI h
    rw [runThrough_cons] at h
    cases ha : (t.applyOp op).after with
    | none => rw [ha] at h; cases h
    | some t1 =>
      rw [ha] at h
      exact ih t1 u (t.applyOp_I2 op hI t1 ha) h

/-- Every public operation comes back and keeps the counting invariant, as
long as the counter cannot wrap. -/
theorem applyOp_counted (t : ProbingHashTable) (op : Op) (n : Nat) (hK : Counted n t)
    (hn : n + 1 < sizeMod) :
    ∃ u, (t.applyOp op).after = some u ∧ Counted (n + 1) u := by
  have hinc : t.incrEntries.entries_ = t.entries_ + 1 := by
    rw [incrEntries_entries, Nat.mod_eq_of_lt (by have := hK.le_calls; omega)]
  have hg : t.HasGap := t.HasGap_of_card_lt hK.lt_buckets
  have h1 := hK.le_entries
  have h2 := hK.lt_buckets
  have h3 := hK.le_calls
  have hraise : Counted (n + 1) t.incrEntries :=
    ⟨hK.i2, by rw [live_incrEntries, hinc]; omega, by rw [live_incrEntries]; exact h2,
      by rw [hinc]; omega⟩
  have hfill : ∀ q e, t.incrEntries.entries_ < t.buckets_ → q < t.buckets_ →
      t.keyAt q = t.invalid_ → t.Reach (t.Ideal e.key) q →
      Counted (n + 1) (t.incrEntries.store q e) := by
    intro q e hc hq hempty hreach
    obtain ⟨k1, k2, _⟩ := t.fill_keeps q e hK.i2 hq hempty hreach
    rw [hinc] at hc
    exact ⟨k1, by rw [store_entries, hinc]; omega, by rw [store_buckets, incrEntries_buckets]; omega,
      by rw [store_entries, hinc]; omega⟩
  cases op with
  | clear junk =>
    refine ⟨t.Clear junk, rfl, t.Clear_I2 junk, ?_, ?_, ?_⟩
    · rw [Clear_live]; simp
    · rw [Clear_live, Clear_buckets]; simp; omega
    · rw [Clear_entries]; omega
  | insert e =>
    rw [applyOp_insert_after, Insert_eq]
    by_cases hc : t.incrEntries.entries_ ≥ t.buckets_
    · rw [if_pos hc]
      exact ⟨_, rfl, hraise⟩
    · obtain ⟨q, hq, hql, hempty, hreach⟩ := t.Insert_ok e (by omega) hg
      rw [← Insert_eq, hq]
      exact ⟨_, rfl, hfill q e (by omega) hql hempty hreach⟩
  | findOrInsert e =>
    rw [applyOp_findOrInsert_after, FindOrInsert_eq]
    by_cases hs : t.Stored e.key
    · obtain ⟨i, hp, _⟩ := t.probe_hit_of_stored e.key hK.i2 hg hs
      rw [hp]
      exact ⟨t, rfl, hK.i2, h1, h2, by omega⟩
    · obtain ⟨q, hp, hql, hempty, hreach⟩ := t.probe_gap_of_not_stored e.key hg hs
      rw [hp]
      dsimp only
      by_cases hc : t.incrEntries.entries_ ≥ t.buckets_
      · rw [if_pos hc]
        exact ⟨_, rfl, hraise⟩
      · rw [if_neg hc]
        exact ⟨_, rfl, hfill q e (by omega) hql hempty hreach⟩
  | double upper junk =>
    rw [applyOp_double_after]
    obtain ⟨v, hv, hIv, hlive, hb, _, _, hent⟩ := t.Double_spec (t.extend upper) true junk hK.i2
      (t.extend_low upper) (fun hc => by cases hc)
    exact ⟨v, hv, hIv, by rw [hlive, hent]; exact h1, by rw [hlive, hb]; omega,
      by rw [hent]; omega⟩

/-- Every run comes back and keeps the counting invariant, as long as the
counter cannot wrap. -/
theorem runThrough_counted :
    ∀ (ops : List Op) (t : ProbingHashTable) (n : Nat), Counted n t →
      n + ops.length < sizeMod →
      ∃ u, t.runThrough ops = some u ∧ Counted (n + ops.length) u := by
  intro ops
  induction ops with
  | nil => intro t n hK _; exact ⟨t, rfl, hK⟩
  | cons op ops ih =>
    intro t n hK hn
    rw [List.length_cons] at hn
    obtain ⟨t1, h1, hK1⟩ := t.applyOp_counted op n hK (by omega)
    obtain ⟨u, hu, hKu⟩ := ih t1 (n + 1) hK1 (by omega)
    refine ⟨u, by rw [runThrough_cons, h1]; exact hu, ?_⟩
    rw [List.length_cons, show n + (ops.length + 1) = n + 1 + ops.length by omega]
    exact hKu

theorem Clear_counted (t : ProbingHashTable) (junk : Entry) (hpos : 0 < t.buckets_) :
    Counted 0 (t.Clear junk) :=
  ⟨t.Clear_I2 junk, by rw [Clear_live]; simp, by rw [Clear_live]; simpa using hpos,
    by rw [Clear_entries]⟩

end ProbingHashTable

/-- C9.  Starting from a cleared probing table, after any sequence of
`Clear`, `Insert`, `FindOrInsert` and `Double` calls none of which raises,
`CheckConsistency` raises the inconsistency error for no position; and when
the block has at least one bucket and the sequence is shorter than `2 ^ 64`
calls, `CheckConsistency` stays inside the block: it returns, or raises
"Completely full". -/
theorem C9_check_consistency_passes (t : ProbingHashTable) (junk : Entry)
    (ops : List ProbingHashTable.Op)
    (u : ProbingHashTable) (hrun : (t.Clear junk).runOps ops = some u) :
    (∀ pos, u.CheckConsistency ≠ CheckResult.inconsistent pos) ∧
    (0 < t.buckets_ → ops.length < sizeMod →
      u.CheckConsistency = CheckResult.ok ∨
        u.CheckConsistency = CheckResult.completelyFull) := by
  have hthrough := ProbingHashTable.runThrough_of_runOps ops _ u hrun
  have hI : u.I2 := ProbingHashTable.runThrough_I2 ops _ u (t.Clear_I2 junk) hthrough
  refine ⟨(u.CheckConsistency_of_I2 hI).1, ?_⟩
  intro hpos hlen
  obtain ⟨v, hv, hK⟩ := ProbingHashTable.runThrough_counted ops (t.Clear junk) 0
    (t.Clear_counted junk hpos) (by omega)
  rw [hthrough] at hv
  cases hv
  exact (u.CheckConsistency_of_I2 hI).2 (u.HasGap_of_card_lt hK.lt_buckets)

/-- C9 at work: three insertions and a doubling on a block of 4 buckets. -/
theorem C9_witness :
    ((clearedTable 4).Clear ⟨1, 1⟩).runOps exampleOps = some exampleRun ∧
    exampleRun.keys = [0, 0, 0, 3, 0, 0, 6, 7] ∧
    (∀ pos, exampleRun.CheckConsistency ≠ CheckResult.inconsistent pos) ∧
    exampleRun.CheckConsistency = CheckResult.ok :=
  ⟨rfl, by decide,
    (C9_check_consistency_passes (clearedTable 4) ⟨1, 1⟩ exampleOps exampleRun rfl).1,
    by decide⟩

namespace ProbingHashTable

/-- An operation that returns keeps the counter below the bucket count. -/
theorem applyOp_ret_lt (t : ProbingHashTable) (op : Op) (u : ProbingHashTable)
    (hlt : t.entries_ < t.buckets_) (h : t.applyOp op = Outcome.ret u ()) :
    u.entries_ < u.buckets_ := by
  have hafter : (t.applyOp op).after = some u := by rw [h]; rfl
  cases op with
  | clear junk =>
    cases hafter
    rw [Clear_entries, Clear_buckets]
    omega
  | insert e =>
    have hr : ¬ t.incrEntries.entries_ ≥ t.buckets_ := by
      intro hc
      have : t.applyOp (Op.insert e) = Outcome.raise t.incrEntries := by
        change (match t.Insert e with
          | Outcome.ret t1 _ => Outcome.ret t1 ()
          | Outcome.raise t1 => Outcome.raise t1
          | Outcome.hang => Outcome.hang) = _
        rw [Insert_eq, if_pos hc]
      rw [this] at h
      cases h
    rw [applyOp_insert_after] at hafter
    rcases t.Insert_after e u hafter with ⟨_, hc⟩ | ⟨q, hu, hc, _⟩
    · exact absurd hc hr
    · rw [hu, store_entries, store_buckets, incrEntries_buckets]
      exact hc
  | findOrInsert e =>
    rw [applyOp_findOrInsert_after] at hafter
    rcases t.FindOrInsert_after e u hafter with hu | ⟨hu, hc⟩ | ⟨q, hu, hc, _⟩
    · rw [hu]; exact hlt
    · exfalso
      have hne : ∀ i, t.probe e.key t.buckets_ (t.Ideal e.key) ≠ Probe.hit i := by
        intro i hp
        have : (t.FindOrInsert e).after = some t := by rw [FindOrInsert_eq, hp]; rfl
        rw [hafter] at this
        have hcontra : t.incrEntries.entries_ = t.entries_ := by
          rw [← hu, Option.some.inj this]
        omega
      change (match t.FindOrInsert e with
        | Outcome.ret t1 _ => Outcome.ret t1 ()
        | Outcome.raise t1 => Outcome.raise t1
        | Outcome.hang => Outcome.hang) = _ at h
      rw [FindOrInsert_eq] at h
      cases hp : t.probe e.key t.buckets_ (t.Ideal e.key) with
      | hit i => exact hne i hp
      | gap i =>
        rw [hp] at h
        dsimp only at h
        rw [if_pos hc] at h
        cases h
      | spin =>
        rw [hp] at h
        cases h
    · rw [hu, store_entries, store_buckets, incrEntries_buckets]
      exact hc
  | double upper junk =>
    rw [applyOp_double_after] at hafter
    obtain ⟨h1, _, _, h4⟩ := t.Double_fields _ _ _ u hafter
    rw [h1, h4]
    omega

/-- A run in which no call raises keeps the counter below the bucket count. -/
theorem runOps_lt :
    ∀ (ops : List Op) (t u : ProbingHashTable), t.entries_ < t.buckets_ →
      t.runOps ops = some u → u.entries_ < u.buckets_ := by
  intro ops
  induction ops with
  | nil => intro t u hlt h; cases h; exact hlt
  | cons op ops ih =>
    intro t u hlt h
    rw [runOps_cons] at h
    cases ha : t.applyOp op with
    | ret t1 a =>
      rw [ha] at h
      exact ih t1 u (t.applyOp_ret_lt op t1 hlt ha) h
    | raise t1 => rw [ha] at h; cases h
    | hang => rw [ha] at h; cases h

end ProbingHashTable

/-- C10 (amended).  Starting from a cleared probing table with at least one
bucket, every sequence of fewer than `2 ^ 64` public operations (`Clear`,
`Insert`, `FindOrInsert`, `Double`) comes back, calls that raise included,
and leaves a block with an empty bucket and with no more occupied buckets
than `SizeNoSerialization` reports; and when no call of the sequence raised,
`SizeNoSerialization` is strictly less than `buckets_`. -/
theorem C10_headroom_after_operations (t : ProbingHashTable) (junk : Entry)
    (ops : List ProbingHashTable.Op) (hpos : 0 < t.buckets_) (hlen : ops.length < sizeMod) :
    (∃ u, (t.Clear junk).runThrough ops = some u ∧ u.HasGap ∧
      Multiset.card u.live ≤ u.SizeNoSerialization) ∧
    ∀ u, (t.Clear junk).runOps ops = some u → u.SizeNoSerialization < u.buckets_ := by
  constructor
  · obtain ⟨u, hu, hK⟩ := ProbingHashTable.runThrough_counted ops (t.Clear junk) 0
      (t.Clear_counted junk hpos) (by omega)
    exact ⟨u, hu, u.HasGap_of_card_lt hK.lt_buckets, hK.le_entries⟩
  · intro u hu
    exact ProbingHashTable.runOps_lt ops (t.Clear junk) u hpos hu

/-- C10, as stated, fails after a call that raises: `Insert` and
`FindOrInsert` increment the counter inside the capacity test.  On a cleared
block of 2 buckets, `Insert` of key 1 returns with the count at 1; `Insert`
of key 2 then raises and leaves the count at 2, which is not below the 2
buckets, while the block still holds the single key 1 next to an empty
bucket. -/
theorem C10_counterexample :
    (clearedTable 2).buckets_ = 2 ∧
    ((clearedTable 2).runThrough [ProbingHashTable.Op.insert ⟨1, 1⟩]).map
        (fun u => (u.SizeNoSerialization, u.keys)) = some (1, [0, 1]) ∧
    ((clearedTable 2).runThrough [ProbingHashTable.Op.insert ⟨1, 1⟩]).map
        (fun u => (u.Insert ⟨2, 1⟩).raised) = some true ∧
    ((clearedTable 2).runThrough
        [ProbingHashTable.Op.insert ⟨1, 1⟩, ProbingHashTable.Op.insert ⟨2, 1⟩]).map
        (fun u => (u.SizeNoSerialization, u.buckets_, u.keys,
          decide (u.SizeNoSerialization < u.buckets_))) = some (2, 2, [0, 1], false) := by
  decide

/-- C10 (amended) at work on three insertions and a doubling. -/
theorem C10_witness :
    (0 < (clearedTable 4).buckets_ ∧ exampleOps.length < sizeMod) ∧
    (∃ u, ((clearedTable 4).Clear ⟨1, 1⟩).runThrough exampleOps = some u ∧ u.HasGap ∧
      Multiset.card u.live ≤ u.SizeNoSerialization) ∧
    exampleRun.SizeNoSerialization < exampleRun.buckets_ :=
  ⟨⟨by decide, by decide⟩,
    (C10_headroom_after_operations (clearedTable 4) ⟨1, 1⟩ exampleOps (by decide)
      (by decide)).1,
    (C10_headroom_after_operations (clearedTable 4) ⟨1, 1⟩ exampleOps (by decide)
      (by decide)).2 exampleRun rfl⟩

/-! ## Rounding -/

theorem excessBits_of_lt (p fuel m : Nat) (h : m < 2 ^ p) : excessBits p fuel m = 0 := by
  cases fuel with
  | zero => rfl
  | succ f => simp [excessBits, h]

/-- With enough search steps, `excessBits` is zero or leaves exactly `p`
leading digits. -/
theorem excessBits_spec (p : Nat) :
    ∀ (fuel m : Nat), m < 2 ^ (p + fuel) →
      (excessBits p fuel m = 0 ∧ m < 2 ^ p) ∨
      (0 < excessBits p fuel m ∧ 2 ^ (p + excessBits p fuel m - 1) ≤ m ∧
        m < 2 ^ (p + excessBits p fuel m)) := by
  intro fuel
  induction fuel with
  | zero =>
    intro m h
    left
    exact ⟨rfl, by simpa using h⟩
  | succ f ih =>
    intro m h
    by_cases hm : m < 2 ^ p
    · left
      exact ⟨excessBits_of_lt p _ m hm, hm⟩
    · right
      have hdef : excessBits p (f + 1) m = excessBits p f (m / 2) + 1 := by
        simp [excessBits, hm]
      have hhalf : m / 2 < 2 ^ (p + f) := by
        have : 2 ^ (p + (f + 1)) = 2 * 2 ^ (p + f) := by rw [← Nat.add_assoc, pow_succ]; ring
        omega
      rw [hdef]
      refine ⟨Nat.succ_pos _, ?_⟩
      rcases ih (m / 2) hhalf with ⟨h0, hlt⟩ | ⟨hpos, hlow, hhigh⟩
      · rw [h0]
        have h2 : 2 ^ (p + (0 + 1)) = 2 * 2 ^ p := by rw [Nat.zero_add, pow_succ]; ring
        rw [h2]
        constructor
        · simpa using Nat.le_of_not_lt hm
        · omega
      · have e1 : p + (excessBits p f (m / 2) + 1) - 1
            = (p + excessBits p f (m / 2) - 1) + 1 := by omega
        have e2 : 2 ^ (p + (excessBits p f (m / 2) + 1))
            = 2 * 2 ^ (p + excessBits p f (m / 2)) := by
          rw [← Nat.add_assoc, pow_succ]; ring
        rw [e1, e2, pow_succ]
        constructor <;> omega

/-- A value with at most `p` significant digits is not changed. -/
theorem roundToBits_of_lt (p m : Nat) (h : m < 2 ^ p) : roundToBits p m = m := by
  unfold roundToBits
  rw [excessBits_of_lt p 128 m h]
  simp [Nat.mod_one]

/-- Rounding moves a value by at most its `2 ^ p`-th part. -/
theorem roundToBits_near (p m : Nat) (h : m < 2 ^ (p + 128)) :
    2 ^ p * roundToBits p m ≤ (2 ^ p + 1) * m ∧
    (2 ^ p - 1) * m ≤ 2 ^ p * roundToBits p m := by
  rcases excessBits_spec p 128 m h with ⟨h0, hlt⟩ | ⟨hpos, hlow, _⟩
  · rw [roundToBits_of_lt p m hlt]
    constructor
    · exact Nat.mul_le_mul_right m (Nat.le_succ _)
    · exact Nat.mul_le_mul_right m (Nat.sub_le _ _)
  · obtain ⟨d, hd⟩ : ∃ d, excessBits p 128 m = d + 1 := ⟨excessBits p 128 m - 1, by omega⟩
    have hlow2 : 2 ^ p * 2 ^ d ≤ m := by
      rw [hd, show p + (d + 1) - 1 = p + d by omega, pow_add] at hlow
      exact hlow
    have hGpos : 0 < 2 ^ d := Nat.pow_pos (by decide)
    have hApos : 0 < 2 ^ p := Nat.pow_pos (by decide)
    unfold roundToBits
    rw [hd, pow_succ]
    generalize 2 ^ d = G at hlow2 hGpos ⊢
    generalize 2 ^ p = A at hlow2 hApos ⊢
    have hdiv := Nat.div_add_mod m (G * 2)
    have hmod := Nat.mod_lt m (show 0 < G * 2 by omega)
    generalize m / (G * 2) = q at hdiv ⊢
    generalize m % (G * 2) = r at hdiv hmod ⊢
    obtain ⟨x, hx⟩ : ∃ x, x = G * 2 * q := ⟨_, rfl⟩
    rw [← hx] at hdiv
    have hAm : A * m = A * x + A * r := by rw [← hdiv, Nat.mul_add]
    have hA1 : (A + 1) * m = A * x + A * r + m := by rw [Nat.add_mul, Nat.one_mul, hAm]
    have hAs : (A - 1) * m + m = A * x + A * r := by
      rw [← hAm]
      have : A - 1 + 1 = A := by omega
      calc (A - 1) * m + m = (A - 1 + 1) * m := by ring
        _ = A * m := by rw [this]
    split
    · next hup =>
      have hr2 : G ≤ r := by omega
      have e : A * ((q + 1) * (G * 2)) = A * x + A * (G * 2) := by rw [hx]; ring
      rw [e, hA1]
      have hAG : A * (G * 2) = A * G + A * G := by ring
      have hAr : A * G ≤ A * r := Nat.mul_le_mul_left A hr2
      have hAr2 : A * r ≤ A * (G * 2) := Nat.mul_le_mul_left A (Nat.le_of_lt hmod)
      constructor <;> omega
    · next hdown =>
      have hr2 : r ≤ G := by omega
      have e : A * (q * (G * 2)) = A * x := by rw [hx]; ring
      rw [e, hA1]
      have hAr : A * r ≤ A * G := Nat.mul_le_mul_left A hr2
      constructor <;> omega

/-- The rounding at work: `Size` for the initial sizes 10, 5592409, 11184813
and `2 ^ 63` (where the byte count wraps to 0), and the thresholds that the
two constructors compute for initial size 10 and for 268435472 bytes. -/
theorem rounding_examples :
    ProbingHashTable.Size 10 3 1 = 15 * sizeofEntry ∧
    ProbingHashTable.Size 5592409 3 1 = 8388614 * sizeofEntry ∧
    ProbingHashTable.Size 11184813 3 1 = 16777220 * sizeofEntry ∧
    ProbingHashTable.Size (2 ^ 63) 3 1 = 0 ∧
    roundToBits 24 268435472 = 268435456 ∧
    defaultTable.threshold_ = 12 ∧
    (AutoProbing.load IdentityHash (fun _ => ⟨0, 0⟩) 0 268435472).threshold_ = 13421772 := by
  decide

namespace AutoProbing

/-! ## Headroom of the growable table -/

theorem sizeofEntry_pos : 0 < sizeofEntry := by decide


/-- For an initial size `n` below `2 ^ 59` nothing wraps in `Size`: the size
constructor makes `max (n + 1) b` buckets, `b` being the truncated `float`
product `1.5f * float(n)`. -/
theorem create_buckets (mem : Nat → Entry) (junk : Entry) (n inv : Nat) (hash : Nat → Nat)
    (hn : n < 2 ^ 59) :
    (create mem junk n inv hash).backend_.buckets_
      = max (n + 1) (roundToBits 24 (3 * roundToBits 24 n) / 2) := by
  have hF := (roundToBits_near 24 n (lt_trans hn (by norm_num))).1
  have hF2 : roundToBits 24 n < 2 ^ 60 := by
    norm_num at hF hn ⊢
    omega
  have hP := (roundToBits_near 24 (3 * roundToBits 24 n)
    (lt_trans (show 3 * roundToBits 24 n < 2 ^ 62 by norm_num at hF2 ⊢; omega)
      (by norm_num))).1
  have hb : roundToBits 24 (3 * roundToBits 24 n) / 2 < 2 ^ 60 := by
    norm_num at hF hP hn ⊢
    omega
  change max ((n + 1) % sizeMod) (roundToBits 24 (3 * roundToBits 24 n) / 2 ^ 1)
    * sizeofEntry % sizeMod / sizeofEntry = _
  rw [pow_one, Nat.mod_eq_of_lt (show n + 1 < sizeMod by unfold sizeMod; norm_num at hn ⊢; omega)]
  have hmax : max (n + 1) (roundToBits 24 (3 * roundToBits 24 n) / 2) < 2 ^ 60 := by
    apply max_lt
    · norm_num at hn ⊢; omega
    · exact hb
  rw [Nat.mod_eq_of_lt (show _ * sizeofEntry < sizeMod by
    unfold sizeMod sizeofEntry; norm_num at hmax ⊢; omega)]
  exact Nat.mul_div_cancel _ sizeofEntry_pos

/-- As long as `3 n` has at most 24 binary digits the `float` product is exact
and the bucket count is `max (n + 1) (3 n / 2)`. -/
theorem create_buckets_exact (mem : Nat → Entry) (junk : Entry) (n inv : Nat)
    (hash : Nat → Nat) (hn : n ≤ 5592405) :
    (create mem junk n inv hash).backend_.buckets_ = max (n + 1) (3 * n / 2) := by
  rw [create_buckets mem junk n inv hash (by omega),
    roundToBits_of_lt 24 n (by norm_num; omega),
    roundToBits_of_lt 24 (3 * n) (by norm_num; omega)]

theorem create_threshold (mem : Nat → Entry) (junk : Entry) (n inv : Nat) (hash : Nat → Nat) :
    (create mem junk n inv hash).threshold_
      = roundToBits 53 (doubleOfSixFifths * roundToBits 53 n) / 2 ^ 52 := rfl

/-- The `double` product `1.2 * n`, truncated, is below the bucket count. -/
theorem create_threshold_lt (mem : Nat → Entry) (junk : Entry) (n inv : Nat)
    (hash : Nat → Nat) (hn : n < 2 ^ 59) :
    (create mem junk n inv hash).threshold_ < (create mem junk n inv hash).backend_.buckets_ := by
  rw [create_buckets mem junk n inv hash hn, create_threshold]
  have hD := (roundToBits_near 53 n (lt_trans hn (by norm_num))).1
  have hD2 : roundToBits 53 n < 2 ^ 60 := by
    norm_num at hD hn ⊢
    omega
  have hT := (roundToBits_near 53 (doubleOfSixFifths * roundToBits 53 n)
    (lt_trans (show doubleOfSixFifths * roundToBits 53 n < 2 ^ 113 by
      unfold doubleOfSixFifths; norm_num at hD2 ⊢; omega) (by norm_num))).1
  have hF := (roundToBits_near 24 n (lt_trans hn (by norm_num))).2
  have hF1 := (roundToBits_near 24 n (lt_trans hn (by norm_num))).1
  have hP := (roundToBits_near 24 (3 * roundToBits 24 n)
    (lt_trans (show 3 * roundToBits 24 n < 2 ^ 62 by norm_num at hF1 hn ⊢; omega)
      (by norm_num))).2
  generalize roundToBits 53 (doubleOfSixFifths * roundToBits 53 n) = T at hT ⊢
  generalize roundToBits 24 (3 * roundToBits 24 n) = P at hP ⊢
  generalize roundToBits 53 n = D at hD hT
  generalize roundToBits 24 n = F at hF hP
  unfold doubleOfSixFifths at hT
  norm_num at hD hT hF hP hn ⊢
  rcases Nat.lt_or_ge n 5 with hs | hs
  · left
    interval_cases n <;> omega
  · right
    omega

theorem create_Headroom (mem : Nat → Entry) (junk : Entry) (n inv : Nat) (hash : Nat → Nat)
    (hn : n < 2 ^ 59) : (create mem junk n inv hash).Headroom := by
  refine ⟨create_threshold_lt mem junk n inv hash hn, ?_⟩
  have h0 : (create mem junk n inv hash).backend_.entries_ = 0 := rfl
  rw [h0, create_buckets mem junk n inv hash hn]
  exact lt_of_lt_of_le (Nat.succ_pos n) (le_max_left _ _)

/-- Over a block of `B` whole entries the load constructor makes `B` buckets. -/
theorem load_buckets (defaultHash : Nat → Nat) (mem : Nat → Entry) (entries B : Nat) :
    (load defaultHash mem entries (B * sizeofEntry)).backend_.buckets_ = B :=
  Nat.mul_div_cancel _ sizeofEntry_pos

/-- Over a block of `B >= 1` whole entries the threshold of the load
constructor is below `B`. -/
theorem load_threshold_lt (defaultHash : Nat → Nat) (mem : Nat → Entry) (entries B : Nat)
    (hB : 0 < B) (hsmall : B * sizeofEntry < sizeMod) :
    (load defaultHash mem entries (B * sizeofEntry)).threshold_ < B := by
  change roundToBits 53 (doubleOfFourFifths * roundToBits 24 (B * sizeofEntry))
    / (2 ^ 53 * sizeofEntry) < B
  have hlt : B * sizeofEntry < 2 ^ (24 + 128) := lt_trans hsmall (by unfold sizeMod; norm_num)
  have hA := (roundToBits_near 24 (B * sizeofEntry) hlt).1
  have hA2 : roundToBits 24 (B * sizeofEntry) < 2 ^ 65 := by
    unfold sizeMod at hsmall
    norm_num at hA hsmall ⊢
    omega
  have hR := (roundToBits_near 53 (doubleOfFourFifths * roundToBits 24 (B * sizeofEntry))
    (lt_trans (show doubleOfFourFifths * roundToBits 24 (B * sizeofEntry) < 2 ^ 118 by
      unfold doubleOfFourFifths; norm_num at hA2 ⊢; omega) (by norm_num))).1
  generalize roundToBits 53 (doubleOfFourFifths * roundToBits 24 (B * sizeofEntry)) = R
    at hR ⊢
  generalize roundToBits 24 (B * sizeofEntry) = A at hA hR
  unfold doubleOfFourFifths at hR
  unfold sizeofEntry at hA ⊢
  rw [Nat.div_lt_iff_lt_mul (by norm_num)]
  norm_num at hA hR ⊢
  omega

theorem load_Headroom (defaultHash : Nat → Nat) (mem : Nat → Entry) (entries B : Nat)
    (hsmall : B * sizeofEntry < sizeMod) (hent : entries < B) :
    (load defaultHash mem entries (B * sizeofEntry)).Headroom := by
  unfold Headroom
  rw [load_buckets]
  exact ⟨load_threshold_lt defaultHash mem entries B (by omega) hsmall, hent⟩

theorem DoubleIfNeeded_eq (a : AutoProbing) (env : Env) :
    a.DoubleIfNeeded env =
      if a.backend_.entries_ < a.threshold_ then some a
      else
        match a.backend_.Double (a.backend_.extend env.fresh) true env.junk with
        | none => none
        | some b =>
          some { allocated_ := a.backend_.DoubleTo, backend_ := b,
                 threshold_ := a.threshold_ * 2 } := rfl

/-- Once `DoubleIfNeeded` is through, the live count is at least 2 below the
bucket count, and the headroom invariant still holds. -/
theorem DoubleIfNeeded_Headroom (a : AutoProbing) (env : Env) (a1 : AutoProbing)
    (hH : a.Headroom) (h : a.DoubleIfNeeded env = some a1) :
    a1.Headroom ∧ a1.backend_.entries_ + 2 ≤ a1.backend_.buckets_ := by
  obtain ⟨h1, h2⟩ := hH
  rw [DoubleIfNeeded_eq] at h
  by_cases hc : a.backend_.entries_ < a.threshold_
  · rw [if_pos hc] at h
    cases h
    exact ⟨⟨h1, h2⟩, by omega⟩
  · rw [if_neg hc] at h
    cases hd : a.backend_.Double (a.backend_.extend env.fresh) true env.junk with
    | none => rw [hd] at h; cases h
    | some b =>
      rw [hd] at h
      cases h
      obtain ⟨d1, _, _, d4⟩ := a.backend_.Double_fields _ _ _ b hd
      unfold Headroom
      dsimp only
      rw [d1, d4]
      omega

theorem growable_FindOrInsert_eq (a : AutoProbing) (env : Env) (e : Entry) :
    a.FindOrInsert env e =
      match a.DoubleIfNeeded env with
      | none => Outcome.hang
      | some a1 =>
        match a1.backend_.FindOrInsert e with
        | Outcome.ret b r => Outcome.ret { a1 with backend_ := b } r
        | Outcome.raise b => Outcome.raise { a1 with backend_ := b }
        | Outcome.hang => Outcome.hang := rfl

/-- With the live count at least 2 below the bucket count the backend's
`FindOrInsert` does not raise, and leaves the count below the bucket count. -/
theorem backend_FindOrInsert_room (t : ProbingHashTable) (e : Entry)
    (hroom : t.entries_ + 2 ≤ t.buckets_) :
    (∀ b, t.FindOrInsert e ≠ Outcome.raise b) ∧
    ∀ b r, t.FindOrInsert e = Outcome.ret b r →
      b.buckets_ = t.buckets_ ∧ b.entries_ < t.buckets_ := by
  have hle := t.incrEntries_entries_le
  rw [ProbingHashTable.FindOrInsert_eq]
  cases t.probe e.key t.buckets_ (t.Ideal e.key) with
  | hit i =>
    refine ⟨fun b h => (by cases h), ?_⟩
    intro b r h
    cases h
    exact ⟨rfl, by omega⟩
  | gap i =>
    dsimp only
    rw [if_neg (by omega)]
    refine ⟨fun b h => (by cases h), ?_⟩
    intro b r h
    cases h
    exact ⟨rfl, by rw [ProbingHashTable.store_entries]; omega⟩
  | spin =>
    exact ⟨fun b h => (by cases h), fun b r h => (by cases h)⟩

/-- `FindOrInsert` on a table with headroom does not raise and keeps the
headroom. -/
theorem FindOrInsert_Headroom (a : AutoProbing) (env : Env) (e : Entry) (hH : a.Headroom) :
    (∀ a2, a.FindOrInsert env e ≠ Outcome.raise a2) ∧
    ∀ a2 r, a.FindOrInsert env e = Outcome.ret a2 r → a2.Headroom := by
  rw [growable_FindOrInsert_eq]
  cases hd : a.DoubleIfNeeded env with
  | none => exact ⟨fun b h => (by cases h), fun b r h => (by cases h)⟩
  | some a1 =>
    obtain ⟨⟨k1, k2⟩, hroom⟩ := a.DoubleIfNeeded_Headroom env a1 hH hd
    obtain ⟨n1, n2⟩ := backend_FindOrInsert_room a1.backend_ e hroom
    dsimp only
    cases hb : a1.backend_.FindOrInsert e with
    | ret b r =>
      refine ⟨fun a2 h => (by cases h), ?_⟩
      intro a2 r2 h
      cases h
      obtain ⟨m1, m2⟩ := n2 b r hb
      unfold Headroom
      dsimp only
      rw [m1]
      exact ⟨k1, m2⟩
    | raise b => exact absurd hb (n1 b)
    | hang => exact ⟨fun a2 h => (by cases h), fun a2 r h => (by cases h)⟩

theorem someCallRaises_cons (a : AutoProbing) (c : Env × Entry) (cs : List (Env × Entry)) :
    someCallRaises a (c :: cs) =
      match a.FindOrInsert c.1 c.2 with
      | Outcome.ret a1 _ => someCallRaises a1 cs
      | Outcome.raise _ => True
      | Outcome.hang => False := rfl

/-- No call of a sequence of `FindOrInsert` calls on a table with headroom
raises, and every call finds the live count at least 2 below the bucket
count once its `DoubleIfNeeded` is through. -/
theorem never_raises_of_Headroom :
    ∀ (calls : List (Env × Entry)) (a : AutoProbing), a.Headroom →
      ¬ someCallRaises a calls ∧ headroomKept a calls := by
  intro calls
  induction calls with
  | nil => intro a _; exact ⟨fun h => h, trivial⟩
  | cons c cs ih =>
    intro a hH
    obtain ⟨h1, h2⟩ := a.FindOrInsert_Headroom c.1 c.2 hH
    constructor
    · rw [someCallRaises_cons]
      cases hf : a.FindOrInsert c.1 c.2 with
      | ret a2 r => exact (ih a2 (h2 a2 r hf)).1
      | raise a2 => exact absurd hf (h1 a2)
      | hang => exact fun h => h
    · exact ⟨fun a1 hd => (a.DoubleIfNeeded_Headroom c.1 a1 hH hd).2,
        fun a2 r hf => (ih a2 (h2 a2 r hf)).2⟩

end AutoProbing

/-- C8, as stated, fails on a loaded buffer whose size is not a whole
number of entries, and its bucket formula fails for large initial sizes.  Over
a buffer of 31 bytes with no recorded entry the load constructor makes 1
bucket, so the entry count 0 is below the bucket count, and threshold 1; the
first `FindOrInsert` with key 5 raises `ProbingSizeException`.  And the size
constructor with initial size 5592409 makes 8388614 buckets, not
`max (n + 1) (floor (1.5 n)) = 8388613`, because the `float` product
`1.5f * float(n)` is rounded to 24 bits. -/
theorem C8_counterexample :
    oddLoadedTable.backend_.buckets_ = 1 ∧
    oddLoadedTable.Size = 0 ∧
    oddLoadedTable.threshold_ = 1 ∧
    (oddLoadedTable.FindOrInsert plainEnv ⟨5, 1⟩).raised = true ∧
    (AutoProbing.create (fun _ => ⟨1, 1⟩) ⟨1, 1⟩ 5592409 0 IdentityHash).backend_.buckets_
      = 8388614 ∧
    max (5592409 + 1) (3 * 5592409 / 2) = 8388613 := by
  decide

/-- C8, amended.  A growable table built by the size constructor with an
initial size `n` below `2 ^ 59` has `max (n + 1) b` buckets, where `b` is the
`float` product `1.5f * float(n)` truncated (this is `floor (1.5 n)` as long
as `n <= 5592405`), and its threshold, the `double` product `1.2 * n`
truncated, is below the bucket count; no sequence of `FindOrInsert` calls on
it ever raises `ProbingSizeException`.  The same holds for a table built over
a loaded buffer of `B` whole entries (`B * sizeof(Entry)` bytes, a `uint64_t`)
whose recorded entry count is below `B`: it has `B` buckets and a threshold
below `B`.  In both cases every call finds, once `DoubleIfNeeded` is through,
the live count at least 2 below the bucket count. -/
theorem C8_capacity_never_exceeded (calls : List (Env × Entry)) :
    (∀ (mem : Nat → Entry) (junk : Entry) (n inv : Nat) (hash : Nat → Nat), n < 2 ^ 59 →
      (AutoProbing.create mem junk n inv hash).backend_.buckets_
        = max (n + 1) (roundToBits 24 (3 * roundToBits 24 n) / 2) ∧
      (n ≤ 5592405 →
        (AutoProbing.create mem junk n inv hash).backend_.buckets_ = max (n + 1) (3 * n / 2)) ∧
      (AutoProbing.create mem junk n inv hash).threshold_
        = roundToBits 53 (doubleOfSixFifths * roundToBits 53 n) / 2 ^ 52 ∧
      (AutoProbing.create mem junk n inv hash).threshold_
        < (AutoProbing.create mem junk n inv hash).backend_.buckets_ ∧
      ¬ AutoProbing.someCallRaises (AutoProbing.create mem junk n inv hash) calls ∧
      AutoProbing.headroomKept (AutoProbing.create mem junk n inv hash) calls) ∧
    (∀ (defaultHash : Nat → Nat) (mem : Nat → Entry) (entries B : Nat),
      B * sizeofEntry < sizeMod → entries < B →
      (AutoProbing.load defaultHash mem entries (B * sizeofEntry)).backend_.buckets_ = B ∧
      (AutoProbing.load defaultHash mem entries (B * sizeofEntry)).threshold_ < B ∧
      ¬ AutoProbing.someCallRaises
        (AutoProbing.load defaultHash mem entries (B * sizeofEntry)) calls ∧
      AutoProbing.headroomKept
        (AutoProbing.load defaultHash mem entries (B * sizeofEntry)) calls) := by
  constructor
  · intro mem junk n inv hash hn
    exact ⟨AutoProbing.create_buckets mem junk n inv hash hn,
      fun hs => AutoProbing.create_buckets_exact mem junk n inv hash hs, rfl,
      AutoProbing.create_threshold_lt mem junk n inv hash hn,
      AutoProbing.never_raises_of_Headroom calls _
        (AutoProbing.create_Headroom mem junk n inv hash hn)⟩
  · intro defaultHash mem entries B hsmall hent
    exact ⟨AutoProbing.load_buckets defaultHash mem entries B,
      AutoProbing.load_threshold_lt defaultHash mem entries B (by omega) hsmall,
      AutoProbing.never_raises_of_Headroom calls _
        (AutoProbing.load_Headroom defaultHash mem entries B hsmall hent)⟩

namespace AutoProbing

/-! ## The growable table as a set of keys -/

/-- Fewer than `2 ^ 64` distinct keys other than the invalid one exist, so
the counter cannot wrap when a new key arrives. -/
theorem card_succ_lt_sizeMod (seen : List Nat) (inv k : Nat) (hinv : inv < sizeMod)
    (hsmall : ∀ x, x ∈ seen → x < sizeMod ∧ x ≠ inv) (hk : k < sizeMod) (hki : k ≠ inv)
    (hnew : k ∉ seen) : seen.toFinset.card + 1 < sizeMod := by
  have hsub : insert k seen.toFinset ⊆ (Finset.range sizeMod).erase inv := by
    intro x hx
    rw [Finset.mem_erase, Finset.mem_range]
    rcases Finset.mem_insert.mp hx with h | h
    · rw [h]; exact ⟨hki, hk⟩
    · have := hsmall x (List.mem_toFinset.mp h)
      exact ⟨this.2, this.1⟩
  have h1 := Finset.card_le_card hsub
  rw [Finset.card_insert_of_not_mem (by rw [List.mem_toFinset]; exact hnew),
    Finset.card_erase_of_mem (Finset.mem_range.mpr hinv), Finset.card_range] at h1
  have : 0 < sizeMod := by unfold sizeMod; positivity
  omega

/-- `DoubleIfNeeded` returns on a tracking table and keeps it tracking. -/
theorem DoubleIfNeeded_Tracks (a : AutoProbing) (env : Env) (seen : List Nat)
    (hT : a.Tracks seen) :
    ∃ a1, a.DoubleIfNeeded env = some a1 ∧ a1.Tracks seen ∧
      a1.backend_.entries_ + 2 ≤ a1.backend_.buckets_ := by
  rw [DoubleIfNeeded_eq]
  by_cases hc : a.backend_.entries_ < a.threshold_
  · rw [if_pos hc]
    refine ⟨a, rfl, hT, ?_⟩
    have := hT.headroom.1
    omega
  · rw [if_neg hc]
    obtain ⟨b, hb, hI, hlive, hbk, hinv, hhash, hent⟩ :=
      a.backend_.Double_spec (a.backend_.extend env.fresh) true env.junk hT.i2
        (a.backend_.extend_low env.fresh) (fun h => by cases h)
    rw [hb]
    have h1 := hT.headroom.1
    have h2 := hT.headroom.2
    refine ⟨_, rfl, ⟨⟨?_, ?_⟩, hI, ?_, ?_, ?_, ?_, ?_⟩, ?_⟩
    · change a.threshold_ * 2 < b.buckets_
      rw [hbk]; omega
    · change b.entries_ < b.buckets_
      rw [hbk, hent]; omega
    · change Multiset.card b.live = b.entries_
      rw [hlive, hent]; exact hT.card
    · change b.entries_ = _
      rw [hent]; exact hT.count
    · intro k hk
      change k ≠ b.invalid_ at hk
      change b.Stored k ↔ _
      rw [hinv] at hk
      rw [← hT.stored k hk, b.Stored_iff_live k (by rw [hinv]; exact hk),
        a.backend_.Stored_iff_live k hk, hlive]
    · intro k hk
      change _ ∧ k ≠ b.invalid_
      rw [hinv]
      exact hT.small k hk
    · change b.invalid_ < sizeMod
      rw [hinv]; exact hT.inv_small
    · change b.entries_ + 2 ≤ b.buckets_
      rw [hbk, hent]; omega

/-- `FindOrInsert` with a proper key on a tracking table returns, reports
whether the key was seen before, and leaves the table tracking the key too. -/
theorem FindOrInsert_Tracks (a : AutoProbing) (env : Env) (e : Entry) (seen : List Nat)
    (hT : a.Tracks seen) (hk : e.key ≠ a.backend_.invalid_) (hks : e.key < sizeMod) :
    ∃ a2 i, a.FindOrInsert env e = Outcome.ret a2 (decide (e.key ∈ seen), i) ∧
      a2.Tracks (e.key :: seen) ∧ a2.backend_.invalid_ = a.backend_.invalid_ := by
  obtain ⟨a1, hd, hT1, hroom⟩ := a.DoubleIfNeeded_Tracks env seen hT
  have hinv1 : a1.backend_.invalid_ = a.backend_.invalid_ := by
    rw [DoubleIfNeeded_eq] at hd
    by_cases hc : a.backend_.entries_ < a.threshold_
    · rw [if_pos hc] at hd; cases hd; rfl
    · rw [if_neg hc] at hd
      cases hb : a.backend_.Double (a.backend_.extend env.fresh) true env.junk with
      | none => rw [hb] at hd; cases hd
      | some b =>
        rw [hb] at hd
        cases hd
        exact (a.backend_.Double_fields _ _ _ b hb).2.1
  have hk1 : e.key ≠ a1.backend_.invalid_ := by rw [hinv1]; exact hk
  have hg : a1.backend_.HasGap := by
    apply a1.backend_.HasGap_of_card_lt
    rw [hT1.card]; omega
  rw [growable_FindOrInsert_eq, hd]
  dsimp only
  rw [ProbingHashTable.FindOrInsert_eq]
  by_cases hs : e.key ∈ seen
  · obtain ⟨i, hp, _⟩ := a1.backend_.probe_hit_of_stored e.key hT1.i2 hg
      ((hT1.stored e.key hk1).mpr hs)
    rw [hp]
    refine ⟨a1, i, by simp [hs], ⟨hT1.headroom, hT1.i2, hT1.card, ?_, ?_, ?_, hT1.inv_small⟩,
      hinv1⟩
    · rw [hT1.count, List.toFinset_cons, Finset.insert_eq_of_mem (List.mem_toFinset.mpr hs)]
    · intro k hk
      rw [hT1.stored k hk, List.mem_cons]
      exact ⟨Or.inr, fun h => h.elim (fun h => h ▸ hs) id⟩
    · intro k hk
      rcases List.mem_cons.mp hk with h | h
      · rw [h]; exact ⟨hks, hk1⟩
      · exact hT1.small k h
  · obtain ⟨q, hp, hq, hempty, hreach⟩ := a1.backend_.probe_gap_of_not_stored e.key hg
      (fun h => hs ((hT1.stored e.key hk1).mp h))
    have hwrap := card_succ_lt_sizeMod seen a1.backend_.invalid_ e.key hT1.inv_small
      hT1.small hks hk1 hs
    have hinc : a1.backend_.incrEntries.entries_ = a1.backend_.entries_ + 1 := by
      rw [ProbingHashTable.incrEntries_entries, Nat.mod_eq_of_lt (by rw [hT1.count]; exact hwrap)]
    rw [hp]
    dsimp only
    rw [if_neg (by rw [hinc]; omega)]
    obtain ⟨k1, _, k3⟩ := a1.backend_.fill_keeps q e hT1.i2 hq hempty hreach
    have hlive : (a1.backend_.incrEntries.store q e).live = e ::ₘ a1.backend_.live := by
      rw [← a1.backend_.live_incrEntries]
      exact a1.backend_.incrEntries.liveUpTo_store_fill q e _ hq hempty hk1
    refine ⟨{ a1 with backend_ := a1.backend_.incrEntries.store q e }, q, by simp [hs],
      ⟨⟨hT1.headroom.1, ?_⟩, k1, ?_, ?_, ?_, ?_, hT1.inv_small⟩, hinv1⟩
    · change (a1.backend_.incrEntries.store q e).entries_ < a1.backend_.buckets_
      rw [ProbingHashTable.store_entries, hinc]; omega
    · change Multiset.card (a1.backend_.incrEntries.store q e).live =
        (a1.backend_.incrEntries.store q e).entries_
      rw [hlive, Multiset.card_cons, ProbingHashTable.store_entries, hinc, hT1.card]
    · change (a1.backend_.incrEntries.store q e).entries_ = _
      rw [ProbingHashTable.store_entries, hinc, hT1.count, List.toFinset_cons,
        Finset.card_insert_of_not_mem (by rw [List.mem_toFinset]; exact hs)]
    · intro k hk
      change (a1.backend_.incrEntries.store q e).Stored k ↔ _
      rw [k3 k hk, hT1.stored k hk, List.mem_cons]
      exact ⟨fun h => h.elim Or.inr (fun h => Or.inl h.symm),
        fun h => h.elim (fun h => Or.inr h.symm) Or.inl⟩
    · intro k hk
      rcases List.mem_cons.mp hk with h | h
      · rw [h]; exact ⟨hks, hk1⟩
      · exact hT1.small k h

theorem findOrInsertSeq_cons (a : AutoProbing) (c : Env × Entry) (cs : List (Env × Entry)) :
    a.findOrInsertSeq (c :: cs) =
      match a.FindOrInsert c.1 c.2 with
      | Outcome.ret a1 r =>
        match findOrInsertSeq a1 cs with
        | some (a2, flags) => some (a2, r.1 :: flags)
        | none => none
      | Outcome.raise _ => none
      | Outcome.hang => none := rfl

/-- A sequence of `FindOrInsert` calls with proper keys on a tracking table
returns the flags `seenBefore` computes and leaves the table tracking all the
keys. -/
theorem findOrInsertSeq_Tracks :
    ∀ (calls : List (Env × Entry)) (a : AutoProbing) (seen : List Nat), a.Tracks seen →
      (∀ c, c ∈ calls → c.2.key ≠ a.backend_.invalid_ ∧ c.2.key < sizeMod) →
      ∃ a2, a.findOrInsertSeq calls
          = some (a2, seenBefore seen (calls.map (fun c => c.2.key))) ∧
        a2.Tracks ((calls.map (fun c => c.2.key)).reverse ++ seen) := by
  intro calls
  induction calls with
  | nil => intro a seen hT _; exact ⟨a, rfl, hT⟩
  | cons c cs ih =>
    intro a seen hT hkeys
    obtain ⟨hk, hks⟩ := hkeys c (List.mem_cons_self _ _)
    obtain ⟨a1, i, hf, hT1, hinv⟩ := a.FindOrInsert_Tracks c.1 c.2 seen hT hk hks
    obtain ⟨a2, hseq, hT2⟩ := ih a1 (c.2.key :: seen) hT1
      (fun d hd => by rw [hinv]; exact hkeys d (List.mem_cons_of_mem _ hd))
    refine ⟨a2, ?_, ?_⟩
    · rw [findOrInsertSeq_cons, hf]
      dsimp only
      rw [hseq]
      rfl
    · rw [List.map_cons, List.reverse_cons, List.append_assoc]
      exact hT2

theorem create_Tracks (mem : Nat → Entry) (junk : Entry) (n inv : Nat) (hash : Nat → Nat)
    (hn : n < 2 ^ 59) (hinv : inv < sizeMod) : (create mem junk n inv hash).Tracks [] :=
  ⟨create_Headroom mem junk n inv hash hn, ProbingHashTable.Clear_I2 _ junk,
    by
      change Multiset.card (ProbingHashTable.Clear _ junk).live = 0
      rw [ProbingHashTable.Clear_live]; rfl,
    rfl,
    fun k hk => ⟨fun h => absurd h (ProbingHashTable.Clear_not_stored _ junk k hk),
      fun h => absurd h (List.not_mem_nil k)⟩,
    fun k hk => absurd hk (List.not_mem_nil k), hinv⟩

end AutoProbing

theorem isNewLineSeq_cons (murmur : String → Nat) (a : AutoProbing) (c : Env × String)
    (cs : List (Env × String)) :
    isNewLineSeq murmur a (c :: cs) =
      match IsNewLine murmur a c.1 c.2 with
      | Outcome.ret a1 r =>
        match isNewLineSeq murmur a1 cs with
        | some (a2, answers) => some (a2, r :: answers)
        | none => none
      | Outcome.raise _ => none
      | Outcome.hang => none := rfl

theorem IsNewLine_eq (murmur : String → Nat) (a : AutoProbing) (env : Env) (l : String) :
    IsNewLine murmur a env l =
      match a.FindOrInsert env (env.junk.SetKey (murmur l)) with
      | Outcome.ret t r => Outcome.ret t (!r.1)
      | Outcome.raise t => Outcome.raise t
      | Outcome.hang => Outcome.hang := rfl

/-- C8 at work: three calls on the table the deduplication tool declares,
and on a loaded buffer of 15 buckets with 3 recorded entries. -/
theorem C8_witness :
    ((10 : Nat) < 2 ^ 59 ∧ 15 * sizeofEntry < sizeMod ∧ 3 < 15) ∧
    (defaultTable.backend_.buckets_ = 15 ∧ defaultTable.threshold_ = 12 ∧
      ¬ AutoProbing.someCallRaises defaultTable exampleCalls ∧
      AutoProbing.headroomKept defaultTable exampleCalls) ∧
    loadedTable.backend_.buckets_ = 15 ∧ loadedTable.threshold_ = 12 ∧
    ¬ AutoProbing.someCallRaises loadedTable exampleCalls ∧
    AutoProbing.headroomKept loadedTable exampleCalls :=
  ⟨⟨by decide, by decide, by decide⟩,
    ⟨by decide, by decide,
      ((C8_capacity_never_exceeded exampleCalls).1 (fun _ => ⟨1, 1⟩) ⟨1, 1⟩ 10 0 IdentityHash
        (by decide)).2.2.2.2⟩,
    by decide, by decide,
    ((C8_capacity_never_exceeded exampleCalls).2 IdentityHash (fun _ => ⟨0, 0⟩) 3 15
      (by decide) (by decide)).2.2⟩

namespace ProbingHashTable

/-! ## Fuel -/

/-- A lookup loop that has looked at every bucket of the block without
leaving never leaves, however long it runs. -/
theorem probe_spin_forever (t : ProbingHashTable) (k h : Nat) (hh : h < t.buckets_)
    (hspin : t.probe k t.buckets_ h = Probe.spin) (fuel : Nat) :
    t.probe k fuel h = Probe.spin := by
  have key := t.probe_sound k t.buckets_ h hh
  rw [hspin] at key
  have hall : ∀ r, r < fuel → t.keyAt ((h + r) % t.buckets_) ≠ k ∧
      t.keyAt ((h + r) % t.buckets_) ≠ t.invalid_ := by
    intro r _
    obtain ⟨s, hs, hpos⟩ := walk_cover t.buckets_ h ((h + r) % t.buckets_) hh
      (Nat.mod_lt _ (by omega))
    rw [← hpos]
    exact key s hs
  have := t.probe_skip k fuel 0 h hh hall
  rw [Nat.add_zero] at this
  rw [this]
  rfl

/-- A lookup loop that leaves within the block's worth of steps gives the
same answer with any larger fuel. -/
theorem probe_fuel_mono (t : ProbingHashTable) (k h : Nat) (hh : h < t.buckets_)
    (hret : t.probe k t.buckets_ h ≠ Probe.spin) (extra : Nat) :
    t.probe k (t.buckets_ + extra) h = t.probe k t.buckets_ h := by
  have key := t.probe_sound k t.buckets_ h hh
  revert key hret
  cases hp : t.probe k t.buckets_ h with
  | hit i =>
    rintro - ⟨s, hs, hpos, hk, hall⟩
    rw [t.probe_stop k s _ h hh (by omega) hall, hpos, if_pos hk]
  | gap i =>
    rintro - ⟨s, hs, hpos, hk, he, hall⟩
    rw [t.probe_stop k s _ h hh (by omega) hall, hpos, if_neg hk, if_pos he]
  | spin => intro hret; exact absurd rfl hret

/-- The loop of `UncheckedInsert` that has looked at every bucket of the
block without finding an empty one never finds one. -/
theorem firstEmpty_none_forever (t : ProbingHashTable) (h : Nat) (hh : h < t.buckets_)
    (hnone : t.firstEmpty t.buckets_ h = none) (fuel : Nat) :
    t.firstEmpty fuel h = none := by
  have hall : ∀ r, r < fuel → t.keyAt ((h + r) % t.buckets_) ≠ t.invalid_ := by
    intro r _ hc
    obtain ⟨s, hs, hpos⟩ := walk_cover t.buckets_ h ((h + r) % t.buckets_) hh
      (Nat.mod_lt _ (by omega))
    obtain ⟨q, hq⟩ := t.firstEmpty_complete t.buckets_ h hh ⟨s, hs, by rw [hpos]; exact hc⟩
    rw [hnone] at hq
    cases hq
  have := t.firstEmpty_skip fuel 0 h hh hall
  rw [Nat.add_zero] at this
  rw [this]
  rfl

end ProbingHashTable

namespace AutoProbing

/-- `AutoProbing::Insert` never changes `Size()`: neither `DoubleIfNeeded`
nor `UncheckedInsert` touches the counter. -/
theorem Insert_keeps_Size (a : AutoProbing) (env : Env) (e : Entry) (a2 : AutoProbing)
    (i : Nat) (h : a.Insert env e = Outcome.ret a2 i) : a2.Size = a.Size := by
  change (match a.DoubleIfNeeded env with
    | none => Outcome.hang
    | some a1 =>
      match a1.backend_.UncheckedInsert e with
      | none => Outcome.hang
      | some r => Outcome.ret { a1 with backend_ := r.1 } r.2) = _ at h
  cases hd : a.DoubleIfNeeded env with
  | none => rw [hd] at h; cases h
  | some a1 =>
    rw [hd] at h
    dsimp only at h
    have h1 : a1.backend_.entries_ = a.backend_.entries_ := by
      rw [DoubleIfNeeded_eq] at hd
      by_cases hc : a.backend_.entries_ < a.threshold_
      · rw [if_pos hc] at hd; cases hd; rfl
      · rw [if_neg hc] at hd
        cases hb : a.backend_.Double (a.backend_.extend env.fresh) true env.junk with
        | none => rw [hb] at hd; cases hd
        | some b =>
          rw [hb] at hd
          cases hd
          exact (a.backend_.Double_fields _ _ _ b hb).2.2.2
    cases hu : a1.backend_.UncheckedInsert e with
    | none => rw [hu] at h; cases h
    | some r =>
      rw [hu] at h
      cases h
      obtain ⟨_, hr⟩ := a1.backend_.UncheckedInsert_eq e r hu
      change r.1.entries_ = a.backend_.entries_
      rw [hr, ProbingHashTable.store_entries, h1]

/-! ## Bucket count against allocated size -/

/-- The size constructor leaves `buckets_ = allocated_ / sizeof(Entry)`. -/
theorem create_sized (mem : Nat → Entry) (junk : Entry) (n inv : Nat) (hash : Nat → Nat) :
    (create mem junk n inv hash).backend_.buckets_ =
      (create mem junk n inv hash).allocated_ / sizeofEntry := rfl

/-- The load constructor leaves `buckets_ = allocated_ / sizeof(Entry)`. -/
theorem load_sized (defaultHash : Nat → Nat) (mem : Nat → Entry) (entries allocated : Nat) :
    (load defaultHash mem entries allocated).backend_.buckets_ =
      (load defaultHash mem entries allocated).allocated_ / sizeofEntry := rfl

/-- `FindOrInsert` keeps `buckets_ = allocated_ / sizeof(Entry)`, the invalid
key and the hash. -/
theorem FindOrInsert_sized (a : AutoProbing) (env : Env) (e : Entry) (a2 : AutoProbing)
    (r : Bool × Nat) (hs : a.backend_.buckets_ = a.allocated_ / sizeofEntry)
    (h : a.FindOrInsert env e = Outcome.ret a2 r) :
    a2.backend_.buckets_ = a2.allocated_ / sizeofEntry ∧
      a2.backend_.invalid_ = a.backend_.invalid_ ∧ a2.backend_.hash_ = a.backend_.hash_ := by
  rw [growable_FindOrInsert_eq] at h
  cases hd : a.DoubleIfNeeded env with
  | none => rw [hd] at h; cases h
  | some a1 =>
    rw [hd] at h
    dsimp only at h
    have h1 : a1.backend_.buckets_ = a1.allocated_ / sizeofEntry ∧
        a1.backend_.invalid_ = a.backend_.invalid_ ∧ a1.backend_.hash_ = a.backend_.hash_ := by
      rw [DoubleIfNeeded_eq] at hd
      by_cases hc : a.backend_.entries_ < a.threshold_
      · rw [if_pos hc] at hd; cases hd; exact ⟨hs, rfl, rfl⟩
      · rw [if_neg hc] at hd
        cases hb : a.backend_.Double (a.backend_.extend env.fresh) true env.junk with
        | none => rw [hb] at hd; cases hd
        | some b =>
          rw [hb] at hd
          cases hd
          obtain ⟨d1, d2, d3, _⟩ := a.backend_.Double_fields _ _ _ b hb
          refine ⟨?_, d2, d3⟩
          change b.buckets_ = a.backend_.buckets_ * 2 * sizeofEntry / sizeofEntry
          rw [Nat.mul_div_cancel _ sizeofEntry_pos, d1]
          omega
    rw [ProbingHashTable.FindOrInsert_eq] at h
    cases hp : a1.backend_.probe e.key a1.backend_.buckets_ (a1.backend_.Ideal e.key) with
    | hit i =>
      rw [hp] at h
      cases h
      exact h1
    | gap i =>
      rw [hp] at h
      dsimp only at h
      by_cases hc : a1.backend_.incrEntries.entries_ ≥ a1.backend_.buckets_
      · rw [if_pos hc] at h
        cases h
      · rw [if_neg hc] at h
        cases h
        exact h1
    | spin =>
      rw [hp] at h
      cases h

/-- A loaded buffer whose allocated size is not a multiple of the entry size
can get a threshold that is not below its bucket count: with 31 bytes and
no recorded entry the table has 1 bucket and threshold 1, and `FindOrInsert`
of key 5 into the empty bucket raises. -/
theorem load_odd_size_raises :
    (load IdentityHash (fun _ => ⟨0, 0⟩) 0 31).backend_.buckets_ = 1 ∧
    (load IdentityHash (fun _ => ⟨0, 0⟩) 0 31).threshold_ = 1 ∧
    ((load IdentityHash (fun _ => ⟨0, 0⟩) 0 31).FindOrInsert plainEnv ⟨5, 1⟩).raised = true := by
  decide

end AutoProbing

/-- C14.  `LoadTable` performs no validation of the header: whatever the
file holds, the loaded growable table has `Size()` equal to the entry-count
field and `Allocated()` equal to the allocated field.  In particular, when
the entry-count field of a file written by `SaveTable` is overwritten with
any value `n`, the loaded table has `Size() = n`, while its buckets, and so
the answers of `Find`, are those of the saved table. -/
theorem C14_load_trusts_header (defaultHash : Nat → Nat) (outside : Nat → Entry) :
    (∀ f : TableFile, (LoadTable defaultHash outside f).Size = f.entries ∧
      (LoadTable defaultHash outside f).Allocated = f.allocated) ∧
    (∀ (t : AutoProbing) (n : Nat), t.backend_.invalid_ = 0 →
      t.backend_.hash_ = defaultHash →
      t.backend_.buckets_ = t.allocated_ / sizeofEntry →
      (LoadTable defaultHash outside ((SaveTable t).withEntries n)).Size = n ∧
      (LoadTable defaultHash outside ((SaveTable t).withEntries n)).Allocated
        = t.Allocated ∧
      ∀ k, (LoadTable defaultHash outside ((SaveTable t).withEntries n)).Find k
        = t.Find k) := by
  refine ⟨fun f => ⟨rfl, rfl⟩, ?_⟩
  intro t n hinv hhash hwf
  refine ⟨rfl, rfl, ?_⟩
  have hmem : ∀ j, j < t.backend_.buckets_ →
      (LoadTable defaultHash outside ((SaveTable t).withEntries n)).backend_.begin_ j
        = t.backend_.begin_ j := by
    intro j hj
    rw [hwf] at hj
    simp [LoadTable, SaveTable, TableFile.withEntries, AutoProbing.load,
      ProbingHashTable.createWith, AutoProbing.Allocated, AutoProbing.Begin, hj]
  intro k
  exact ProbingHashTable.Find_congr t.backend_ _ hwf.symm hinv.symm hhash.symm hmem k

/-- C14 at work: the table of the deduplication tool holding the keys 5, 6
and 7 is saved, the entry count in the file is overwritten with 1000, and the
loaded table reports `Size() = 1000` while `Find` still locates key 6. -/
theorem C14_witness :
    tableOfThree.Size = 3 ∧
    (LoadTable IdentityHash (fun _ => ⟨2, 2⟩) ((SaveTable tableOfThree).withEntries 1000)).Size
      = 1000 ∧
    (LoadTable IdentityHash (fun _ => ⟨2, 2⟩) ((SaveTable tableOfThree).withEntries 1000)).Find 6
      = FindResult.found 6 :=
  ⟨by decide,
    ((C14_load_trusts_header IdentityHash (fun _ => ⟨2, 2⟩)).2 tableOfThree 1000
      (by decide) (by rfl) (by decide)).1,
    (((C14_load_trusts_header IdentityHash (fun _ => ⟨2, 2⟩)).2 tableOfThree 1000
      (by decide) (by rfl) (by decide)).2.2 6).trans (by decide)⟩

namespace ProbingHashTable

/-- With an empty bucket in the block, the lookup loop leaves after a number
of steps that is at most the bucket count, and more fuel changes nothing. -/
theorem probe_terminates (t : ProbingHashTable) (k h : Nat) (hh : h < t.buckets_)
    (hg : t.HasGap) :
    ∃ n, n ≤ t.buckets_ ∧ t.probe k n h ≠ Probe.spin ∧
      ∀ m, n ≤ m → t.probe k m h = t.probe k n h := by
  have key := t.probe_sound k t.buckets_ h hh
  cases hp : t.probe k t.buckets_ h with
  | hit i =>
    rw [hp] at key
    obtain ⟨s, hs, hpos, hk, hall⟩ := key
    have hval : ∀ m, s + 1 ≤ m → t.probe k m h = Probe.hit i := by
      intro m hm
      rw [t.probe_stop k s m h hh (by omega) hall, hpos, if_pos hk]
    refine ⟨s + 1, by omega, ?_, fun m hm => ?_⟩
    · rw [hval _ (Nat.le_refl _)]; exact fun hc => by cases hc
    · rw [hval m hm, hval _ (Nat.le_refl _)]
  | gap i =>
    rw [hp] at key
    obtain ⟨s, hs, hpos, hk, he, hall⟩ := key
    have hval : ∀ m, s + 1 ≤ m → t.probe k m h = Probe.gap i := by
      intro m hm
      rw [t.probe_stop k s m h hh (by omega) hall, hpos, if_neg hk, if_pos he]
    refine ⟨s + 1, by omega, ?_, fun m hm => ?_⟩
    · rw [hval _ (Nat.le_refl _)]; exact fun hc => by cases hc
    · rw [hval m hm, hval _ (Nat.le_refl _)]
  | spin =>
    rw [hp] at key
    obtain ⟨g, hgb, hgk⟩ := hg
    obtain ⟨s, hs, hpos⟩ := walk_cover t.buckets_ h g hh hgb
    have := (key s hs).2
    rw [hpos] at this
    exact absurd hgk this

/-- With an empty bucket in the block, the loop of `UncheckedInsert` leaves
after a number of steps that is at most the bucket count. -/
theorem firstEmpty_terminates (t : ProbingHashTable) (h : Nat) (hh : h < t.buckets_)
    (hg : t.HasGap) :
    ∃ n, n ≤ t.buckets_ ∧ (t.firstEmpty n h).isSome = true ∧
      ∀ m, n ≤ m → t.firstEmpty m h = t.firstEmpty n h := by
  obtain ⟨q, hq⟩ := t.firstEmpty_of_gap h hh hg
  obtain ⟨s, hs, hpos, hk, hall⟩ := t.firstEmpty_sound _ h q hh hq
  have hval : ∀ m, s + 1 ≤ m → t.firstEmpty m h = some q := by
    intro m hm
    have hf : m = s + (m - s - 1 + 1) := by omega
    rw [hf, t.firstEmpty_skip s _ h hh hall, firstEmpty_succ, hpos, if_pos hk]
  refine ⟨s + 1, by omega, ?_, fun m hm => ?_⟩
  · rw [hval _ (Nat.le_refl _)]; rfl
  · rw [hval m hm, hval _ (Nat.le_refl _)]

end ProbingHashTable

/-- C16.  For a probing table with `B` buckets that satisfies I2, `Double`
with `clear_new` set, onto a block whose lower half is the old block,
returns: the bucket count is exactly `2 B`, the multiset of occupied entries, keys and
values together, is the one before the call, and the live count is
unchanged. -/
theorem C16_double_keeps_entries (t : ProbingHashTable) (new_base : Nat → Entry)
    (junk : Entry) (hI : t.I2)
    (hlow : ∀ j, j < t.buckets_ → new_base j = t.begin_ j) :
    ∃ u, t.Double new_base true junk = some u ∧ u.buckets_ = 2 * t.buckets_ ∧
      u.live = t.live ∧ u.SizeNoSerialization = t.SizeNoSerialization := by
  obtain ⟨u, hu, _, hlive, hb, _, _, he⟩ :=
    t.Double_spec new_base true junk hI hlow (fun h => by cases h)
  exact ⟨u, hu, hb, hlive, he⟩

/-- C16 at work: the block of 4 buckets holding key 5 is doubled in place. -/
theorem C16_witness :
    (tableWithFive.I2 ∧
      ∀ j, j < tableWithFive.buckets_ → tableWithFive.begin_ j = tableWithFive.begin_ j) ∧
    ∃ u, tableWithFive.Double tableWithFive.begin_ true ⟨1, 1⟩ = some u ∧
      u.buckets_ = 2 * tableWithFive.buckets_ ∧
      u.live = tableWithFive.live ∧
      u.SizeNoSerialization = tableWithFive.SizeNoSerialization :=
  ⟨⟨by decide, fun _ _ => rfl⟩,
    C16_double_keeps_entries tableWithFive tableWithFive.begin_ ⟨1, 1⟩ (by decide)
      (fun _ _ => rfl)⟩

/-- C18.  For a probing table with an empty bucket in its block (so with at
least one bucket), every key and every entry: the lookup loop shared by
`Find`, `UnsafeMutableFind` and `FindOrInsert` leaves after at most
`buckets_` steps, and so does the loop of `UncheckedInsert`; more steps than
that change no answer, and each of the four methods returns or raises. -/
theorem C18_probes_terminate (t : ProbingHashTable) (hg : t.HasGap) (k : Nat) (e : Entry) :
    1 ≤ t.buckets_ ∧
    (∃ n, n ≤ t.buckets_ ∧ t.probe k n (t.Ideal k) ≠ Probe.spin ∧
      ∀ m, n ≤ m → t.probe k m (t.Ideal k) = t.probe k n (t.Ideal k)) ∧
    (∃ n, n ≤ t.buckets_ ∧ (t.firstEmpty n (t.Ideal e.key)).isSome = true ∧
      ∀ m, n ≤ m → t.firstEmpty m (t.Ideal e.key) = t.firstEmpty n (t.Ideal e.key)) ∧
    t.Find k ≠ FindResult.spin ∧
    t.UnsafeMutableFind k ≠ FindResult.spin ∧
    t.FindOrInsert e ≠ Outcome.hang ∧
    t.UncheckedInsert e ≠ none := by
  have hB := ProbingHashTable.HasGap_pos hg
  have hp := t.probe_terminates k (t.Ideal k) (t.Ideal_lt k hB) hg
  have hpe := t.probe_terminates e.key (t.Ideal e.key) (t.Ideal_lt e.key hB) hg
  have hf := t.firstEmpty_terminates (t.Ideal e.key) (t.Ideal_lt e.key hB) hg
  have full : ∀ k2, t.probe k2 t.buckets_ (t.Ideal k2) ≠ Probe.spin := by
    intro k2
    obtain ⟨n, hn, hne, hst⟩ := t.probe_terminates k2 (t.Ideal k2) (t.Ideal_lt k2 hB) hg
    rw [hst _ hn]
    exact hne
  refine ⟨hB, hp, hf, ?_, ?_, ?_, ?_⟩
  · rw [ProbingHashTable.Find_eq_probe]
    have := full k
    cases hc : t.probe k t.buckets_ (t.Ideal k) with
    | hit i => exact fun h => by cases h
    | gap i => exact fun h => by cases h
    | spin => exact absurd hc this
  · change (match t.probe k t.buckets_ (t.Ideal k) with
      | Probe.hit i => FindResult.found i
      | Probe.gap _ => FindResult.notFound
      | Probe.spin => FindResult.spin) ≠ _
    have := full k
    cases hc : t.probe k t.buckets_ (t.Ideal k) with
    | hit i => exact fun h => by cases h
    | gap i => exact fun h => by cases h
    | spin => exact absurd hc this
  · rw [ProbingHashTable.FindOrInsert_eq]
    have := full e.key
    cases hc : t.probe e.key t.buckets_ (t.Ideal e.key) with
    | hit i => exact fun h => by cases h
    | gap i =>
      dsimp only
      split <;> exact fun h => by cases h
    | spin => exact absurd hc this
  · obtain ⟨q, hq, _⟩ := t.UncheckedInsert_of_gap e hg
    rw [hq]
    exact fun h => by cases h

/-- C18 at work on the block of 4 buckets holding key 5, for the key 9 that
shares its ideal bucket and an entry with the key 13. -/
theorem C18_witness :
    tableWithFive.HasGap ∧
    tableWithFive.Find 9 ≠ FindResult.spin ∧
    tableWithFive.FindOrInsert ⟨13, 1⟩ ≠ Outcome.hang ∧
    tableWithFive.UncheckedInsert ⟨13, 1⟩ ≠ none :=
  ⟨by decide,
    (C18_probes_terminate tableWithFive (by decide) 9 ⟨13, 1⟩).2.2.2.1,
    (C18_probes_terminate tableWithFive (by decide) 9 ⟨13, 1⟩).2.2.2.2.2.1,
    (C18_probes_terminate tableWithFive (by decide) 9 ⟨13, 1⟩).2.2.2.2.2.2⟩

namespace ProbingHashTable

/-- The first loop of `CheckConsistency` ends with `last == begin_` exactly
when bucket 0 is the only empty bucket among the first `n`. -/
theorem lastGap_eq_zero_iff (t : ProbingHashTable) :
    ∀ n, t.lastGap n = some 0 ↔
      (0 < n ∧ t.keyAt 0 = t.invalid_ ∧ ∀ i, 0 < i → i < n → t.keyAt i ≠ t.invalid_) := by
  intro n
  induction n with
  | zero => simp [lastGap]
  | succ n ih =>
    rw [lastGap_succ]
    by_cases he : t.keyAt n = t.invalid_
    · rw [if_pos he]
      constructor
      · intro h
        have hn : n = 0 := by simpa using h
        subst hn
        exact ⟨Nat.succ_pos 0, he, fun i h1 h2 => by omega⟩
      · rintro ⟨_, _, hall⟩
        rcases Nat.eq_zero_or_pos n with h | h
        · rw [h]
        · exact absurd he (hall n h (Nat.lt_succ_self n))
    · rw [if_neg he, ih]
      constructor
      · rintro ⟨h1, h2, h3⟩
        refine ⟨Nat.succ_pos n, h2, fun i hi hin => ?_⟩
        rcases Nat.lt_or_ge i n with h | h
        · exact h3 i hi h
        · rw [show i = n by omega]; exact he
      · rintro ⟨_, h2, h3⟩
        refine ⟨?_, h2, fun i hi hin => h3 i hi (by omega)⟩
        rcases Nat.eq_zero_or_pos n with h | h
        · rw [h] at he; exact absurd h2 he
        · exact h

/-- The second loop of `CheckConsistency` never raises "Completely full". -/
theorem checkHead_not_full (t : ProbingHashTable) (last : Option Nat) :
    ∀ n i, t.checkHead last n i ≠ Sum.inr CheckResult.completelyFull := by
  intro n
  induction n with
  | zero => intro i h; cases h
  | succ n ih =>
    intro i
    rw [checkHead_succ]
    split
    · exact fun h => by cases h
    · split
      · exact fun h => by cases h
      · exact ih _

/-- The third loop of `CheckConsistency` never raises "Completely full". -/
theorem checkTail_not_full (t : ProbingHashTable) :
    ∀ n i p, t.checkTail n i p ≠ CheckResult.completelyFull := by
  intro n
  induction n with
  | zero => intro i p h; cases h
  | succ n ih =>
    intro i p
    rw [checkTail_succ]
    split
    · exact ih _ _
    · split
      · exact fun h => by cases h
      · exact ih _ _

end ProbingHashTable

namespace ProbingHashTable

/-- `CheckConsistency` raises "Completely full" exactly when bucket 0 is
empty and every other bucket of the block is occupied. -/
theorem CheckConsistency_full_iff (t : ProbingHashTable) :
    t.CheckConsistency = CheckResult.completelyFull ↔
      (0 < t.buckets_ ∧ t.keyAt 0 = t.invalid_ ∧
        ∀ i, 0 < i → i < t.buckets_ → t.keyAt i ≠ t.invalid_) := by
  rw [← lastGap_eq_zero_iff, CheckConsistency_eq]
  by_cases h0 : t.lastGap t.buckets_ = some 0
  · simp [h0]
  · rw [if_neg h0]
    simp only [h0, iff_false]
    cases hc : t.checkHead (t.lastGap t.buckets_) t.buckets_ 0 with
    | inl g => exact t.checkTail_not_full _ _ _
    | inr r =>
      intro hr
      have hr2 : r = CheckResult.completelyFull := hr
      rw [hr2] at hc
      exact t.checkHead_not_full _ _ _ hc

end ProbingHashTable

/-- C20 fails on the code: the test `last == begin_` of `CheckConsistency`
holds when bucket 0 is the last empty bucket, not when there is none.  On the
cleared block of 4 buckets after `Insert` of the keys 1, 2 and 3, which has
its bucket 0 empty and satisfies I2, `CheckConsistency` raises "Completely
full"; on the same block with bucket 0 filled, which has no empty bucket, it
does not raise it and walks out of the block instead. -/
theorem C20_completely_full_with_gap :
    oneTwoThree.keys = [0, 1, 2, 3] ∧
    oneTwoThree.HasGap ∧
    oneTwoThree.I2 ∧
    oneTwoThree.CheckConsistency = CheckResult.completelyFull ∧
    fullOfFour.keys = [4, 1, 2, 3] ∧
    ¬ fullOfFour.HasGap ∧
    fullOfFour.CheckConsistency = CheckResult.outOfBlock := by
  decide

namespace AutoProbing

theorem insertSeq_cons (a : AutoProbing) (c : Env × Entry) (cs : List (Env × Entry)) :
    a.insertSeq (c :: cs) =
      match a.Insert c.1 c.2 with
      | Outcome.ret a1 _ => insertSeq a1 cs
      | Outcome.raise _ => none
      | Outcome.hang => none := rfl

end AutoProbing

/-- C11 fails on the code for the `Insert` path: `AutoProbing::Insert` never
counts the entry, so `DoubleIfNeeded` sees `Size() = 0` before every call and
never grows the buffer.  On the table the deduplication tool declares, built
by the size constructor with 15 buckets, `Insert` of the 15 distinct keys 1 to
15 returns every time and leaves `Size() = 0`, still 15 buckets and every one
of them occupied; afterwards `Find` of the absent key 16 never returns, and
neither does a further `Insert`. -/
theorem C11_insert_never_grows :
    defaultTable.backend_.buckets_ = 15 ∧
    fifteenInserted.map AutoProbing.Size = some 0 ∧
    fifteenInserted.map (fun a => a.backend_.buckets_) = some 15 ∧
    fifteenInserted.map (fun a => a.backend_.keys)
      = some [15, 1, 2, 3, 4, 5, 6, 7, 8, 9, 10, 11, 12, 13, 14] ∧
    fifteenInserted.map (fun a => decide a.backend_.HasGap) = some false ∧
    fifteenInserted.map (fun a => a.Find 16) = some FindResult.spin ∧
    fifteenInserted.map (fun a => (a.Insert plainEnv ⟨16, 1⟩).after.isNone) = some true := by
  decide

/-- C12 fails on the code: `main` tests `!strcmp("/dev/null", argv[2])`,
which holds exactly when the second argument is "/dev/null".  With four
arguments, `LoadTable` is called if and only if `argv[2]` is "/dev/null", and
then on that name; with a file name such as "table.bin" the table is left as
declared and nothing is read. -/
theorem C12_loads_exactly_dev_null :
    (∀ a0 a1 a2 a3 : String,
      mainStart [a0, a1, a2, a3] = if a2 = "/dev/null" then Start.loads a2 else Start.fresh) ∧
    mainStart ["dedupe", "in.txt", "table.bin", "out.bin"] = Start.fresh ∧
    mainStart ["dedupe", "in.txt", "/dev/null", "out.bin"] = Start.loads "/dev/null" := by
  have key : ∀ a0 a1 a2 a3 : String,
      mainStart [a0, a1, a2, a3] = if a2 = "/dev/null" then Start.loads a2 else Start.fresh := by
    intro a0 a1 a2 a3
    unfold mainStart cNot strcmp
    by_cases h : a2 = "/dev/null"
    · subst h
      simp
    · have h2 : ¬ ("/dev/null" = a2) := fun hc => h hc.symm
      simp only [List.length_cons, List.length_nil, List.getD_cons_succ, List.getD_cons_zero]
      rw [if_neg (by omega), if_neg h2, if_neg h]
      split <;> simp
  refine ⟨key, ?_, ?_⟩
  · rw [key]; decide
  · rw [key]; decide

namespace ProbingHashTable

/-! ## What a passing `CheckConsistency` establishes -/

/-- Two steps of a walk, both within one turn, that meet the same bucket are
the same step. -/
theorem walk_inj (N h r s : Nat) (hh : h < N) (hr : r < N) (hs : s < N)
    (he : (h + r) % N = (h + s) % N) : r = s := by
  rw [walk_split N h r hh (by omega), walk_split N h s hh (by omega)] at he
  split at he <;> split at he <;> omega

/-- Buckets after the one `lastGap` returns are occupied. -/
theorem lastGap_max (t : ProbingHashTable) :
    ∀ (n l : Nat), t.lastGap n = some l →
      ∀ i, l < i → i < n → t.keyAt i ≠ t.invalid_ := by
  intro n
  induction n with
  | zero => intro l h; cases h
  | succ n ih =>
    intro l h i hli hin
    rw [lastGap_succ] at h
    by_cases he : t.keyAt n = t.invalid_
    · rw [if_pos he] at h
      cases h
      omega
    · rw [if_neg he] at h
      rcases Nat.lt_or_ge i n with hlt | hge
      · exact ih l h i hli hlt
      · rw [show i = n by omega]; exact he

/-- When `lastGap` finds nothing, the buckets it looked at are occupied. -/
theorem lastGap_none (t : ProbingHashTable) :
    ∀ n, t.lastGap n = none → ∀ i, i < n → t.keyAt i ≠ t.invalid_ := by
  intro n
  induction n with
  | zero => intro _ i hi; omega
  | succ n ih =>
    intro h i hin
    rw [lastGap_succ] at h
    by_cases he : t.keyAt n = t.invalid_
    · rw [if_pos he] at h; cases h
    · rw [if_neg he] at h
      rcases Nat.lt_or_ge i n with hlt | hge
      · exact ih h i hlt
      · rw [show i = n by omega]; exact he

/-- The second loop of `CheckConsistency` never ends with a plain return. -/
theorem checkHead_not_ok (t : ProbingHashTable) (last : Option Nat) :
    ∀ n i, t.checkHead last n i ≠ Sum.inr CheckResult.ok := by
  intro n
  induction n with
  | zero => intro i h; cases h
  | succ n ih =>
    intro i
    rw [checkHead_succ]
    split
    · exact fun h => by cases h
    · split
      · exact fun h => by cases h
      · exact ih _

/-- When the second loop of `CheckConsistency` stops at bucket `g`, that
bucket is empty, and every bucket it passed is occupied and passed its test. -/
theorem checkHead_inl (t : ProbingHashTable) (last : Option Nat) :
    ∀ (n i g : Nat), t.checkHead last n i = Sum.inl g →
      i ≤ g ∧ g < i + n ∧ t.keyAt g = t.invalid_ ∧
      ∀ j, i ≤ j → j < g → t.keyAt j ≠ t.invalid_ ∧
        ¬ (t.Ideal (t.keyAt j) > j ∧ leLast (t.Ideal (t.keyAt j)) last = true) := by
  intro n
  induction n with
  | zero => intro i g h; cases h
  | succ n ih =>
    intro i g h
    rw [checkHead_succ] at h
    by_cases he : t.keyAt i = t.invalid_
    · rw [if_pos he] at h
      cases h
      exact ⟨Nat.le_refl _, by omega, he, fun j h1 h2 => by omega⟩
    · rw [if_neg he] at h
      by_cases hc : t.Ideal (t.keyAt i) > i ∧ leLast (t.Ideal (t.keyAt i)) last = true
      · rw [if_pos hc] at h; cases h
      · rw [if_neg hc] at h
        obtain ⟨h1, h2, h3, h4⟩ := ih (i + 1) g h
        refine ⟨by omega, by omega, h3, fun j hj1 hj2 => ?_⟩
        rcases Nat.lt_or_ge i j with hlt | hge
        · exact h4 j hlt hj2
        · rw [show j = i by omega]; exact ⟨he, hc⟩

/-- When the third loop of `CheckConsistency` returns, every occupied bucket
it looked at has its ideal bucket at or before it, with only occupied buckets
in between. -/
theorem checkTail_ok (t : ProbingHashTable) :
    ∀ (n i p : Nat), t.checkTail n i p = CheckResult.ok →
      (∀ r, p < r → r < i → t.keyAt r ≠ t.invalid_) →
      ∀ j, i ≤ j → j < i + n → t.keyAt j ≠ t.invalid_ →
        t.Ideal (t.keyAt j) ≤ j ∧
        ∀ r, t.Ideal (t.keyAt j) ≤ r → r < j → t.keyAt r ≠ t.invalid_ := by
  intro n
  induction n with
  | zero => intro i p _ _ j h1 h2; omega
  | succ n ih =>
    intro i p h hp j hj1 hj2 hocc
    rw [checkTail_succ] at h
    by_cases he : t.keyAt i = t.invalid_
    · rw [if_pos he] at h
      rcases Nat.lt_or_ge i j with hlt | hge
      · exact ih (i + 1) i h (fun r h1 h2 => by omega) j hlt (by omega) hocc
      · rw [show j = i by omega] at hocc; exact absurd he hocc
    · rw [if_neg he] at h
      by_cases hc : t.Ideal (t.keyAt i) > i ∨ t.Ideal (t.keyAt i) ≤ p
      · rw [if_pos hc] at h; cases h
      · rw [if_neg hc] at h
        have hp2 : ∀ r, p < r → r < i + 1 → t.keyAt r ≠ t.invalid_ := by
          intro r h1 h2
          rcases Nat.lt_or_ge r i with hlt | hge
          · exact hp r h1 hlt
          · rw [show r = i by omega]; exact he
        rcases Nat.lt_or_ge i j with hlt | hge
        · exact ih (i + 1) p h hp2 j hlt (by omega) hocc
        · have hji : j = i := by omega
          subst hji
          exact ⟨by omega, fun r h1 h2 => hp r (by omega) h2⟩

/-- A run of occupied buckets from `h` up to `j` makes `j` reachable from
`h`. -/
theorem Reach_of_run (t : ProbingHashTable) (h j : Nat) (hhj : h ≤ j) (hj : j < t.buckets_)
    (hall : ∀ r, h ≤ r → r < j → t.keyAt r ≠ t.invalid_) : t.Reach h j := by
  refine ⟨j - h, by omega, ?_, fun r hr => ?_⟩
  · rw [show h + (j - h) = j by omega, Nat.mod_eq_of_lt hj]
  · rw [Nat.mod_eq_of_lt (by omega)]
    exact hall _ (by omega) (by omega)

/-- Occupied buckets from `h` to the end of the block and from its start up
to `j` make `j` reachable from `h` around the end. -/
theorem Reach_of_wrap (t : ProbingHashTable) (h j : Nat) (hjh : j < h) (hh : h < t.buckets_)
    (hhigh : ∀ r, h ≤ r → r < t.buckets_ → t.keyAt r ≠ t.invalid_)
    (hlow : ∀ r, r < j → t.keyAt r ≠ t.invalid_) : t.Reach h j := by
  refine ⟨t.buckets_ - h + j, by omega, ?_, fun r hr => ?_⟩
  · rw [show h + (t.buckets_ - h + j) = j + t.buckets_ by omega, Nat.add_mod_right,
      Nat.mod_eq_of_lt (by omega)]
  · rw [walk_split _ h r hh (by omega)]
    split
    · exact hhigh _ (by omega) (by omega)
    · exact hlow _ (by omega)

/-- A table on which `CheckConsistency` returns has an empty bucket and
satisfies I2. -/
theorem I2_of_CheckConsistency (t : ProbingHashTable)
    (hok : t.CheckConsistency = CheckResult.ok) : t.HasGap ∧ t.I2 := by
  rw [CheckConsistency_eq] at hok
  by_cases h0 : t.lastGap t.buckets_ = some 0
  · rw [if_pos h0] at hok; cases hok
  rw [if_neg h0] at hok
  cases hc : t.checkHead (t.lastGap t.buckets_) t.buckets_ 0 with
  | inr r =>
    rw [hc] at hok
    have hr : r = CheckResult.ok := hok
    rw [hr] at hc
    exact absurd hc (t.checkHead_not_ok _ _ _)
  | inl g =>
    rw [hc] at hok
    have htail : t.checkTail (t.buckets_ - g) g g = CheckResult.ok := hok
    obtain ⟨_, hgB, hgk, hhead⟩ := t.checkHead_inl _ _ 0 g hc
    rw [Nat.zero_add] at hgB
    refine ⟨⟨g, hgB, hgk⟩, ?_⟩
    cases hl : t.lastGap t.buckets_ with
    | none => exact absurd hgk (t.lastGap_none _ hl g hgB)
    | some l =>
      obtain ⟨hlB, hlk⟩ := t.lastGap_some _ l hl
      have hmax := t.lastGap_max _ l hl
      have hgl : g ≤ l := by
        by_contra hcon
        exact hmax g (by omega) hgB hgk
      intro j hj hocc
      rcases Nat.lt_trichotomy j g with hlt | heq | hgt
      · obtain ⟨_, htest⟩ := hhead j (Nat.zero_le j) hlt
        rw [hl] at htest
        have hid : t.Ideal (t.keyAt j) < t.buckets_ := t.Ideal_lt _ (by omega)
        by_cases hle : t.Ideal (t.keyAt j) ≤ j
        · exact t.Reach_of_run _ j hle hj
            (fun r _ h2 => (hhead r (Nat.zero_le r) (by omega)).1)
        · have hgtl : l < t.Ideal (t.keyAt j) := by
            by_contra hcon
            exact htest ⟨by omega, by simp [leLast]; omega⟩
          exact t.Reach_of_wrap _ j (by omega) hid
            (fun r h1 h2 => hmax r (by omega) h2)
            (fun r h1 => (hhead r (Nat.zero_le r) (by omega)).1)
      · rw [heq] at hocc; exact absurd hgk hocc
      · obtain ⟨hle, hrun⟩ := t.checkTail_ok _ g g htail (fun r h1 h2 => by omega) j
          (by omega) (by omega) hocc
        exact t.Reach_of_run _ j hle hj hrun

/-- With pairwise-distinct keys, a bucket reachable from the ideal bucket of
its key is the one `Find` returns. -/
theorem Find_of_Reach (t : ProbingHashTable) (hI1 : t.I1) (i : Nat) (hi : i < t.buckets_)
    (hocc : t.keyAt i ≠ t.invalid_) (hr : t.Reach (t.Ideal (t.keyAt i)) i) :
    t.Find (t.keyAt i) = FindResult.found i := by
  obtain ⟨s, hs, hpos, hall⟩ := hr
  have hh : t.Ideal (t.keyAt i) < t.buckets_ := t.Ideal_lt _ (by omega)
  have hbefore : ∀ r, r < s →
      t.keyAt ((t.Ideal (t.keyAt i) + r) % t.buckets_) ≠ t.keyAt i ∧
      t.keyAt ((t.Ideal (t.keyAt i) + r) % t.buckets_) ≠ t.invalid_ := by
    intro r hr
    refine ⟨fun hc => ?_, hall r hr⟩
    have h1 := hI1 i hi _ (Nat.mod_lt _ (by omega)) hocc hc.symm
    have h2 := walk_inj _ _ s r hh hs (by omega) (hpos.trans h1)
    omega
  rw [Find_eq_probe, t.probe_stop _ s _ _ hh hs hbefore, hpos, if_pos rfl]

end ProbingHashTable

/-- C17.  For every probing table on which `CheckConsistency` returns without
raising: some bucket is empty and every occupied bucket is reached by the
forward walk from the ideal bucket of its key without passing an empty bucket
(I2); and when the keys of the occupied buckets are pairwise distinct (I1),
`Find` on the key of an occupied bucket `i` returns `true` with the handle
`i`. -/
theorem C17_check_validates (t : ProbingHashTable)
    (hok : t.CheckConsistency = CheckResult.ok) :
    t.HasGap ∧ t.I2 ∧
    (t.I1 → ∀ i, i < t.buckets_ → t.keyAt i ≠ t.invalid_ →
      t.Reach (t.Ideal (t.keyAt i)) i ∧ t.Find (t.keyAt i) = FindResult.found i) := by
  obtain ⟨hg, hI2⟩ := t.I2_of_CheckConsistency hok
  exact ⟨hg, hI2, fun hI1 i hi hocc =>
    ⟨hI2 i hi hocc, t.Find_of_Reach hI1 i hi hocc (hI2 i hi hocc)⟩⟩

/-- C17 at work on the block of 4 buckets holding key 5 in bucket 1. -/
theorem C17_witness :
    tableWithFive.CheckConsistency = CheckResult.ok ∧ tableWithFive.I1 ∧
    tableWithFive.keyAt 1 = 5 ∧
    tableWithFive.Find 5 = FindResult.found 1 :=
  ⟨by decide, by decide, by decide,
    ((C17_check_validates tableWithFive (by decide)).2.2 (by decide) 1 (by decide)
      (by decide)).2⟩

namespace ProbingHashTable

/-! ## Where an inserted entry lands -/

/-- Table left by `Insert` of `e` into bucket `q`. -/
theorem keyAt_put (t : ProbingHashTable) (q : Nat) (e : Entry) (j : Nat) :
    (t.incrEntries.store q e).keyAt j = if j = q then e.key else t.keyAt j := by
  by_cases h : j = q
  · rw [if_pos h, h, store_keyAt_same]
  · rw [if_neg h, store_keyAt_other _ _ h]
    rfl

/-- `Insert` below the capacity limit writes the entry into the first empty
bucket of the walk from the ideal bucket of its key. -/
theorem Insert_at (t : ProbingHashTable) (e : Entry) (s : Nat)
    (hcap : t.entries_ + 1 < t.buckets_) (hs : s < t.buckets_)
    (hempty : t.keyAt ((t.Ideal e.key + s) % t.buckets_) = t.invalid_)
    (hocc : ∀ r, r < s → t.keyAt ((t.Ideal e.key + r) % t.buckets_) ≠ t.invalid_) :
    t.Insert e = Outcome.ret (t.incrEntries.store ((t.Ideal e.key + s) % t.buckets_) e)
      ((t.Ideal e.key + s) % t.buckets_) := by
  have hle := t.incrEntries_entries_le
  have hfirst : t.incrEntries.firstEmpty t.incrEntries.buckets_ (t.incrEntries.Ideal e.key)
      = some ((t.Ideal e.key + s) % t.buckets_) := by
    have hf : t.buckets_ = s + (t.buckets_ - s - 1 + 1) := by omega
    change t.incrEntries.firstEmpty t.buckets_ (t.Ideal e.key) = _
    have hskip := t.incrEntries.firstEmpty_skip s (t.buckets_ - s - 1 + 1) (t.Ideal e.key)
      (t.Ideal_lt _ (by omega)) hocc
    rw [← hf] at hskip
    rw [hskip, firstEmpty_succ]
    exact if_pos hempty
  rw [Insert_eq, if_neg (by omega), t.incrEntries.UncheckedInsert_of_firstEmpty e _ hfirst]

/-- `Find` returns the first bucket of the walk that holds the key, when no
empty bucket comes before it. -/
theorem Find_at (t : ProbingHashTable) (k s : Nat) (hs : s < t.buckets_)
    (hk : t.keyAt ((t.Ideal k + s) % t.buckets_) = k)
    (hbefore : ∀ r, r < s → t.keyAt ((t.Ideal k + r) % t.buckets_) ≠ k ∧
      t.keyAt ((t.Ideal k + r) % t.buckets_) ≠ t.invalid_) :
    t.Find k = FindResult.found ((t.Ideal k + s) % t.buckets_) := by
  rw [Find_eq_probe, t.probe_stop k s _ _ (t.Ideal_lt _ (by omega)) hs hbefore, if_pos hk]

end ProbingHashTable

theorem clearedTable_buckets (N : Nat) : (clearedTable N).buckets_ = N :=
  Nat.mul_div_cancel _ (by decide)

theorem clearedTable_keyAt (N i : Nat) (hi : i < N) : (clearedTable N).keyAt i = 0 :=
  ProbingHashTable.Clear_keyAt _ _ i (by
    change i < N * sizeofEntry / sizeofEntry
    rw [Nat.mul_div_cancel _ (by decide : 0 < sizeofEntry)]
    exact hi)

/-- Residue of 23 for the bucket counts of the collision scenario. -/
theorem residue_23 (N : Nat) (hN : 10 ≤ N) (h16 : N ≠ 16) :
    23 % N < N ∧ 23 % N ≠ 7 ∧ (N = 15 → 23 % N = 8) ∧ (N ≠ 15 → 23 % N ≠ 8) := by
  rcases Nat.lt_or_ge N 24 with h | h
  · interval_cases N <;> omega
  · rw [Nat.mod_eq_of_lt (by omega)]
    omega


namespace ProbingHashTable

/-- A returning `Insert` wrote the entry into an empty bucket that the walk
from the ideal bucket of its key reaches before any other empty bucket. -/
theorem Insert_ret (t : ProbingHashTable) (e : Entry) (t1 : ProbingHashTable) (q : Nat)
    (h : t.Insert e = Outcome.ret t1 q) :
    t1 = t.incrEntries.store q e ∧ q < t.buckets_ ∧ t.keyAt q = t.invalid_ ∧
      ∃ s, s < t.buckets_ ∧ (t.Ideal e.key + s) % t.buckets_ = q ∧
        ∀ r, r < s → t.keyAt ((t.Ideal e.key + r) % t.buckets_) ≠ t.invalid_ := by
  rw [Insert_eq] at h
  by_cases hc : t.incrEntries.entries_ ≥ t.buckets_
  · rw [if_pos hc] at h; cases h
  · rw [if_neg hc] at h
    cases hu : t.incrEntries.UncheckedInsert e with
    | none => rw [hu] at h; cases h
    | some r =>
      rw [hu] at h
      obtain ⟨hfirst, hstore⟩ := t.incrEntries.UncheckedInsert_eq e r hu
      have ht1 : r.1 = t1 ∧ r.2 = q := by
        obtain ⟨r1, r2⟩ := r
        simp only [Outcome.ret.injEq] at h
        exact h
      rw [ht1.1, ht1.2] at hstore
      rw [ht1.2] at hfirst
      have hB : 0 < t.buckets_ := by omega
      obtain ⟨s, hs, hpos, hk, hall⟩ :=
        t.incrEntries.firstEmpty_sound _ _ q (t.Ideal_lt _ hB) hfirst
      exact ⟨hstore, by rw [← hpos]; exact Nat.mod_lt _ hB, hk, s, hs, hpos, hall⟩

end ProbingHashTable

/-- C19.  With the identity hash, invalid key 0 and a cleared block of `N`
buckets, `N >= 10` and `N != 16`: `Insert` of the keys 7, 23 and `7 + N`, in
that order and with any values, returns each time; key 7 is written to bucket
7, key 23 to bucket `23 % N`, which is not bucket 7 and is bucket 8 exactly
when `N = 15`, and key `7 + N` to bucket 8, or to bucket 9 when `N = 15`;
afterwards `Find` returns `true` for each of the three keys with a handle to
that bucket.  In general a returning `Insert` writes its entry into the first
empty bucket of the walk that starts at the ideal bucket of the key and wraps
past the end of the block. -/
theorem C19_collision_placement (N : Nat) (hN : 10 ≤ N) (h16 : N ≠ 16) (v1 v2 v3 : Nat) :
    (∃ t1 t2 t3,
      (clearedTable N).Insert ⟨7, v1⟩ = Outcome.ret t1 7 ∧
      t1.Insert ⟨23, v2⟩ = Outcome.ret t2 (23 % N) ∧
      t2.Insert ⟨7 + N, v3⟩ = Outcome.ret t3 (if N = 15 then 9 else 8) ∧
      23 % N ≠ 7 ∧ (23 % N = 8 ↔ N = 15) ∧
      t3.begin_ 7 = ⟨7, v1⟩ ∧ t3.begin_ (23 % N) = ⟨23, v2⟩ ∧
      t3.begin_ (if N = 15 then 9 else 8) = ⟨7 + N, v3⟩ ∧
      t3.Find 7 = FindResult.found 7 ∧
      t3.Find 23 = FindResult.found (23 % N) ∧
      t3.Find (7 + N) = FindResult.found (if N = 15 then 9 else 8)) ∧
    (∀ (t : ProbingHashTable) (e : Entry) (u : ProbingHashTable) (q : Nat),
      t.Insert e = Outcome.ret u q →
      u = t.incrEntries.store q e ∧ q < t.buckets_ ∧ t.keyAt q = t.invalid_ ∧
      ∃ s, s < t.buckets_ ∧ (t.Ideal e.key + s) % t.buckets_ = q ∧
        ∀ r, r < s → t.keyAt ((t.Ideal e.key + r) % t.buckets_) ≠ t.invalid_) := by
  refine ⟨?_, fun t e u q h => t.Insert_ret e u q h⟩
  obtain ⟨hp, hp7, hp15, hpn15⟩ := residue_23 N hN h16
  have hB0 := clearedTable_buckets N
  have hk0 := clearedTable_keyAt N
  obtain ⟨t0, ht0⟩ : ∃ t0, t0 = clearedTable N := ⟨_, rfl⟩
  rw [← ht0] at hB0 hk0
  have hinv0 : t0.invalid_ = 0 := by rw [ht0]; rfl
  have hhash0 : t0.hash_ = IdentityHash := by rw [ht0]; rfl
  have hent0 : t0.entries_ = 0 := by rw [ht0]; rfl
  obtain ⟨t1, ht1⟩ : ∃ t1, t1 = t0.incrEntries.store 7 ⟨7, v1⟩ := ⟨_, rfl⟩
  obtain ⟨t2, ht2⟩ : ∃ t2, t2 = t1.incrEntries.store (23 % N) ⟨23, v2⟩ := ⟨_, rfl⟩
  obtain ⟨q, hq⟩ : ∃ q, q = if N = 15 then 9 else 8 := ⟨_, rfl⟩
  obtain ⟨t3, ht3⟩ : ∃ t3, t3 = t2.incrEntries.store q ⟨7 + N, v3⟩ := ⟨_, rfl⟩
  have hq89 : (N = 15 ∧ q = 9) ∨ (N ≠ 15 ∧ q = 8) := by
    by_cases h : N = 15
    · left; rw [hq, if_pos h]; exact ⟨h, rfl⟩
    · right; rw [hq, if_neg h]; exact ⟨h, rfl⟩
  have hqp : q ≠ 23 % N := by
    rcases hq89 with ⟨h, hq9⟩ | ⟨h, hq8⟩
    · rw [hp15 h, hq9]; omega
    · rw [hq8]; exact fun hc => hpn15 h hc.symm
  -- fields
  have hB1 : t1.buckets_ = N := by rw [ht1]; exact hB0
  have hB2 : t2.buckets_ = N := by rw [ht2]; exact hB1
  have hB3 : t3.buckets_ = N := by rw [ht3]; exact hB2
  have hinv1 : t1.invalid_ = 0 := by rw [ht1]; exact hinv0
  have hinv2 : t2.invalid_ = 0 := by rw [ht2]; exact hinv1
  have hinv3 : t3.invalid_ = 0 := by rw [ht3]; exact hinv2
  have hid : ∀ (t : ProbingHashTable), t.hash_ = IdentityHash → t.buckets_ = N →
      ∀ k, t.Ideal k = k % N := by
    intro t h1 h2 k
    rw [ProbingHashTable.Ideal_def, h1, h2]; rfl
  have hhash1 : t1.hash_ = IdentityHash := by rw [ht1]; exact hhash0
  have hhash2 : t2.hash_ = IdentityHash := by rw [ht2]; exact hhash1
  have hhash3 : t3.hash_ = IdentityHash := by rw [ht3]; exact hhash2
  have hent1 : t1.entries_ = 1 := by
    rw [ht1, ProbingHashTable.store_entries, ProbingHashTable.incrEntries_entries, hent0]; rfl
  have hent2 : t2.entries_ = 2 := by
    rw [ht2, ProbingHashTable.store_entries, ProbingHashTable.incrEntries_entries, hent1]; rfl
  -- keys
  have hk1 : ∀ j, t1.keyAt j = if j = 7 then 7 else t0.keyAt j := by
    intro j; rw [ht1]; exact ProbingHashTable.keyAt_put _ _ _ _
  have hk2 : ∀ j, t2.keyAt j = if j = 23 % N then 23 else t1.keyAt j := by
    intro j; rw [ht2]; exact ProbingHashTable.keyAt_put _ _ _ _
  have hk3 : ∀ j, t3.keyAt j = if j = q then 7 + N else t2.keyAt j := by
    intro j; rw [ht3]; exact ProbingHashTable.keyAt_put _ _ _ _
  have m7 : 7 % N = 7 := Nat.mod_eq_of_lt (by omega)
  have m7N : (7 + N) % N = 7 := by rw [Nat.add_mod_right, m7]
  have m8 : (7 + 1) % N = 8 := Nat.mod_eq_of_lt (by omega)
  have m9 : (7 + 2) % N = 9 := Nat.mod_eq_of_lt (by omega)
  have m23 : 23 % N % N = 23 % N := Nat.mod_mod _ _
  -- the three calls
  have c1 : t0.Insert ⟨7, v1⟩ = Outcome.ret t1 7 := by
    have := t0.Insert_at ⟨7, v1⟩ 0 (by omega) (by omega)
      (by rw [hid t0 hhash0 hB0, hB0, Nat.add_zero, Nat.mod_mod, m7, hk0 7 (by omega), hinv0])
      (fun r hr => by omega)
    rw [hid t0 hhash0 hB0, hB0, Nat.add_zero, Nat.mod_mod] at this
    simp only [m7] at this
    rw [this, ht1]
  have c2 : t1.Insert ⟨23, v2⟩ = Outcome.ret t2 (23 % N) := by
    have := t1.Insert_at ⟨23, v2⟩ 0 (by omega) (by omega)
      (by rw [hid t1 hhash1 hB1, hB1, Nat.add_zero, Nat.mod_mod, hk1, if_neg hp7, hk0 _ hp,
            hinv1])
      (fun r hr => by omega)
    rw [hid t1 hhash1 hB1, hB1, Nat.add_zero, Nat.mod_mod] at this
    rw [this, ht2]
  have k2_7 : t2.keyAt 7 = 7 := by rw [hk2, if_neg (fun h => hp7 h.symm), hk1, if_pos rfl]
  have k2_8 : N = 15 → t2.keyAt 8 = 23 := by
    intro h; rw [hk2, if_pos (hp15 h).symm]
  have k2_q : t2.keyAt q = 0 := by
    rw [hk2, if_neg hqp, hk1, if_neg (by omega), hk0 q (by omega)]
  have c3 : t2.Insert ⟨7 + N, v3⟩ = Outcome.ret t3 q := by
    rcases hq89 with ⟨h, hq9⟩ | ⟨h, hq8⟩
    · have := t2.Insert_at ⟨7 + N, v3⟩ 2 (by omega) (by omega)
        (by rw [hid t2 hhash2 hB2, hB2, m7N, m9, ← hq9, k2_q, hinv2])
        (fun r hr => by
          rw [hid t2 hhash2 hB2, hB2, m7N, hinv2]
          have : r = 0 ∨ r = 1 := by omega
          rcases this with h0 | h1
          · rw [h0, Nat.add_zero, m7, k2_7]; omega
          · rw [h1, m8, k2_8 h]; omega)
      rw [hid t2 hhash2 hB2, hB2, m7N, m9, ← hq9] at this
      rw [this, ht3]
    · have := t2.Insert_at ⟨7 + N, v3⟩ 1 (by omega) (by omega)
        (by rw [hid t2 hhash2 hB2, hB2, m7N, m8, ← hq8, k2_q, hinv2])
        (fun r hr => by
          rw [hid t2 hhash2 hB2, hB2, m7N, hinv2]
          have h0 : r = 0 := by omega
          rw [h0, Nat.add_zero, m7, k2_7]; omega)
      rw [hid t2 hhash2 hB2, hB2, m7N, m8, ← hq8] at this
      rw [this, ht3]
  have k3_7 : t3.keyAt 7 = 7 := by rw [hk3, if_neg (by omega), k2_7]
  have k3_p : t3.keyAt (23 % N) = 23 := by
    rw [hk3, if_neg (fun h => hqp h.symm), hk2, if_pos rfl]
  have k3_q : t3.keyAt q = 7 + N := by rw [hk3, if_pos rfl]
  have f7 : t3.Find 7 = FindResult.found 7 := by
    have := t3.Find_at 7 0 (by omega)
      (by rw [hid t3 hhash3 hB3, hB3, Nat.add_zero, Nat.mod_mod, m7, k3_7])
      (fun r hr => by omega)
    rw [hid t3 hhash3 hB3, hB3, Nat.add_zero, Nat.mod_mod, m7] at this
    exact this
  have f23 : t3.Find 23 = FindResult.found (23 % N) := by
    have := t3.Find_at 23 0 (by omega)
      (by rw [hid t3 hhash3 hB3, hB3, Nat.add_zero, Nat.mod_mod, k3_p])
      (fun r hr => by omega)
    rw [hid t3 hhash3 hB3, hB3, Nat.add_zero, Nat.mod_mod] at this
    exact this
  have fN : t3.Find (7 + N) = FindResult.found q := by
    rcases hq89 with ⟨h, hq9⟩ | ⟨h, hq8⟩
    · have := t3.Find_at (7 + N) 2 (by omega)
        (by rw [hid t3 hhash3 hB3, hB3, m7N, m9, ← hq9, k3_q])
        (fun r hr => by
          rw [hid t3 hhash3 hB3, hB3, m7N, hinv3]
          have : r = 0 ∨ r = 1 := by omega
          rcases this with h0 | h1
          · rw [h0, Nat.add_zero, m7, k3_7]; omega
          · rw [h1, m8, ← hp15 h, k3_p]; omega)
      rw [hid t3 hhash3 hB3, hB3, m7N, m9, ← hq9] at this
      exact this
    · have := t3.Find_at (7 + N) 1 (by omega)
        (by rw [hid t3 hhash3 hB3, hB3, m7N, m8, ← hq8, k3_q])
        (fun r hr => by
          rw [hid t3 hhash3 hB3, hB3, m7N, hinv3]
          have h0 : r = 0 := by omega
          rw [h0, Nat.add_zero, m7, k3_7]; omega)
      rw [hid t3 hhash3 hB3, hB3, m7N, m8, ← hq8] at this
      exact this
  have b7 : t3.begin_ 7 = ⟨7, v1⟩ := by
    have hq7 : (7 : Nat) ≠ q := by omega
    rw [ht3, ProbingHashTable.store_begin_other _ _ hq7]
    change t2.begin_ 7 = _
    rw [ht2, ProbingHashTable.store_begin_other _ _ (fun h => hp7 h.symm)]
    change t1.begin_ 7 = _
    rw [ht1, ProbingHashTable.store_begin_same]
  have bp : t3.begin_ (23 % N) = ⟨23, v2⟩ := by
    rw [ht3, ProbingHashTable.store_begin_other _ _ (fun h => hqp h.symm)]
    change t2.begin_ (23 % N) = _
    rw [ht2, ProbingHashTable.store_begin_same]
  have bq : t3.begin_ q = ⟨7 + N, v3⟩ := by
    rw [ht3, ProbingHashTable.store_begin_same]
  refine ⟨t1, t2, t3, ?_, c2, ?_, hp7, ?_, b7, bp, ?_, f7, f23, ?_⟩
  · rw [← ht0]; exact c1
  · rw [← hq]; exact c3
  · exact ⟨fun h => by_contra (fun hc => hpn15 hc h), hp15⟩
  · rw [← hq]; exact bq
  · rw [← hq]; exact fN

/-- C19 at work with 15 buckets, where key 23 lands in bucket 8 and key 22
in bucket 9. -/
theorem C19_witness :
    (10 ≤ 15 ∧ 15 ≠ 16) ∧
    ∃ t1 t2 t3,
      (clearedTable 15).Insert ⟨7, 1⟩ = Outcome.ret t1 7 ∧
      t1.Insert ⟨23, 2⟩ = Outcome.ret t2 8 ∧
      t2.Insert ⟨22, 3⟩ = Outcome.ret t3 9 ∧
      t3.Find 7 = FindResult.found 7 ∧
      t3.Find 23 = FindResult.found 8 ∧
      t3.Find 22 = FindResult.found 9 := by
  refine ⟨by decide, ?_⟩
  obtain ⟨t1, t2, t3, h1, h2, h3, _, _, _, _, _, f1, f2, f3⟩ :=
    (C19_collision_placement 15 (by decide) (by decide) 1 2 3).1
  exact ⟨t1, t2, t3, h1, h2, h3, f1, f2, f3⟩

namespace ProbingHashTable

/-- A returning `FindOrInsert` leaves the bucket count alone. -/
theorem FindOrInsert_buckets (t : ProbingHashTable) (e : Entry) (b : ProbingHashTable)
    (r : Bool × Nat) (h : t.FindOrInsert e = Outcome.ret b r) : b.buckets_ = t.buckets_ := by
  rw [FindOrInsert_eq] at h
  cases hp : t.probe e.key t.buckets_ (t.Ideal e.key) with
  | hit i => rw [hp] at h; cases h; rfl
  | gap i =>
    rw [hp] at h
    dsimp only at h
    by_cases hc : t.incrEntries.entries_ ≥ t.buckets_
    · rw [if_pos hc] at h; cases h
    · rw [if_neg hc] at h; cases h; rfl
  | spin => rw [hp] at h; cases h

end ProbingHashTable

namespace AutoProbing

/-! ## Growth by doubling -/

theorem create_Grown (mem : Nat → Entry) (junk : Entry) (inv : Nat) (hash : Nat → Nat) :
    (create mem junk 10 inv hash).Grown 0 := by
  refine ⟨?_, ?_, ?_⟩
  · rw [create_buckets mem junk 10 inv hash (by norm_num)]; decide
  · rfl
  · rfl

/-- `DoubleIfNeeded` leaves a table below its threshold alone and doubles any
other. -/
theorem DoubleIfNeeded_Grown (a : AutoProbing) (env : Env) (a1 : AutoProbing) (k : Nat)
    (hG : a.Grown k) (h : a.DoubleIfNeeded env = some a1) :
    (a.Size < a.threshold_ → a1 = a) ∧ (¬ a.Size < a.threshold_ → a1.Grown (k + 1)) := by
  rw [DoubleIfNeeded_eq] at h
  by_cases hc : a.backend_.entries_ < a.threshold_
  · rw [if_pos hc] at h
    cases h
    exact ⟨fun _ => rfl, fun hn => absurd hc hn⟩
  · rw [if_neg hc] at h
    refine ⟨fun hn => absurd hn hc, fun _ => ?_⟩
    cases hb : a.backend_.Double (a.backend_.extend env.fresh) true env.junk with
    | none => rw [hb] at h; cases h
    | some b =>
      rw [hb] at h
      cases h
      obtain ⟨d1, _⟩ := a.backend_.Double_fields _ _ _ b hb
      obtain ⟨g1, g2, g3⟩ := hG
      refine ⟨?_, ?_, ?_⟩
      · change b.buckets_ = _
        rw [d1, g1, pow_succ]; ring
      · change a.backend_.buckets_ * 2 * sizeofEntry = _
        rw [g1, pow_succ]; ring
      · change a.threshold_ * 2 = _
        rw [g3, pow_succ]; ring

/-- A returning `FindOrInsert` doubles the table exactly when `Size()` had
reached the threshold. -/
theorem FindOrInsert_Grown (a : AutoProbing) (env : Env) (e : Entry) (a2 : AutoProbing)
    (r : Bool × Nat) (k : Nat) (hG : a.Grown k)
    (h : a.FindOrInsert env e = Outcome.ret a2 r) :
    (a.Size < a.threshold_ → a2.Grown k) ∧ (¬ a.Size < a.threshold_ → a2.Grown (k + 1)) := by
  rw [growable_FindOrInsert_eq] at h
  cases hd : a.DoubleIfNeeded env with
  | none => rw [hd] at h; cases h
  | some a1 =>
    rw [hd] at h
    dsimp only at h
    cases hf : a1.backend_.FindOrInsert e with
    | hang => rw [hf] at h; cases h
    | raise b => rw [hf] at h; cases h
    | ret b r2 =>
      rw [hf] at h
      cases h
      have hb := a1.backend_.FindOrInsert_buckets e b r hf
      have keep : ∀ j, a1.Grown j →
          ({ a1 with backend_ := b } : AutoProbing).Grown j := by
        intro j hj
        exact ⟨hb.trans hj.1, hj.2.1, hj.2.2⟩
      obtain ⟨h1, h2⟩ := a.DoubleIfNeeded_Grown env a1 k hG hd
      exact ⟨fun hc => keep k (by rw [h1 hc]; exact hG), fun hc => keep (k + 1) (h2 hc)⟩

/-- A returning `Insert` doubles the table exactly when `Size()` had reached
the threshold. -/
theorem Insert_Grown (a : AutoProbing) (env : Env) (e : Entry) (a2 : AutoProbing)
    (q : Nat) (k : Nat) (hG : a.Grown k) (h : a.Insert env e = Outcome.ret a2 q) :
    (a.Size < a.threshold_ → a2.Grown k) ∧ (¬ a.Size < a.threshold_ → a2.Grown (k + 1)) := by
  change (match a.DoubleIfNeeded env with
    | none => Outcome.hang
    | some a1 =>
      match a1.backend_.UncheckedInsert e with
      | none => Outcome.hang
      | some r => Outcome.ret { a1 with backend_ := r.1 } r.2) = _ at h
  cases hd : a.DoubleIfNeeded env with
  | none => rw [hd] at h; cases h
  | some a1 =>
    rw [hd] at h
    dsimp only at h
    cases hf : a1.backend_.UncheckedInsert e with
    | none => rw [hf] at h; cases h
    | some r =>
      rw [hf] at h
      cases h
      have hb : r.1.buckets_ = a1.backend_.buckets_ := by
        rw [(a1.backend_.UncheckedInsert_eq e r hf).2]; rfl
      have keep : ∀ j, a1.Grown j →
          ({ a1 with backend_ := r.1 } : AutoProbing).Grown j := by
        intro j hj
        exact ⟨hb.trans hj.1, hj.2.1, hj.2.2⟩
      obtain ⟨h1, h2⟩ := a.DoubleIfNeeded_Grown env a1 k hG hd
      exact ⟨fun hc => keep k (by rw [h1 hc]; exact hG), fun hc => keep (k + 1) (h2 hc)⟩

/-- A returning sequence of `FindOrInsert` calls leaves a doubled table, with
no fewer doublings than before. -/
theorem findOrInsertSeq_Grown :
    ∀ (calls : List (Env × Entry)) (a : AutoProbing) (k : Nat) (a2 : AutoProbing)
      (flags : List Bool), a.Grown k → a.findOrInsertSeq calls = some (a2, flags) →
      ∃ k2, k ≤ k2 ∧ a2.Grown k2 := by
  intro calls
  induction calls with
  | nil =>
    intro a k a2 flags hG h
    cases h
    exact ⟨k, Nat.le_refl k, hG⟩
  | cons c cs ih =>
    intro a k a2 flags hG h
    rw [findOrInsertSeq_cons] at h
    cases hf : a.FindOrInsert c.1 c.2 with
    | hang => rw [hf] at h; cases h
    | raise b => rw [hf] at h; cases h
    | ret a1 r =>
      rw [hf] at h
      dsimp only at h
      cases hs : a1.findOrInsertSeq cs with
      | none => rw [hs] at h; cases h
      | some p =>
        rw [hs] at h
        obtain ⟨a3, fl⟩ := p
        simp only [Option.some.injEq, Prod.mk.injEq] at h
        obtain ⟨g1, g2⟩ := a.FindOrInsert_Grown c.1 c.2 a1 r k hG hf
        by_cases hc : a.Size < a.threshold_
        · obtain ⟨k2, hk, hG2⟩ := ih a1 k a3 fl (g1 hc) hs
          exact ⟨k2, hk, by rw [← h.1]; exact hG2⟩
        · obtain ⟨k2, hk, hG2⟩ := ih a1 (k + 1) a3 fl (g2 hc) hs
          exact ⟨k2, by omega, by rw [← h.1]; exact hG2⟩

/-- The calls of a sequence that returns can be run in two parts. -/
theorem findOrInsertSeq_append :
    ∀ (xs ys : List (Env × Entry)) (a a2 : AutoProbing) (flags : List Bool),
      a.findOrInsertSeq (xs ++ ys) = some (a2, flags) →
      ∃ a1 f1 f2, a.findOrInsertSeq xs = some (a1, f1) ∧
        a1.findOrInsertSeq ys = some (a2, f2) := by
  intro xs
  induction xs with
  | nil => intro ys a a2 flags h; exact ⟨a, [], flags, rfl, h⟩
  | cons c cs ih =>
    intro ys a a2 flags h
    rw [List.cons_append, findOrInsertSeq_cons] at h
    rw [findOrInsertSeq_cons]
    cases hf : a.FindOrInsert c.1 c.2 with
    | hang => rw [hf] at h; cases h
    | raise b => rw [hf] at h; cases h
    | ret a1 r =>
      rw [hf] at h
      dsimp only at h ⊢
      cases hs : a1.findOrInsertSeq (cs ++ ys) with
      | none => rw [hs] at h; cases h
      | some p =>
        rw [hs] at h
        obtain ⟨a3, fl⟩ := p
        simp only [Option.some.injEq, Prod.mk.injEq] at h
        obtain ⟨b1, f1, f2, h1, h2⟩ := ih ys a1 a3 fl hs
        rw [h1]
        exact ⟨b1, r.1 :: f1, f2, rfl, by rw [h2, h.1]⟩

/-- Calls with fresh, pairwise-distinct proper keys on a tracking table: as
long as the number of keys seen stays within the threshold, no call doubles
the table; the call made with the threshold reached doubles it. -/
theorem fresh_calls_Grown :
    ∀ (calls : List (Env × Entry)) (a : AutoProbing) (seen : List Nat) (k : Nat),
      a.Tracks seen → a.Grown k →
      (∀ c, c ∈ calls → c.2.key ≠ a.backend_.invalid_ ∧ c.2.key < sizeMod) →
      (calls.map (fun c => c.2.key)).Nodup →
      (∀ c, c ∈ calls → c.2.key ∉ seen) →
      ∃ a2 flags, a.findOrInsertSeq calls = some (a2, flags) ∧
        (seen.toFinset.card + calls.length ≤ a.threshold_ → a2.Grown k) ∧
        (0 < calls.length → seen.toFinset.card + calls.length = a.threshold_ + 1 →
          a2.Grown (k + 1)) := by
  intro calls
  induction calls with
  | nil =>
    intro a seen k hT hG _ _ _
    exact ⟨a, [], rfl, fun _ => hG, fun h => absurd h (Nat.lt_irrefl 0)⟩
  | cons c cs ih =>
    intro a seen k hT hG hkeys hnd hfresh
    obtain ⟨hk, hks⟩ := hkeys c (List.mem_cons_self _ _)
    obtain ⟨a1, i, hf, hT1, hinv⟩ := a.FindOrInsert_Tracks c.1 c.2 seen hT hk hks
    have hcnew : c.2.key ∉ seen := hfresh c (List.mem_cons_self _ _)
    have hcard : (c.2.key :: seen).toFinset.card = seen.toFinset.card + 1 := by
      rw [List.toFinset_cons, Finset.card_insert_of_not_mem (by simpa using hcnew)]
    rw [List.map_cons, List.nodup_cons] at hnd
    have hkeys1 : ∀ d, d ∈ cs → d.2.key ≠ a1.backend_.invalid_ ∧ d.2.key < sizeMod :=
      fun d hd => by rw [hinv]; exact hkeys d (List.mem_cons_of_mem _ hd)
    have hfresh1 : ∀ d, d ∈ cs → d.2.key ∉ c.2.key :: seen := by
      intro d hd hmem
      rcases List.mem_cons.mp hmem with h | h
      · exact hnd.1 (by rw [← h]; exact List.mem_map_of_mem _ hd)
      · exact hfresh d (List.mem_cons_of_mem _ hd) h
    have hsize : a.Size = seen.toFinset.card := hT.count
    obtain ⟨g1, g2⟩ := a.FindOrInsert_Grown c.1 c.2 a1 _ k hG hf
    rw [findOrInsertSeq_cons, hf]
    dsimp only
    by_cases hc : a.Size < a.threshold_
    · have hG1 := g1 hc
      have hthr : a1.threshold_ = a.threshold_ := by rw [hG1.2.2, hG.2.2]
      obtain ⟨a2, flags, hseq, hA, hB⟩ := ih a1 (c.2.key :: seen) k hT1 hG1 hkeys1 hnd.2 hfresh1
      rw [hseq]
      refine ⟨a2, _, rfl, fun hle => ?_, fun _ heq => ?_⟩
      · apply hA
        rw [hcard, hthr]
        rw [List.length_cons] at hle
        omega
      · rw [List.length_cons] at heq
        apply hB
        · rw [hsize] at hc; omega
        · rw [hcard, hthr]; omega
    · have hG1 := g2 hc
      obtain ⟨a2, flags, hseq, _, _⟩ :=
        ih a1 (c.2.key :: seen) (k + 1) hT1 hG1 hkeys1 hnd.2 hfresh1
      rw [hseq]
      refine ⟨a2, _, rfl, fun hle => ?_, fun _ heq => ?_⟩
      · rw [List.length_cons] at hle
        rw [hsize] at hc
        omega
      · rw [List.length_cons] at heq
        rw [hsize] at hc
        have hlen : cs.length = 0 := by omega
        rw [List.length_eq_zero] at hlen
        rw [hlen] at hseq
        cases hseq
        exact hG1

end AutoProbing

/-- C13, as stated, fails for the invalid key: on the table the deduplication
tool declares (initial size 10, invalid key 0), thirteen `FindOrInsert` calls
with the pairwise-distinct keys 0, 1, ..., 12 leave 15 buckets, 240 bytes
allocated and threshold 12, because the call with key 0 finds the invalid key
in an empty bucket and counts nothing. -/
theorem C13_counterexample :
    (callsWithSentinel.map (fun c => c.2.key)).Nodup ∧ callsWithSentinel.length = 13 ∧
    (defaultTable.findOrInsertSeq callsWithSentinel).map
      (fun r => (r.1.backend_.buckets_, r.1.Allocated, r.1.threshold_, r.1.Size))
      = some (15, 15 * sizeofEntry, 12, 12) := by
  decide

/-- C13, amended.  The growable table built by the size constructor with
initial size 10 has 15 buckets, `Allocated() = 15 * sizeof(Entry)` and
threshold 12.  For `FindOrInsert` calls with pairwise-distinct 64-bit keys
other than the invalid key: every call returns; after at most 12 of them the
table still has 15 buckets, the same `Allocated()` and threshold 12, so no
reallocation has happened; after 13 of them it has 30 buckets,
`Allocated() = 30 * sizeof(Entry)` and threshold 24, so the 13th call doubled
it.  In general every returning `FindOrInsert` or `Insert` call on a table with
`15 * 2 ^ k` buckets, `Allocated() = 15 * 2 ^ k * sizeof(Entry)` and threshold
`12 * 2 ^ k` leaves such a table for `k` or for `k + 1`, the latter exactly
when `Size()` had reached the threshold; so after any returning sequence of
calls the table has this form for some `k`, and `k` never decreases when the
sequence is extended. -/
theorem C13_growth_schedule (mem : Nat → Entry) (junk : Entry) (inv : Nat)
    (hash : Nat → Nat) (hinv : inv < sizeMod) :
    ((AutoProbing.create mem junk 10 inv hash).backend_.buckets_ = 15 ∧
      (AutoProbing.create mem junk 10 inv hash).Allocated = 15 * sizeofEntry ∧
      (AutoProbing.create mem junk 10 inv hash).threshold_ = 12) ∧
    (∀ calls : List (Env × Entry),
      (∀ c, c ∈ calls → c.2.key ≠ inv ∧ c.2.key < sizeMod) →
      (calls.map (fun c => c.2.key)).Nodup →
      ∃ a2 flags, (AutoProbing.create mem junk 10 inv hash).findOrInsertSeq calls
          = some (a2, flags) ∧
        (calls.length ≤ 12 → a2.backend_.buckets_ = 15 ∧
          a2.Allocated = 15 * sizeofEntry ∧ a2.threshold_ = 12) ∧
        (calls.length = 13 → a2.backend_.buckets_ = 30 ∧
          a2.Allocated = 30 * sizeofEntry ∧ a2.threshold_ = 24)) ∧
    (∀ (a : AutoProbing) (k : Nat) (env : Env) (e : Entry) (a2 : AutoProbing), a.Grown k →
      ((∀ r, a.FindOrInsert env e = Outcome.ret a2 r →
        (a.Size < a.threshold_ → a2.Grown k) ∧ (¬ a.Size < a.threshold_ → a2.Grown (k + 1))) ∧
      (∀ q, a.Insert env e = Outcome.ret a2 q →
        (a.Size < a.threshold_ → a2.Grown k) ∧
          (¬ a.Size < a.threshold_ → a2.Grown (k + 1))))) ∧
    (∀ (calls more : List (Env × Entry)) (a1 a2 : AutoProbing) (f1 f2 : List Bool),
      (AutoProbing.create mem junk 10 inv hash).findOrInsertSeq calls = some (a1, f1) →
      (AutoProbing.create mem junk 10 inv hash).findOrInsertSeq (calls ++ more)
        = some (a2, f2) →
      ∃ k1 k2, k1 ≤ k2 ∧ a1.Grown k1 ∧ a2.Grown k2) := by
  have hG0 := AutoProbing.create_Grown mem junk inv hash
  have hT0 := AutoProbing.create_Tracks mem junk 10 inv hash (by norm_num) hinv
  refine ⟨⟨hG0.1, hG0.2.1, hG0.2.2⟩, ?_, ?_, ?_⟩
  · intro calls hkeys hnd
    obtain ⟨a2, flags, hseq, hA, hB⟩ := AutoProbing.fresh_calls_Grown calls _ [] 0 hT0 hG0
      hkeys hnd (fun c _ h => absurd h (List.not_mem_nil _))
    have hthr : (AutoProbing.create mem junk 10 inv hash).threshold_ = 12 := rfl
    rw [hthr] at hA hB
    refine ⟨a2, flags, hseq, fun hle => ?_, fun heq => ?_⟩
    · have := hA (by simpa using hle)
      exact ⟨this.1, this.2.1, this.2.2⟩
    · have := hB (by omega) (by simpa using heq)
      exact ⟨this.1, this.2.1, this.2.2⟩
  · intro a k env e a2 hG
    exact ⟨fun r h => a.FindOrInsert_Grown env e a2 r k hG h,
      fun q h => a.Insert_Grown env e a2 q k hG h⟩
  · intro calls more a1 a2 f1 f2 h1 h2
    obtain ⟨k1, _, hG1⟩ := AutoProbing.findOrInsertSeq_Grown calls _ 0 a1 f1 hG0 h1
    obtain ⟨b1, g1, g2, hb1, hb2⟩ := AutoProbing.findOrInsertSeq_append calls more _ a2 f2 h2
    rw [h1] at hb1
    simp only [Option.some.injEq, Prod.mk.injEq] at hb1
    rw [← hb1.1] at hb2
    obtain ⟨k2, hk, hG2⟩ := AutoProbing.findOrInsertSeq_Grown more a1 k1 a2 g2 hG1 hb2
    exact ⟨k1, k2, hk, hG1, hG2⟩

/-- C13 at work on the table the deduplication tool declares: after the 12
calls with the keys 1 to 12 it has 15 buckets, and after the 13 calls with the
keys 1 to 13 it has 30 buckets and threshold 24. -/
theorem C13_witness :
    ((0 : Nat) < sizeMod ∧
      (∀ c, c ∈ callsFrom 0 13 → c.2.key ≠ 0 ∧ c.2.key < sizeMod) ∧
      ((callsFrom 0 13).map (fun c => c.2.key)).Nodup) ∧
    ∃ a2 flags, defaultTable.findOrInsertSeq (callsFrom 0 13) = some (a2, flags) ∧
      a2.backend_.buckets_ = 30 ∧ a2.Allocated = 30 * sizeofEntry ∧ a2.threshold_ = 24 := by
  have hkeys : ∀ c, c ∈ callsFrom 0 13 → c.2.key ≠ 0 ∧ c.2.key < sizeMod := by decide
  have hnd : ((callsFrom 0 13).map (fun c => c.2.key)).Nodup := by decide
  refine ⟨⟨by decide, hkeys, hnd⟩, ?_⟩
  obtain ⟨a2, flags, hseq, _, h13⟩ :=
    (C13_growth_schedule (fun _ => ⟨1, 1⟩) ⟨1, 1⟩ 0 IdentityHash (by decide)).2.1
      (callsFrom 0 13) hkeys hnd
  exact ⟨a2, flags, hseq, h13 rfl⟩

namespace AutoProbing

/-- On the `FindOrInsert` path the growable table (initial size below
`2 ^ 59`) keeps its headroom: after any sequence of calls with 64-bit keys
other than the invalid key, fewer
buckets are occupied than the block has, and `Find` returns for every key. -/
theorem findOrInsertSeq_keeps_gap (mem : Nat → Entry) (junk : Entry) (n inv : Nat)
    (hash : Nat → Nat) (hn : n < 2 ^ 59) (hinv : inv < sizeMod) (calls : List (Env × Entry))
    (hkeys : ∀ c, c ∈ calls → c.2.key ≠ inv ∧ c.2.key < sizeMod) :
    ∃ a2 flags, (create mem junk n inv hash).findOrInsertSeq calls = some (a2, flags) ∧
      Multiset.card a2.backend_.live < a2.backend_.buckets_ ∧
      ∀ k, a2.Find k ≠ FindResult.spin := by
  obtain ⟨a2, hseq, hT⟩ := findOrInsertSeq_Tracks calls _ []
    (create_Tracks mem junk n inv hash hn hinv) hkeys
  have hlt : Multiset.card a2.backend_.live < a2.backend_.buckets_ := by
    rw [hT.card]; exact hT.headroom.2
  refine ⟨a2, _, hseq, hlt, fun k => ?_⟩
  have hg := a2.backend_.HasGap_of_card_lt hlt
  obtain ⟨m, hm, hne, hst⟩ := a2.backend_.probe_terminates k (a2.backend_.Ideal k)
    (a2.backend_.Ideal_lt k (ProbingHashTable.HasGap_pos hg)) hg
  change a2.backend_.Find k ≠ _
  rw [ProbingHashTable.Find_eq_probe, hst _ hm]
  cases hp : a2.backend_.probe k m (a2.backend_.Ideal k) with
  | hit i => exact fun h => by cases h
  | gap i => exact fun h => by cases h
  | spin => exact absurd hp hne

end AutoProbing

namespace ProbingHashTable

/-! ## Lookups with the invalid key -/

/-- With an empty bucket in the block, `FindOrInsert` with the invalid key
returns `true` at the first empty bucket of the walk and leaves the table as
it is. -/
theorem FindOrInsert_invalid (t : ProbingHashTable) (e : Entry) (hg : t.HasGap)
    (hk : e.key = t.invalid_) :
    ∃ i, t.FindOrInsert e = Outcome.ret t (true, i) ∧ i < t.buckets_ ∧
      t.keyAt i = t.invalid_ ∧ t.Reach (t.Ideal e.key) i := by
  have hB := HasGap_pos hg
  have hh := t.Ideal_lt e.key hB
  obtain ⟨n, hn, hne, hst⟩ := t.probe_terminates e.key (t.Ideal e.key) hh hg
  have key := t.probe_sound e.key t.buckets_ (t.Ideal e.key) hh
  rw [FindOrInsert_eq]
  cases hp : t.probe e.key t.buckets_ (t.Ideal e.key) with
  | hit i =>
    rw [hp] at key
    obtain ⟨s, hs, hpos, hik, hall⟩ := key
    exact ⟨i, rfl, by rw [← hpos]; exact Nat.mod_lt _ hB, by rw [hik, hk], s, hs, hpos,
      fun r hr => (hall r hr).2⟩
  | gap i =>
    rw [hp] at key
    obtain ⟨s, _, _, hik, hie, _⟩ := key
    exact absurd (hie.trans hk.symm) hik
  | spin =>
    rw [hst _ hn] at hp
    exact absurd hp hne

end ProbingHashTable

namespace AutoProbing

/-- `DoubleIfNeeded` keeps the invalid key. -/
theorem DoubleIfNeeded_invalid (a : AutoProbing) (env : Env) (a1 : AutoProbing)
    (hd : a.DoubleIfNeeded env = some a1) : a1.backend_.invalid_ = a.backend_.invalid_ := by
  rw [DoubleIfNeeded_eq] at hd
  by_cases hc : a.backend_.entries_ < a.threshold_
  · rw [if_pos hc] at hd; cases hd; rfl
  · rw [if_neg hc] at hd
    cases hb : a.backend_.Double (a.backend_.extend env.fresh) true env.junk with
    | none => rw [hb] at hd; cases hd
    | some b =>
      rw [hb] at hd
      cases hd
      exact (a.backend_.Double_fields _ _ _ b hb).2.1

/-- `FindOrInsert` with the invalid key on a tracking table returns `true`
with a handle to an empty bucket, and the table tracks the same keys as
before. -/
theorem FindOrInsert_invalid_Tracks (a : AutoProbing) (env : Env) (e : Entry)
    (seen : List Nat) (hT : a.Tracks seen) (hk : e.key = a.backend_.invalid_) :
    ∃ a2 i, a.FindOrInsert env e = Outcome.ret a2 (true, i) ∧ a2.Tracks seen ∧
      a2.backend_.invalid_ = a.backend_.invalid_ ∧ a2.Size = a.Size ∧
      i < a2.backend_.buckets_ ∧ a2.backend_.keyAt i = a2.backend_.invalid_ := by
  obtain ⟨a1, hd, hT1, hroom⟩ := a.DoubleIfNeeded_Tracks env seen hT
  have hinv1 := a.DoubleIfNeeded_invalid env a1 hd
  have hsize : a1.Size = a.Size := by
    change a1.backend_.entries_ = a.backend_.entries_
    rw [hT1.count, hT.count]
  have hg : a1.backend_.HasGap := by
    apply a1.backend_.HasGap_of_card_lt
    rw [hT1.card]; omega
  obtain ⟨i, hf, hi, hik, _⟩ := a1.backend_.FindOrInsert_invalid e hg (by rw [hinv1]; exact hk)
  refine ⟨a1, i, ?_, hT1, hinv1, hsize, hi, hik⟩
  rw [growable_FindOrInsert_eq, hd]
  dsimp only
  rw [hf]

end AutoProbing

/-- In a run of `IsNewLine` over lines with 64-bit hashes on a tracking table,
every line whose hash is the invalid key is answered `false`. -/
theorem isNewLineSeq_invalid (murmur : String → Nat) :
    ∀ (lines : List (Env × String)) (a : AutoProbing) (seen : List Nat), a.Tracks seen →
      (∀ c, c ∈ lines → murmur c.2 < sizeMod) →
      ∃ a2 answers, isNewLineSeq murmur a lines = some (a2, answers) ∧
        ∀ (i : Nat) (c : Env × String), lines[i]? = some c → murmur c.2 = a.backend_.invalid_ →
          answers[i]? = some false := by
  intro lines
  induction lines with
  | nil =>
    intro a seen _ _
    exact ⟨a, [], rfl, fun i c h => by simp at h⟩
  | cons c cs ih =>
    intro a seen hT hsmall
    have hrest : ∀ d, d ∈ cs → murmur d.2 < sizeMod :=
      fun d hd => hsmall d (List.mem_cons_of_mem _ hd)
    have hkey : (c.1.junk.SetKey (murmur c.2)).key = murmur c.2 := rfl
    rw [isNewLineSeq_cons, IsNewLine_eq]
    by_cases hz : murmur c.2 = a.backend_.invalid_
    · obtain ⟨a1, i, hf, hT1, hinv, _⟩ :=
        a.FindOrInsert_invalid_Tracks c.1 (c.1.junk.SetKey (murmur c.2)) seen hT
          (hkey.trans hz)
      obtain ⟨a2, answers, hseq, hans⟩ := ih a1 seen hT1 hrest
      rw [hf]
      dsimp only
      rw [hseq]
      refine ⟨a2, _, rfl, ?_⟩
      intro j d hj hd
      cases j with
      | zero => simp
      | succ j =>
        rw [List.getElem?_cons_succ] at hj ⊢
        exact hans j d hj (by rw [hinv]; exact hd)
    · obtain ⟨a1, i, hf, hT1, hinv⟩ :=
        a.FindOrInsert_Tracks c.1 (c.1.junk.SetKey (murmur c.2)) seen hT
          (by rw [hkey]; exact hz) (by rw [hkey]; exact hsmall c (List.mem_cons_self _ _))
      obtain ⟨a2, answers, hseq, hans⟩ := ih a1 _ hT1 hrest
      rw [hf]
      dsimp only
      rw [hseq]
      refine ⟨a2, _, rfl, ?_⟩
      intro j d hj hd
      cases j with
      | zero =>
        rw [List.getElem?_cons_zero] at hj
        cases hj
        exact absurd hd hz
      | succ j =>
        rw [List.getElem?_cons_succ] at hj ⊢
        exact hans j d hj (by rw [hinv]; exact hd)

/-- C21.  For every probing table with an empty bucket in its block,
`FindOrInsert` with an entry whose key is the invalid key returns `true` with
a handle to an empty bucket, the first one of the walk from the ideal bucket,
and returns the table it was called on: no bucket and no count has changed.
For the growable table, `IsNewLine` on a line whose hash is the invalid key
returns `false` and leaves the table as it is whenever `Size()` is below the
threshold and the block has an empty bucket.  In the deduplication tool
(initial size 10, invalid key 0, identity hash), in every run of `IsNewLine`
over lines with 64-bit hashes, every call returns and each line whose hash is
0 is answered `false`, its first occurrence included. -/
theorem C21_sentinel_reported_found :
    (∀ (t : ProbingHashTable) (e : Entry), t.HasGap → e.key = t.invalid_ →
      ∃ i, t.FindOrInsert e = Outcome.ret t (true, i) ∧ i < t.buckets_ ∧
        t.keyAt i = t.invalid_ ∧ t.Reach (t.Ideal e.key) i) ∧
    (∀ (murmur : String → Nat) (a : AutoProbing) (env : Env) (l : String),
      a.backend_.HasGap → a.Size < a.threshold_ → murmur l = a.backend_.invalid_ →
      IsNewLine murmur a env l = Outcome.ret a false) ∧
    (∀ (mem : Nat → Entry) (junk : Entry) (murmur : String → Nat)
      (lines : List (Env × String)), (∀ c, c ∈ lines → murmur c.2 < sizeMod) →
      ∃ a2 answers,
        isNewLineSeq murmur (AutoProbing.create mem junk 10 0 IdentityHash) lines
          = some (a2, answers) ∧
        ∀ (i : Nat) (c : Env × String), lines[i]? = some c → murmur c.2 = 0 → answers[i]? = some false) := by
  refine ⟨fun t e hg hk => t.FindOrInsert_invalid e hg hk, ?_, ?_⟩
  · intro murmur a env l hg hlt hz
    obtain ⟨i, hf, _⟩ := a.backend_.FindOrInsert_invalid (env.junk.SetKey (murmur l)) hg hz
    have hd : a.DoubleIfNeeded env = some a := by
      rw [AutoProbing.DoubleIfNeeded_eq]
      exact if_pos hlt
    rw [IsNewLine_eq, AutoProbing.growable_FindOrInsert_eq, hd]
    dsimp only
    rw [hf]
    rfl
  · intro mem junk murmur lines hsmall
    exact isNewLineSeq_invalid murmur lines _ []
      (AutoProbing.create_Tracks mem junk 10 0 IdentityHash (by norm_num) (by decide)) hsmall

/-- C21 at work: on the block of 4 buckets holding key 5, `FindOrInsert` of
key 0 reports `true` at the empty bucket 0; and with the line length standing
in for the hash, the empty line is answered `false` both times it is read. -/
theorem C21_witness :
    (tableWithFive.HasGap ∧ (⟨0, 9⟩ : Entry).key = tableWithFive.invalid_ ∧
      ∀ c, c ∈ exampleLines → lengthAsHash c.2 < sizeMod) ∧
    (∃ i, tableWithFive.FindOrInsert ⟨0, 9⟩ = Outcome.ret tableWithFive (true, i) ∧
      i < tableWithFive.buckets_ ∧ tableWithFive.keyAt i = tableWithFive.invalid_ ∧
      tableWithFive.Reach (tableWithFive.Ideal (⟨0, 9⟩ : Entry).key) i) ∧
    ∃ a2 answers, isNewLineSeq lengthAsHash defaultTable exampleLines = some (a2, answers) ∧
      answers[0]? = some false ∧ answers[2]? = some false := by
  have hsmall : ∀ c, c ∈ exampleLines → lengthAsHash c.2 < sizeMod := by decide
  refine ⟨⟨by decide, rfl, hsmall⟩,
    C21_sentinel_reported_found.1 tableWithFive ⟨0, 9⟩ (by decide) rfl, ?_⟩
  obtain ⟨a2, answers, hseq, hans⟩ :=
    C21_sentinel_reported_found.2.2 (fun _ => ⟨1, 1⟩) ⟨1, 1⟩ lengthAsHash exampleLines hsmall
  exact ⟨a2, answers, hseq, hans 0 (plainEnv, "") rfl (by decide),
    hans 2 (plainEnv, "") rfl (by decide)⟩

end util
